import Mathlib

/-!
# Seeded region growing (`sampleCode.cpp`)

A shallow embedding of the segmentation engine of `sampleCode.cpp`: the
`RegionGrower` class (seeding, breadth-first growth, border statistics, merge
sweep, remap), `RegionGrower::drawRegionBorders` and `filterNoise`.

Conventions of the embedding.

* A `cv::Mat` of element type `uchar` is a record of its dimensions and of a
  total read function `data y x` (row first, as `Mat::at<uchar>(y, x)`).
  Coordinates are `Int`, as they are `int` in the source (`x - 1` may be `-1`).
* `static_cast<uchar>(v)` is `v % 256`.
* `std::queue<PixelInfo>` is a list: `front`/`pop` take the head, `push`
  appends at the end.
* `ceil(sqrt(seedCount))` is the least natural `g` with `seedCount ≤ g * g`
  (the double-precision square root of an `int` is exact on perfect squares
  and never reaches the next integer otherwise).
* The `while (!pixelQueue.empty())` loop is iterated with an explicit bound on
  the number of pops.
-/

namespace TP1

/-! ## Data model -/

/-- The class `PixelInfo`: four `int` fields. -/
structure PixelInfo where
  category : Int
  posX : Int
  posY : Int
  intensity : Int
deriving DecidableEq, Repr

/-- A single-channel 8-bit `cv::Mat`. -/
structure Mat where
  rows : Nat
  cols : Nat
  data : Int → Int → Nat

/-- The statement `m.at<uchar>(y, x) = v`. -/
def Mat.set (m : Mat) (y x : Int) (v : Nat) : Mat :=
  { m with data := fun i j => if i = y ∧ j = x then v else m.data i j }

/-- The call `Mat::zeros(rows, cols, CV_8UC1)`. -/
def Mat.zeros (rows cols : Nat) : Mat :=
  { rows := rows, cols := cols, data := fun _ _ => 0 }

/-- The conversion `static_cast<uchar>(v)`. -/
def toUchar (v : Int) : Nat := (v % 256).toNat

/-- The mutable members of `RegionGrower` used by seeding and growth. -/
structure RegionGrower where
  originalImage : Mat
  regionMap : Mat
  pixelQueue : List PixelInfo

/-- The constructor `RegionGrower::RegionGrower(img)`: an all-zero label grid
of the dimensions of the image and an empty queue. -/
def RegionGrower.new (img : Mat) : RegionGrower :=
  { originalImage := img, regionMap := Mat.zeros img.rows img.cols, pixelQueue := [] }

/-! ## Neighbourhood and growth criterion -/

/-- The method `RegionGrower::isValidCoordinate`. -/
def isValidCoordinate (g : RegionGrower) (x y : Int) : Bool :=
  (decide (y ≥ 0) && decide (y < (g.originalImage.rows : Int))) &&
    (decide (x ≥ 0) && decide (x < (g.originalImage.cols : Int)))

/-- The method `RegionGrower::addNeighbor`. -/
def addNeighbor (g : RegionGrower) (x y : Int) (neighbors : List PixelInfo) : List PixelInfo :=
  if isValidCoordinate g x y then
    neighbors ++ [{ category := (g.regionMap.data y x : Int), posX := x, posY := y,
                    intensity := (g.originalImage.data y x : Int) }]
  else neighbors

/-- The method `RegionGrower::findNeighbors`: left, right, up, down. -/
def findNeighbors (g : RegionGrower) (pixel : PixelInfo) : List PixelInfo :=
  let n0 : List PixelInfo := []
  let n1 := addNeighbor g (pixel.posX - 1) pixel.posY n0
  let n2 := addNeighbor g (pixel.posX + 1) pixel.posY n1
  let n3 := addNeighbor g pixel.posX (pixel.posY - 1) n2
  addNeighbor g pixel.posX (pixel.posY + 1) n3

/-- The method `RegionGrower::growthCriterion`. -/
def growthCriterion (current neighbor : PixelInfo) : Bool :=
  decide (|current.intensity - neighbor.intensity| ≤ 3)

/-- The method `RegionGrower::mergeCriterion`. -/
def mergeCriterion (current neighbor : Int) : Bool :=
  decide (|current - neighbor| ≤ 10)

/-! ## Seeding -/

/-- Search for the least `g` with `n ≤ g * g`, starting at `g`. -/
def ceilSqrtFrom (n : Nat) : Nat → Nat → Nat
  | 0, g => g
  | fuel + 1, g => if n ≤ g * g then g else ceilSqrtFrom n fuel (g + 1)

/-- The expression `ceil(sqrt(seedCount))` converted to `int`. -/
def ceilSqrt (n : Nat) : Nat := ceilSqrtFrom n n 0

/-- The body of the inner seeding loop after the `break` test, for cell
`(i, j)`: candidate position, clamping, acceptance test. -/
def seedCell (dx dy i j : Nat) (s : RegionGrower × Int) : RegionGrower × Int :=
  let g := s.1
  let seedIndex := s.2
  let x0 : Int := (j : Int) * dx + (dx : Int) / 2
  let y0 : Int := (i : Int) * dy + (dy : Int) / 2
  let x : Int := if x0 ≥ (g.originalImage.cols : Int) then (g.originalImage.cols : Int) - 1 else x0
  let y : Int := if y0 ≥ (g.originalImage.rows : Int) then (g.originalImage.rows : Int) - 1 else y0
  if g.regionMap.data y x = 0 then
    ({ g with
        pixelQueue := g.pixelQueue ++
          [{ category := seedIndex, posX := x, posY := y,
             intensity := (g.originalImage.data y x : Int) }],
        regionMap := g.regionMap.set y x (toUchar seedIndex) },
      seedIndex + 1)
  else s

/-- The inner seeding loop over the remaining columns `js` of row `i`; it is
left by `break` as soon as `seedIndex > seedCount`. -/
def seedRow (seedCount dx dy i : Nat) : List Nat → RegionGrower × Int → RegionGrower × Int
  | [], s => s
  | j :: js, s =>
    if s.2 > (seedCount : Int) then s
    else seedRow seedCount dx dy i js (seedCell dx dy i j s)

/-- The seeding part of `RegionGrower::execute`: both loops, starting with
`seedIndex = 1`. The result is the grower and the final `seedIndex`. -/
def seedLoop (g : RegionGrower) (seedCount : Nat) : RegionGrower × Int :=
  let gridRows := ceilSqrt seedCount
  let gridCols := ceilSqrt seedCount
  let dx := g.originalImage.cols / gridCols
  let dy := g.originalImage.rows / gridRows
  (List.range gridRows).foldl
    (fun s i => seedRow seedCount dx dy i (List.range gridCols) s) (g, 1)

/-- The grower once seeding is finished. -/
def seeding (g : RegionGrower) (seedCount : Nat) : RegionGrower :=
  (seedLoop g seedCount).1

/-! ## Region growth -/

/-- The body of the `for (auto& neighbor : neighbors)` loop. -/
def visitNeighbor (current : PixelInfo) (g : RegionGrower) (neighbor : PixelInfo) :
    RegionGrower :=
  if growthCriterion current neighbor &&
      decide (g.regionMap.data neighbor.posY neighbor.posX = 0) then
    { g with
        regionMap := g.regionMap.set neighbor.posY neighbor.posX (toUchar current.category),
        pixelQueue := g.pixelQueue ++ [{ neighbor with category := current.category }] }
  else g

/-- One iteration of the growth loop on a non-empty queue: pop the front,
compute its neighbours, visit each. On an empty queue nothing happens. -/
def growStep (g : RegionGrower) : RegionGrower :=
  match g.pixelQueue with
  | [] => g
  | current :: rest =>
    let g1 := { g with pixelQueue := rest }
    (findNeighbors g1 current).foldl (visitNeighbor current) g1

/-- The loop `while (!pixelQueue.empty())`, cut after `fuel` pops. -/
def growLoop : Nat → RegionGrower → RegionGrower
  | 0, g => g
  | fuel + 1, g =>
    match g.pixelQueue with
    | [] => g
    | _ :: _ => growLoop fuel (growStep g)

/-- Seeding followed by region growth with at most `rows * cols` pops. -/
def seedAndGrow (img : Mat) (seedCount : Nat) : RegionGrower :=
  growLoop (img.rows * img.cols) (seeding (RegionGrower.new img) seedCount)

/-! ## Border statistics, merge sweep and remap -/

/-- The matrices `borderEffectiveness` (`CV_32S`) and `borderSimilarity`
(`CV_64F`), read as `m i j` for `m.at<T>(i, j)`. The doubles hold counts and
quotients of counts; they are exact rationals here. -/
structure BorderStats where
  borderEffectiveness : Nat → Nat → Nat
  borderSimilarity : Nat → Nat → ℚ

/-- Both matrices as `Mat::zeros(seedCount + 1, seedCount + 1, _)`. -/
def BorderStats.zeros : BorderStats :=
  { borderEffectiveness := fun _ _ => 0, borderSimilarity := fun _ _ => 0 }

/-- The statement `borderEffectiveness.at<int>(a, b)++`. -/
def BorderStats.incEffectiveness (st : BorderStats) (a b : Nat) : BorderStats :=
  { st with borderEffectiveness := fun i j =>
      if i = a ∧ j = b then st.borderEffectiveness i j + 1 else st.borderEffectiveness i j }

/-- The statement `borderSimilarity.at<double>(a, b)++`. -/
def BorderStats.incSimilarity (st : BorderStats) (a b : Nat) : BorderStats :=
  { st with borderSimilarity := fun i j =>
      if i = a ∧ j = b then st.borderSimilarity i j + 1 else st.borderSimilarity i j }

/-- One of the two blocks of the border scan: the pixel `(i, j)` against the
neighbour `(i2, j2)`. -/
def scanPair (img labels : Mat) (i j i2 j2 : Int) (st : BorderStats) : BorderStats :=
  let currentRegion := labels.data i j
  let neighborRegion := labels.data i2 j2
  if currentRegion ≠ neighborRegion then
    let st1 := st.incEffectiveness currentRegion neighborRegion
    if mergeCriterion (img.data i j) (img.data i2 j2) then
      st1.incSimilarity currentRegion neighborRegion
    else st1
  else st

/-- The body of the border scan at pixel `(i, j)`: right neighbour, then down
neighbour. -/
def scanPixel (img labels : Mat) (st : BorderStats) (i j : Nat) : BorderStats :=
  let st1 := if (j : Int) < (img.cols : Int) - 1 then scanPair img labels i j i (j + 1) st else st
  if (i : Int) < (img.rows : Int) - 1 then scanPair img labels i j (i + 1) j st1 else st1

/-- The border scan of `RegionGrower::execute` (raster order). -/
def borderScan (img labels : Mat) (st : BorderStats) : BorderStats :=
  (List.range img.rows).foldl
    (fun st i => (List.range img.cols).foldl (fun st j => scanPixel img labels st i j) st) st

/-- The state of the merge sweep: the similarity matrix (normalised in place)
and the vector `regionMapping`. -/
structure MergeState where
  borderSimilarity : Nat → Nat → ℚ
  regionMapping : Nat → Nat

/-- The body of the merge sweep at the pair `(i, j)`. -/
def mergeCell (be : Nat → Nat → Nat) (i : Nat) (m : MergeState) (j : Nat) : MergeState :=
  if be i j > 0 then
    let ratio : ℚ := m.borderSimilarity i j / (be i j : ℚ)
    let bs : Nat → Nat → ℚ := fun a b => if a = i ∧ b = j then ratio else m.borderSimilarity a b
    if bs i j > 1 / 2 then
      { borderSimilarity := bs,
        regionMapping := fun k => if k = j then m.regionMapping i else m.regionMapping k }
    else { m with borderSimilarity := bs }
  else m

/-- The inner loop `for (int j = i; j <= seedCount; ++j)`. -/
def mergeRow (be : Nat → Nat → Nat) (seedCount : Nat) (m : MergeState) (i : Nat) : MergeState :=
  (List.range' i (seedCount + 1 - i)).foldl (mergeCell be i) m

/-- The merge sweep: `regionMapping` starts as the identity (`iota`), rows
`i = 1 .. seedCount`. -/
def mergeSweep (st : BorderStats) (seedCount : Nat) : MergeState :=
  (List.range' 1 seedCount).foldl (mergeRow st.borderEffectiveness seedCount)
    { borderSimilarity := st.borderSimilarity, regionMapping := fun k => k }

/-- The remap loop: every cell is replaced by
`static_cast<uchar>(regionMapping[cell])`. -/
def remap (regionMapping : Nat → Nat) (labels : Mat) : Mat :=
  (List.range labels.rows).foldl
    (fun m (i : Nat) => (List.range labels.cols).foldl
      (fun m (j : Nat) => m.set i j (toUchar (regionMapping (m.data i j)))) m) labels

/-- The statistics after the border scan of the grown label grid. -/
def executeStats (img : Mat) (seedCount : Nat) : BorderStats :=
  borderScan img (seedAndGrow img seedCount).regionMap BorderStats.zeros

/-- The vector `regionMapping` after the merge sweep of `execute`. -/
def executeMapping (img : Mat) (seedCount : Nat) : Nat → Nat :=
  (mergeSweep (executeStats img seedCount) seedCount).regionMapping

/-- The label grid `regionMap` at the end of `execute` (before colours). -/
def executeLabels (img : Mat) (seedCount : Nat) : Mat :=
  remap (executeMapping img seedCount) (seedAndGrow img seedCount).regionMap

/-! ## Border extraction -/

/-- A three-channel 8-bit `cv::Mat` (`Vec3b` elements). -/
structure ColorMat where
  rows : Nat
  cols : Nat
  data : Int → Int → Nat × Nat × Nat

/-- The body of the double loop of `drawRegionBorders` at pixel `(y, x)`. -/
def borderPixel (colorRegionMap : ColorMat) (borders : Mat) (y x : Nat) : Mat :=
  let isBorder0 := false
  let color := colorRegionMap.data y x
  let isBorder1 :=
    if (x : Int) > 0 ∧ color ≠ colorRegionMap.data y ((x : Int) - 1) then true else isBorder0
  let isBorder2 :=
    if (x : Int) < (colorRegionMap.cols : Int) - 1 ∧ color ≠ colorRegionMap.data y ((x : Int) + 1)
    then true else isBorder1
  let isBorder3 :=
    if (y : Int) > 0 ∧ color ≠ colorRegionMap.data ((y : Int) - 1) x then true else isBorder2
  let isBorder4 :=
    if (y : Int) < (colorRegionMap.rows : Int) - 1 ∧ color ≠ colorRegionMap.data ((y : Int) + 1) x
    then true else isBorder3
  if isBorder4 then borders.set y x 255 else borders

/-- The method `RegionGrower::drawRegionBorders`. The OpenCV call
`dilate(borders, borders, getStructuringElement(MORPH_RECT, Size(t, t)))` is
the parameter `dilate`. -/
def drawRegionBorders (dilate : Mat → Int → Mat) (colorRegionMap : ColorMat)
    (borderThickness : Int) : Mat :=
  let borders0 := Mat.zeros colorRegionMap.rows colorRegionMap.cols
  let borders := (List.range colorRegionMap.rows).foldl
    (fun b y => (List.range colorRegionMap.cols).foldl
      (fun b x => borderPixel colorRegionMap b y x) b) borders0
  if borderThickness > 1 then dilate borders borderThickness else borders

/-! ## Median filter -/

/-- The neighbour vector built for pixel `(i, j)`: the values of the input at
`(i + k, j + l)` for `k, l = -pad .. pad`, in loop order. -/
def windowValues (inputImage : Mat) (pad : Nat) (i j : Nat) : List Nat :=
  (List.range (2 * pad + 1)).flatMap fun (a : Nat) =>
    (List.range (2 * pad + 1)).map fun (b : Nat) =>
      inputImage.data ((i : Int) + ((a : Int) - pad)) ((j : Int) + ((b : Int) - pad))

/-- The body of the double loop of `filterNoise` at pixel `(i, j)`: sort the
neighbour vector and store its middle element. -/
def filterPixel (inputImage : Mat) (pad : Nat) (outputImage : Mat) (i j : Nat) : Mat :=
  let neighbors := (windowValues inputImage pad i j).insertionSort (· ≤ ·)
  let medianValue := neighbors.getD (neighbors.length / 2) 0
  outputImage.set i j medianValue

/-- The function `filterNoise`. An odd `kernelSize ≤ -3` makes the source index
an empty vector; that undefined behaviour is `none`. -/
def filterNoise (inputImage : Mat) (kernelSize : Int) : Option Mat :=
  if Int.tmod kernelSize 2 = 0 then some inputImage
  else
    let pad := Int.tdiv kernelSize 2
    if pad < 0 then none
    else
      let p := pad.toNat
      some ((List.range' p (inputImage.rows - p - p)).foldl
        (fun out i => (List.range' p (inputImage.cols - p - p)).foldl
          (fun out j => filterPixel inputImage p out i j) out) inputImage)


/-! ## Colours -/

/-- The statement `m.at<Vec3b>(y, x) = v`. -/
def ColorMat.set (m : ColorMat) (y x : Int) (v : Nat × Nat × Nat) : ColorMat :=
  { m with data := fun i j => if i = y ∧ j = x then v else m.data i j }

/-- The call `Mat::zeros(size, CV_8UC3)`. -/
def ColorMat.zeros (rows cols : Nat) : ColorMat :=
  { rows := rows, cols := cols, data := fun _ _ => (0, 0, 0) }

/-- The last loop of `RegionGrower::execute`: every pixel receives the colour
`colors[regionId]` of its final label. The vector `colors`, filled with the
outcomes of `rand()`, is a parameter. -/
def colorize (colors : Nat → Nat × Nat × Nat) (regionMap : Mat) : ColorMat :=
  (List.range regionMap.rows).foldl
    (fun cm (i : Nat) => (List.range regionMap.cols).foldl
      (fun cm (j : Nat) =>
        let regionId := regionMap.data i j
        cm.set i j (colors regionId)) cm)
    (ColorMat.zeros regionMap.rows regionMap.cols)
/-! ## Auxiliary definitions used in the statements and proofs -/

/-- The cells `(i, j)` visited by a double loop, in loop order. -/
def cellsOf (is js : List Nat) : List (Nat × Nat) :=
  is.flatMap fun i => js.map fun j => (i, j)

/-- The pixels `(y, x)` and `(y2, x2)` are 4-connected neighbours. -/
def Adjacent4 (y x y2 x2 : Int) : Prop :=
  (y2 = y ∧ (x2 = x - 1 ∨ x2 = x + 1)) ∨ (x2 = x ∧ (y2 = y - 1 ∨ y2 = y + 1))

/-- The value of the flag `isBorder` when the four tests of `borderPixel` are
done. -/
def isBorderFlag (cm : ColorMat) (y x : Nat) : Bool :=
  let isBorder0 := false
  let color := cm.data y x
  let isBorder1 :=
    if (x : Int) > 0 ∧ color ≠ cm.data y ((x : Int) - 1) then true else isBorder0
  let isBorder2 :=
    if (x : Int) < (cm.cols : Int) - 1 ∧ color ≠ cm.data y ((x : Int) + 1)
    then true else isBorder1
  let isBorder3 :=
    if (y : Int) > 0 ∧ color ≠ cm.data ((y : Int) - 1) x then true else isBorder2
  if (y : Int) < (cm.rows : Int) - 1 ∧ color ≠ cm.data ((y : Int) + 1) x
    then true else isBorder3

/-- A 2-by-2 colour image whose left column is black and right column white. -/
def splitImage : ColorMat :=
  { rows := 2, cols := 2, data := fun _ x => if x = 0 then (0, 0, 0) else (255, 255, 255) }


/-- The test of the merge sweep at the pair `(i, j)`: a recorded border whose
similarity ratio exceeds 0.5. -/
def Mergeable (be : Nat → Nat → Nat) (bs : Nat → Nat → ℚ) (i j : Nat) : Prop :=
  be i j > 0 ∧ bs i j / (be i j : ℚ) > 1 / 2

/-- The merge sweep after its first `t` rows `i = 1 .. t`. -/
def sweepUpTo (st : BorderStats) (seedCount t : Nat) : MergeState :=
  (List.range' 1 t).foldl (mergeRow st.borderEffectiveness seedCount)
    { borderSimilarity := st.borderSimilarity, regionMapping := fun k => k }

/-- A 2-by-2 grid: row 0 holds 0 and 13, row 1 holds 8 and 8. -/
def chainGrid : Mat :=
  { rows := 2, cols := 2,
    data := fun y x => if y = 0 ∧ x = 0 then 0 else if y = 0 ∧ x = 1 then 13 else 8 }

/-- The body of the flattened seeding loop: once `seedIndex > seedCount` every
remaining cell is skipped (the `break` leaves each later row at once). -/
def seedStep (seedCount dx dy : Nat) (s : RegionGrower × Int) (c : Nat × Nat) :
    RegionGrower × Int :=
  if s.2 > (seedCount : Int) then s else seedCell dx dy c.1 c.2 s

/-- Facts that hold of the grower at every point of seeding and growth: the
image is not modified, the label grid keeps the dimensions of the image and
holds 8-bit values. -/
def Basic (img : Mat) (g : RegionGrower) : Prop :=
  g.originalImage = img ∧ g.regionMap.rows = img.rows ∧ g.regionMap.cols = img.cols ∧
    ∀ y x, g.regionMap.data y x < 256

/-- The candidate seed position `(y, x)` of cell `(i, j)`: the cell centre,
clamped to the last row and column. -/
def seedPos (img : Mat) (dx dy i j : Nat) : Int × Int :=
  let x0 : Int := (j : Int) * dx + (dx : Int) / 2
  let y0 : Int := (i : Int) * dy + (dy : Int) / 2
  (if y0 ≥ (img.rows : Int) then (img.rows : Int) - 1 else y0,
   if x0 ≥ (img.cols : Int) then (img.cols : Int) - 1 else x0)

/-- The pixel `(y, x)` lies in the grid. -/
def InGrid (img : Mat) (y x : Int) : Prop :=
  0 ≤ y ∧ y < (img.rows : Int) ∧ 0 ≤ x ∧ x < (img.cols : Int)

/-- The positions `(y, x)` of the entries of the queue, front first. -/
def queuePositions (g : RegionGrower) : List (Int × Int) :=
  g.pixelQueue.map fun p => (p.posY, p.posX)

/-- Invariant of the seeding loop once the cells `pre` are visited, for
`seedCount = n ≤ 255` and an initially all-zero label grid. -/
structure SeedInv (img : Mat) (n dx dy : Nat) (pre : List (Nat × Nat))
    (s : RegionGrower × Int) : Prop where
  image : s.1.originalImage = img
  idx : s.2 = (s.1.pixelQueue.length : Int) + 1
  le : s.1.pixelQueue.length ≤ n
  cats : ∀ (k : Nat) (p : PixelInfo), s.1.pixelQueue[k]? = some p →
    p.category = (k : Int) + 1 ∧ s.1.regionMap.data p.posY p.posX = k + 1 ∧
      p.intensity = (img.data p.posY p.posX : Int)
  lab : ∀ y x, s.1.regionMap.data y x ≠ 0 ↔ (y, x) ∈ queuePositions s.1
  nodup : (queuePositions s.1).Nodup
  sub : ∀ q ∈ queuePositions s.1, q ∈ pre.map (fun c => seedPos img dx dy c.1 c.2)
  full : s.1.pixelQueue.length < n →
    ∀ c ∈ pre, seedPos img dx dy c.1 c.2 ∈ queuePositions s.1

/-- The candidate seed positions `(x, y) = (j * dx + dx / 2, i * dy + dy / 2)`
of the `g * g` cells, `g = ceil(sqrt(seedCount))`, `dx = cols div g`,
`dy = rows div g`, in row-major order and without clamping. -/
def candidates (img : Mat) (seedCount : Nat) : List (Int × Int) :=
  (cellsOf (List.range (ceilSqrt seedCount)) (List.range (ceilSqrt seedCount))).map fun c =>
    ((c.2 : Int) * (img.cols / ceilSqrt seedCount : Nat)
        + ((img.cols / ceilSqrt seedCount : Nat) : Int) / 2,
     (c.1 : Int) * (img.rows / ceilSqrt seedCount : Nat)
        + ((img.rows / ceilSqrt seedCount : Nat) : Int) / 2)

/-- A grid of one row and five columns, all pixels of intensity 7. -/
def thinGrid : Mat := { rows := 1, cols := 5, data := fun _ _ => 7 }

/-- A growth step from pixel `a` to pixel `b`: both in the grid, 4-connected,
intensities at most 3 apart. -/
def GrowEdge (img : Mat) (a b : Int × Int) : Prop :=
  InGrid img a.1 a.2 ∧ InGrid img b.1 b.2 ∧ Adjacent4 a.1 a.2 b.1 b.2 ∧
    |(img.data a.1 a.2 : Int) - (img.data b.1 b.2 : Int)| ≤ 3

/-- A growth step between two pixels that both carry the label `k`. -/
def RegionEdge (img labels : Mat) (k : Nat) (a b : Int × Int) : Prop :=
  GrowEdge img a b ∧ labels.data a.1 a.2 = k ∧ labels.data b.1 b.2 = k

/-- The pixel `p` is joined to the seed of id `k` (the entry of index `k - 1`
of the seed list `S`) by a path of growth steps between pixels labelled `k`. -/
def Joined (img labels : Mat) (S : List PixelInfo) (k : Nat) (p : Int × Int) : Prop :=
  ∃ s, S[k - 1]? = some s ∧ 1 ≤ k ∧
    Relation.ReflTransGen (RegionEdge img labels k) (s.posY, s.posX) p

/-- Every growth step out of `p` leads to a labelled pixel. -/
def Closed (img labels : Mat) (p : Int × Int) : Prop :=
  ∀ q, GrowEdge img p q → labels.data q.1 q.2 ≠ 0

/-- The label grid `l2` keeps every non-zero label of `l1`. -/
def Extends (l1 l2 : Mat) : Prop :=
  ∀ y x, l1.data y x ≠ 0 → l2.data y x = l1.data y x

/-- A queue entry agrees with the grids: it lies in the grid, carries the
intensity of its pixel, and its category is the non-zero label of its pixel. -/
def QueueOk (img labels : Mat) (p : PixelInfo) : Prop :=
  InGrid img p.posY p.posX ∧ p.intensity = (img.data p.posY p.posX : Int) ∧
    (labels.data p.posY p.posX : Int) = p.category ∧ labels.data p.posY p.posX ≠ 0

/-- Invariant of seeding-then-growth shared by the loop and by the visit of
the neighbours of a popped entry; `S` is the list of accepted seeds. -/
structure GrowBase (img : Mat) (S : List PixelInfo) (g : RegionGrower) : Prop where
  image : g.originalImage = img
  lt : ∀ y x, g.regionMap.data y x < 256
  ingrid : ∀ y x, g.regionMap.data y x ≠ 0 → InGrid img y x
  qok : ∀ p ∈ g.pixelQueue, QueueOk img g.regionMap p
  seeds : ∀ s ∈ S, g.regionMap.data s.posY s.posX ≠ 0 ∧ InGrid img s.posY s.posX
  joined : ∀ y x, g.regionMap.data y x ≠ 0 →
    Joined img g.regionMap S (g.regionMap.data y x) (y, x)

/-- Invariant of the growth loop: every labelled pixel is still queued or has
all its growth steps leading to labelled pixels. -/
structure GrowInv (img : Mat) (S : List PixelInfo) (g : RegionGrower) : Prop where
  base : GrowBase img S g
  closed : ∀ y x, g.regionMap.data y x ≠ 0 →
    (y, x) ∈ queuePositions g ∨ Closed img g.regionMap (y, x)

/-- Invariant while the neighbours `nbs` of the popped entry `cur` remain to be
visited. -/
structure VisitInv (img : Mat) (S : List PixelInfo) (cur : PixelInfo) (nbs : List PixelInfo)
    (g : RegionGrower) : Prop where
  base : GrowBase img S g
  curok : QueueOk img g.regionMap cur
  nbsok : ∀ nb ∈ nbs, InGrid img nb.posY nb.posX ∧
    nb.intensity = (img.data nb.posY nb.posX : Int) ∧
    Adjacent4 cur.posY cur.posX nb.posY nb.posX
  closed : ∀ y x, g.regionMap.data y x ≠ 0 →
    (y, x) ∈ queuePositions g ∨ Closed img g.regionMap (y, x) ∨
    ((y, x) = (cur.posY, cur.posX) ∧
      ∀ q, GrowEdge img (y, x) q →
        g.regionMap.data q.1 q.2 ≠ 0 ∨ q ∈ nbs.map (fun nb => (nb.posY, nb.posX)))

/-- The number of pixels of the grid whose label is still 0. -/
def zeroCells (img labels : Mat) : Nat :=
  ((Finset.Ico (0 : Int) img.rows ×ˢ Finset.Ico (0 : Int) img.cols).filter
    (fun c => labels.data c.1 c.2 = 0)).card

/-- The termination measure of the growth loop: unlabelled pixels plus queued
entries. -/
def growMeasure (img : Mat) (g : RegionGrower) : Nat :=
  zeroCells img g.regionMap + g.pixelQueue.length

/-- A grid of 16 rows and 17 columns in which two 4-connected pixels never have
intensities within 3 of each other, except the pair `(15, 15)`, `(15, 16)` of
the last row, both of intensity 50. -/
def hangGrid : Mat :=
  { rows := 16, cols := 17,
    data := fun y x =>
      if y = 15 ∧ (x = 15 ∨ x = 16) then 50 else 100 * ((x + 2 * y) % 3).toNat }

/-- The entry `p` sits on one of the two pixels `(15, 15)`, `(15, 16)`. -/
def AtPair (p : PixelInfo) : Prop := p.posY = 15 ∧ (p.posX = 15 ∨ p.posX = 16)

/-- Facts kept on `hangGrid` while the neighbours of the popped entry `cur`
are visited: queued entries carry the intensity of their pixel, entries on
the pair carry a category that is 0 as an 8-bit value, and both pixels of the
pair are labelled 0. -/
structure HangVisit (cur : PixelInfo) (g : RegionGrower) : Prop where
  image : g.originalImage = hangGrid
  inten : ∀ q ∈ g.pixelQueue, q.intensity = (hangGrid.data q.posY q.posX : Int)
  wraps : ∀ q ∈ g.pixelQueue, AtPair q → toUchar q.category = 0
  zero : g.regionMap.data 15 15 = 0 ∧ g.regionMap.data 15 16 = 0
  curint : cur.intensity = (hangGrid.data cur.posY cur.posX : Int)
  curwrap : AtPair cur → toUchar cur.category = 0

/-- Invariant of the growth loop on `hangGrid` with 256 seeds: an entry on the
pair is always queued. -/
structure HangInv (g : RegionGrower) : Prop where
  image : g.originalImage = hangGrid
  inten : ∀ q ∈ g.pixelQueue, q.intensity = (hangGrid.data q.posY q.posX : Int)
  wraps : ∀ q ∈ g.pixelQueue, AtPair q → toUchar q.category = 0
  zero : g.regionMap.data 15 15 = 0 ∧ g.regionMap.data 15 16 = 0
  pending : ∃ q ∈ g.pixelQueue, AtPair q

/-- The adjacencies examined at pixel `(i, j)` by the border scan: the pixel
with its right neighbour (when there is one), then with its down neighbour. -/
def pixelAdjacencies (img : Mat) (c : Nat × Nat) : List ((Int × Int) × (Int × Int)) :=
  (if (c.2 : Int) < (img.cols : Int) - 1 then [(((c.1 : Int), (c.2 : Int)), ((c.1 : Int), (c.2 : Int) + 1))]
    else []) ++
  (if (c.1 : Int) < (img.rows : Int) - 1 then [(((c.1 : Int), (c.2 : Int)), ((c.1 : Int) + 1, (c.2 : Int)))]
    else [])

/-- All adjacencies `(current pixel, neighbour)` examined by the border scan,
in scan order. -/
def adjacencies (img : Mat) : List ((Int × Int) × (Int × Int)) :=
  (cellsOf (List.range img.rows) (List.range img.cols)).flatMap (pixelAdjacencies img)

/-- The border scan at one adjacency. -/
def scanAdj (img labels : Mat) (st : BorderStats) (e : (Int × Int) × (Int × Int)) :
    BorderStats :=
  scanPair img labels e.1.1 e.1.2 e.2.1 e.2.2 st

/-- The adjacency `e` is a border between the regions `a` and `b`: its current
pixel is labelled `a`, its neighbour `b`, and `a ≠ b`. -/
def borderAt (labels : Mat) (a b : Nat) (e : (Int × Int) × (Int × Int)) : Bool :=
  decide (labels.data e.1.1 e.1.2 = a ∧ labels.data e.2.1 e.2.2 = b ∧ a ≠ b)

/-- The adjacency `e` is a border between `a` and `b` whose two intensities
differ by at most 10. -/
def similarBorderAt (img labels : Mat) (a b : Nat) (e : (Int × Int) × (Int × Int)) : Bool :=
  borderAt labels a b e &&
    decide (|(img.data e.1.1 e.1.2 : Int) - (img.data e.2.1 e.2.2 : Int)| ≤ 10)

/-- A grid of one row: intensities 0 and 8. -/
def stepGrid : Mat := { rows := 1, cols := 2, data := fun _ x => if x = 0 then 0 else 8 }

/-- A grid of one row: intensities 0, 0 and 8. -/
def ledgeGrid : Mat := { rows := 1, cols := 3, data := fun _ x => if x = 2 then 8 else 0 }

/-- The 4-by-4 colour image whose left two columns have colour `A` and whose
right two columns have colour `B`. -/
def seamImage (A B : Nat × Nat × Nat) : ColorMat :=
  { rows := 4, cols := 4, data := fun _ x => if x < 2 then A else B }

/-- The 4-by-4 grid whose left two columns have intensity 10 and whose right
two columns have intensity 200. -/
def blockGrid : Mat :=
  { rows := 4, cols := 4, data := fun _ x => if x < 2 then 10 else 200 }

/-- Invariant of the seeding loop for any `seedCount = n`: `seedIndex` is one
more than the number of accepted seeds, at most `n` seeds are accepted, the
`k`-th accepted seed has id `k`, every label is at most the number of accepted
seeds, and only pixels of the grid are labelled. -/
structure SeedLab (img : Mat) (n : Nat) (s : RegionGrower × Int) : Prop where
  image : s.1.originalImage = img
  idx : s.2 = (s.1.pixelQueue.length : Int) + 1
  le : s.1.pixelQueue.length ≤ n
  cats : ∀ (k : Nat) (p : PixelInfo), s.1.pixelQueue[k]? = some p → p.category = (k : Int) + 1
  lab : ∀ y x, s.1.regionMap.data y x ≤ s.1.pixelQueue.length
  ingrid : ∀ y x, s.1.regionMap.data y x ≠ 0 → InGrid img y x

/-- Invariant of seeding and growth for any `seedCount`: with `A` an upper
bound of the ids handed out, every queued category lies in `1 .. A`, every
label is at most `A`, and only pixels of the grid are labelled. -/
structure LabelInv (img : Mat) (A : Nat) (g : RegionGrower) : Prop where
  image : g.originalImage = img
  cat : ∀ p ∈ g.pixelQueue, 1 ≤ p.category ∧ p.category ≤ (A : Int)
  lab : ∀ y x, g.regionMap.data y x ≤ A
  ingrid : ∀ y x, g.regionMap.data y x ≠ 0 → InGrid img y x

/-- The label grid after seeding and the first `pops` iterations of the growth
loop (all of them when the queue empties earlier). -/
def grownLabels (img : Mat) (seedCount pops : Nat) : Mat :=
  (growLoop pops (seeding (RegionGrower.new img) seedCount)).regionMap

/-- The label grid at the end of `execute` when growth ends within `pops`
iterations: border scan, merge sweep and remap of `grownLabels`. -/
def finalLabels (img : Mat) (seedCount pops : Nat) : Mat :=
  remap (mergeSweep (borderScan img (grownLabels img seedCount pops) BorderStats.zeros)
    seedCount).regionMapping (grownLabels img seedCount pops)

/-- The body of the remap loop at the cell `c = (i, j)`. -/
def remapStep (regionMapping : Nat → Nat) (m : Mat) (c : Nat × Nat) : Mat :=
  m.set c.1 c.2 (toUchar (regionMapping (m.data c.1 c.2)))

/-- All pixels of the grid have the same intensity. -/
def Uniform (img : Mat) : Prop :=
  ∀ y x y2 x2, InGrid img y x → InGrid img y2 x2 → img.data y x = img.data y2 x2

/-- The number of 4-connected steps between the entry `s` and the pixel
`(y, x)`. -/
def pixelDistance (s : PixelInfo) (y x : Int) : Nat :=
  (s.posY - y).natAbs + (s.posX - x).natAbs

/-- The distance between the queue entry `q` and the seed whose id is the
category of `q` (the entry of index `category - 1` of the seed list `S`). -/
def level (S : List PixelInfo) (q : PixelInfo) : Nat :=
  match S[q.category.toNat - 1]? with
  | some s => pixelDistance s q.posY q.posX
  | none => 0

/-- Every labelled pixel carries the id of a seed nearest to it. -/
def Nearest (S : List PixelInfo) (labels : Mat) : Prop :=
  ∀ y x s, labels.data y x ≠ 0 → S[labels.data y x - 1]? = some s →
    ∀ s2 ∈ S, pixelDistance s y x ≤ pixelDistance s2 y x

/-- Every unlabelled pixel of the grid is more than `L` steps away from every
seed. -/
def Far (img : Mat) (S : List PixelInfo) (labels : Mat) (L : Nat) : Prop :=
  ∀ y x, InGrid img y x → labels.data y x = 0 → ∀ s ∈ S, L + 1 ≤ pixelDistance s y x

/-- Breadth-first invariant of the growth loop on a uniform grid, `L` being the
level of the entries at the front of the queue. -/
structure BfsInv (img : Mat) (S : List PixelInfo) (L : Nat) (g : RegionGrower) : Prop where
  grow : GrowInv img S g
  nearest : Nearest S g.regionMap
  qlev : ∀ q ∈ g.pixelQueue, L ≤ level S q ∧ level S q ≤ L + 1
  sorted : g.pixelQueue.Pairwise (fun a b => level S a ≤ level S b)
  far : Far img S g.regionMap L

/-- Breadth-first invariant while the neighbours `nbs` of the popped entry
`cur`, of level `L`, remain to be visited. -/
structure BfsVisit (img : Mat) (S : List PixelInfo) (L : Nat) (cur : PixelInfo)
    (nbs : List PixelInfo) (g : RegionGrower) : Prop where
  visit : VisitInv img S cur nbs g
  nearest : Nearest S g.regionMap
  curlev : level S cur = L
  qlev : ∀ q ∈ g.pixelQueue, L ≤ level S q ∧ level S q ≤ L + 1
  sorted : g.pixelQueue.Pairwise (fun a b => level S a ≤ level S b)
  far : Far img S g.regionMap L

/-- The effect of one seeding cell on the queue: the candidate position `pos`
is accepted as the next seed unless `n` seeds are accepted already or `pos` is
the position of an accepted seed. -/
def acceptSeed (img : Mat) (n : Nat) (q : List PixelInfo) (pos : Int × Int) : List PixelInfo :=
  if q.length < n ∧ pos ∉ q.map (fun p => (p.posY, p.posX)) then
    q ++ [{ category := (q.length : Int) + 1, posX := pos.2, posY := pos.1,
            intensity := (img.data pos.1 pos.2 : Int) }]
  else q

/-- A 4-by-4 grid whose pixels all have intensity 7. -/
def flatGrid : Mat := { rows := 4, cols := 4, data := fun _ _ => 7 }
/-! ## Loops that write cells -/

theorem mem_cellsOf (is js : List Nat) (x : Nat × Nat) :
    x ∈ cellsOf is js ↔ x.1 ∈ is ∧ x.2 ∈ js := by
  obtain ⟨a, b⟩ := x
  simp only [cellsOf, List.mem_flatMap, List.mem_map, Prod.mk.injEq]
  constructor
  · rintro ⟨i, hi, j, hj, rfl, rfl⟩
    exact ⟨hi, hj⟩
  · rintro ⟨hi, hj⟩
    exact ⟨a, hi, b, hj, rfl, rfl⟩

theorem foldl_nested_eq {α : Type} (step : α → Nat → Nat → α) (is js : List Nat) (a : α) :
    is.foldl (fun s i => js.foldl (fun s j => step s i j) s) a
      = (cellsOf is js).foldl (fun s x => step s x.1 x.2) a := by
  induction is generalizing a with
  | nil => rfl
  | cons i is ih =>
    have h : cellsOf (i :: is) js = js.map (fun j => (i, j)) ++ cellsOf is js := by
      simp [cellsOf]
    rw [h, List.foldl_append, List.foldl_map, List.foldl_cons]
    exact ih _

theorem Mat.set_rows (m : Mat) (y x : Int) (v : Nat) : (m.set y x v).rows = m.rows := rfl

theorem Mat.set_cols (m : Mat) (y x : Int) (v : Nat) : (m.set y x v).cols = m.cols := rfl

theorem Mat.set_data (m : Mat) (y x : Int) (v : Nat) (i j : Int) :
    (m.set y x v).data i j = if i = y ∧ j = x then v else m.data i j := rfl

/-- A loop whose body writes, at the visited cell, a value that depends on the
cell only: every cell holds the value written for it, or its initial value
when no visit wrote it. -/
theorem foldl_write_spec (step : Mat → Nat × Nat → Mat) (p : Nat × Nat → Bool)
    (f : Nat × Nat → Nat)
    (hstep : ∀ out x, step out x = if p x then out.set x.1 x.2 (f x) else out)
    (cells : List (Nat × Nat)) (m0 : Mat) (r c : Int) :
    (cells.foldl step m0).rows = m0.rows ∧ (cells.foldl step m0).cols = m0.cols ∧
    ((∃ x ∈ cells, p x = true ∧ r = x.1 ∧ c = x.2 ∧ (cells.foldl step m0).data r c = f x) ∨
      ((∀ x ∈ cells, p x = true → ¬ (r = x.1 ∧ c = x.2)) ∧
        (cells.foldl step m0).data r c = m0.data r c)) := by
  induction cells using List.reverseRecOn with
  | nil => simp
  | append_singleton cells x ih =>
    obtain ⟨hr, hc, hd⟩ := ih
    rw [List.foldl_append, List.foldl_cons, List.foldl_nil, hstep]
    by_cases hp : p x = true
    · simp only [hp, if_true, Mat.set_rows, Mat.set_cols, Mat.set_data]
      refine ⟨hr, hc, ?_⟩
      by_cases hx : r = x.1 ∧ c = x.2
      · left
        exact ⟨x, by simp, hp, hx.1, hx.2, by simp [hx]⟩
      · rw [if_neg hx]
        rcases hd with ⟨z, hz, hpz, h1, h2, h3⟩ | ⟨hall, hval⟩
        · left
          exact ⟨z, by simp [hz], hpz, h1, h2, h3⟩
        · right
          refine ⟨?_, hval⟩
          intro z hz hpz
          rcases List.mem_append.1 hz with hz | hz
          · exact hall z hz hpz
          · rw [List.mem_singleton.1 hz]
            exact hx
    · simp only [hp, Bool.false_eq_true, if_false]
      refine ⟨hr, hc, ?_⟩
      rcases hd with ⟨z, hz, hpz, h1, h2, h3⟩ | ⟨hall, hval⟩
      · left
        exact ⟨z, by simp [hz], hpz, h1, h2, h3⟩
      · right
        refine ⟨?_, hval⟩
        intro z hz hpz
        rcases List.mem_append.1 hz with hz | hz
        · exact hall z hz hpz
        · rw [List.mem_singleton.1 hz] at hpz
          exact absurd hpz hp
/-! ## Median filter -/

theorem length_flatMap_const {α β : Type} (l : List α) (f : α → List β) (n : Nat)
    (h : ∀ a, (f a).length = n) : (l.flatMap f).length = l.length * n := by
  induction l with
  | nil => simp
  | cons a l ih =>
    rw [List.flatMap_cons, List.length_append, ih, h, List.length_cons]
    ring

theorem windowValues_length (img : Mat) (pad i j : Nat) :
    (windowValues img pad i j).length = (2 * pad + 1) * (2 * pad + 1) := by
  unfold windowValues
  rw [length_flatMap_const _ _ (2 * pad + 1) (by intro a; simp), List.length_range]

/-- The output of the odd branch of `filterNoise`, cell by cell. -/
theorem filterLoop_spec (img : Mat) (p : Nat) (r c : Int) :
    let out := (List.range' p (img.rows - p - p)).foldl
      (fun out i => (List.range' p (img.cols - p - p)).foldl
        (fun out j => filterPixel img p out i j) out) img
    out.rows = img.rows ∧ out.cols = img.cols ∧
    (∀ i j : Nat, r = i → c = j → p ≤ i → i + p < img.rows → p ≤ j → j + p < img.cols →
      out.data r c = ((windowValues img p i j).insertionSort (· ≤ ·)).getD
        ((2 * p + 1) * (2 * p + 1) / 2) 0) ∧
    (¬ ((p : Int) ≤ r ∧ r < (img.rows : Int) - p ∧ (p : Int) ≤ c ∧ c < (img.cols : Int) - p) →
      out.data r c = img.data r c) := by
  intro out
  have hout : out = (cellsOf (List.range' p (img.rows - p - p))
      (List.range' p (img.cols - p - p))).foldl
      (fun out x => filterPixel img p out x.1 x.2) img :=
    foldl_nested_eq (fun out i j => filterPixel img p out i j) _ _ img
  have key := foldl_write_spec (fun out x => filterPixel img p out x.1 x.2) (fun _ => true)
    (fun x => ((windowValues img p x.1 x.2).insertionSort (· ≤ ·)).getD
      ((2 * p + 1) * (2 * p + 1) / 2) 0)
    (by
      intro out x
      simp [filterPixel, windowValues_length])
    (cellsOf (List.range' p (img.rows - p - p)) (List.range' p (img.cols - p - p))) img r c
  rw [← hout] at key
  obtain ⟨hr, hc, hd⟩ := key
  refine ⟨hr, hc, ?_, ?_⟩
  · intro i j hri hcj hpi hip hpj hjp
    rcases hd with ⟨x, _, _, h1, h2, h3⟩ | ⟨hall, _⟩
    · have e1 : x.1 = i := by omega
      have e2 : x.2 = j := by omega
      rw [h3, e1, e2]
    · exfalso
      refine hall (i, j) ?_ rfl ⟨hri, hcj⟩
      rw [mem_cellsOf]
      simp only [List.mem_range'_1]
      omega
  · intro hnot
    rcases hd with ⟨x, hx, _, h1, h2, _⟩ | ⟨_, hval⟩
    · exfalso
      apply hnot
      rw [mem_cellsOf] at hx
      simp only [List.mem_range'_1] at hx
      omega
    · exact hval

theorem filterNoise_odd (img : Mat) (k : Nat) (hk : k % 2 = 1) :
    filterNoise img (k : Int) = some ((List.range' (k / 2) (img.rows - k / 2 - k / 2)).foldl
      (fun out i => (List.range' (k / 2) (img.cols - k / 2 - k / 2)).foldl
        (fun out j => filterPixel img (k / 2) out i j) out) img) := by
  have h1 : Int.tmod (k : Int) 2 ≠ 0 := by
    have : Int.tmod (k : Int) 2 = ((k % 2 : Nat) : Int) := by
      rw [Int.tmod_eq_emod (by omega) (by omega)]
      norm_cast
    rw [this, hk]
    decide
  have h2 : Int.tdiv (k : Int) 2 = ((k / 2 : Nat) : Int) := by
    rw [Int.tdiv_eq_ediv (by omega) (by omega)]
    norm_cast
  unfold filterNoise
  rw [if_neg h1]
  simp only [h2]
  rw [if_neg (by omega)]
  simp only [Int.toNat_ofNat]

/-- C10. For an even `kernelSize` (zero and negative values included)
`filterNoise` returns its input: same dimensions, same value at every pixel,
and no failure. -/
theorem filterNoise_even_is_copy (img : Mat) (kernelSize : Int) (h : Even kernelSize) :
    filterNoise img kernelSize = some img := by
  have h0 : Int.tmod kernelSize 2 = 0 := by
    obtain ⟨t, rfl⟩ := h
    have : t + t = 2 * t := by ring
    rw [this]
    exact Int.mul_tmod_right 2 t
  simp [filterNoise, h0]

theorem filterNoise_even_is_copy_witness :
    Even (4 : Int) ∧ filterNoise (Mat.zeros 3 3) 4 = some (Mat.zeros 3 3) :=
  ⟨by decide, filterNoise_even_is_copy (Mat.zeros 3 3) 4 (by decide)⟩

theorem Mat.ext_data (a b : Mat) (hr : a.rows = b.rows) (hc : a.cols = b.cols)
    (hd : ∀ r c, a.data r c = b.data r c) : a = b := by
  obtain ⟨ar, ac, ad⟩ := a
  obtain ⟨br, bc, bd⟩ := b
  simp only at hr hc hd
  subst hr
  subst hc
  have : ad = bd := by
    funext r c
    exact hd r c
  rw [this]

/-- C5. For an odd `kernelSize = k ≥ 1` with `pad = (k - 1) / 2`, `filterNoise`
returns a grid of the same dimensions; at every pixel whose window lies in the
grid the output is the element of index `(k * k - 1) / 2` of the ascending
sort of the `k * k` input values of the window centred there; every other
pixel keeps its input value; and `kernelSize = 1` returns the input. -/
theorem filterNoise_median (img : Mat) (k : Nat) (hk : k % 2 = 1) :
    ∃ out, filterNoise img (k : Int) = some out ∧
      out.rows = img.rows ∧ out.cols = img.cols ∧
      (∀ r c : Int, (((k - 1) / 2 : Nat) : Int) ≤ r → r < (img.rows : Int) - ((k - 1) / 2 : Nat) →
        (((k - 1) / 2 : Nat) : Int) ≤ c → c < (img.cols : Int) - ((k - 1) / 2 : Nat) →
        ∃ l : List Nat, l.Sorted (· ≤ ·) ∧
          l.Perm ((List.range k).flatMap fun (a : Nat) => (List.range k).map fun (b : Nat) =>
            img.data (r - ((k - 1) / 2 : Nat) + a) (c - ((k - 1) / 2 : Nat) + b)) ∧
          l[(k * k - 1) / 2]? = some (out.data r c)) ∧
      (∀ r c : Int, ¬ ((((k - 1) / 2 : Nat) : Int) ≤ r ∧ r < (img.rows : Int) - ((k - 1) / 2 : Nat) ∧
          (((k - 1) / 2 : Nat) : Int) ≤ c ∧ c < (img.cols : Int) - ((k - 1) / 2 : Nat)) →
        out.data r c = img.data r c) ∧
      (k = 1 → out = img) := by
  have hpad : (k - 1) / 2 = k / 2 := by omega
  have hk2 : 2 * (k / 2) + 1 = k := by omega
  rw [hpad]
  refine ⟨_, filterNoise_odd img k hk, ?_, ?_, ?_, ?_, ?_⟩
  · exact (filterLoop_spec img (k / 2) 0 0).1
  · exact (filterLoop_spec img (k / 2) 0 0).2.1
  · intro r c h1 h2 h3 h4
    obtain ⟨_, _, hin, _⟩ := filterLoop_spec img (k / 2) r c
    have hr : r = (r.toNat : Int) := by omega
    have hc : c = (c.toNat : Int) := by omega
    have hval := hin r.toNat c.toNat hr hc (by omega) (by omega) (by omega) (by omega)
    refine ⟨(windowValues img (k / 2) r.toNat c.toNat).insertionSort (· ≤ ·),
      List.sorted_insertionSort _ _, ?_, ?_⟩
    · refine (List.perm_insertionSort _ _).trans ?_
      have : windowValues img (k / 2) r.toNat c.toNat =
          (List.range k).flatMap fun (a : Nat) => (List.range k).map fun (b : Nat) =>
            img.data (r - ((k / 2 : Nat) : Int) + a) (c - ((k / 2 : Nat) : Int) + b) := by
        unfold windowValues
        rw [hk2, ← hr, ← hc]
        congr 1
        funext a
        congr 1
        funext b
        congr 1 <;> ring
      rw [this]
    · rw [hval, hk2]
      have hlen : ((windowValues img (k / 2) r.toNat c.toNat).insertionSort (· ≤ ·)).length
          = k * k := by
        rw [List.length_insertionSort, windowValues_length, hk2]
      have hkk : k * k % 2 = 1 := by
        rw [Nat.mul_mod, hk]
      have hidx : (k * k - 1) / 2 = k * k / 2 := by omega
      have hlt : k * k / 2 < ((windowValues img (k / 2) r.toNat c.toNat).insertionSort
          (· ≤ ·)).length := by
        rw [hlen]
        omega
      rw [hidx, List.getElem?_eq_getElem hlt, List.getD_eq_getElem _ _ hlt]
  · intro r c hnot
    exact (filterLoop_spec img (k / 2) r c).2.2.2 hnot
  · intro h1
    subst h1
    apply Mat.ext_data
    · exact (filterLoop_spec img (1 / 2) 0 0).1
    · exact (filterLoop_spec img (1 / 2) 0 0).2.1
    · intro r c
      obtain ⟨_, _, hin, hout⟩ := filterLoop_spec img (1 / 2) r c
      by_cases hint : (((1 / 2 : Nat) : Nat) : Int) ≤ r ∧ r < (img.rows : Int) - ((1 / 2 : Nat) : Nat) ∧
          (((1 / 2 : Nat) : Nat) : Int) ≤ c ∧ c < (img.cols : Int) - ((1 / 2 : Nat) : Nat)
      · have hr : r = (r.toNat : Int) := by omega
        have hc : c = (c.toNat : Int) := by omega
        have hval := hin r.toNat c.toNat hr hc (by omega) (by omega) (by omega) (by omega)
        rw [hval]
        simp [windowValues, ← hr, ← hc]
      · exact hout hint

theorem filterNoise_median_witness :
    3 % 2 = 1 ∧ ∃ out, filterNoise (Mat.zeros 5 5) ((3 : Nat) : Int) = some out ∧
      out.rows = (Mat.zeros 5 5).rows ∧ out.cols = (Mat.zeros 5 5).cols ∧
      (∀ r c : Int, (((3 - 1) / 2 : Nat) : Int) ≤ r →
        r < ((Mat.zeros 5 5).rows : Int) - ((3 - 1) / 2 : Nat) →
        (((3 - 1) / 2 : Nat) : Int) ≤ c → c < ((Mat.zeros 5 5).cols : Int) - ((3 - 1) / 2 : Nat) →
        ∃ l : List Nat, l.Sorted (· ≤ ·) ∧
          l.Perm ((List.range 3).flatMap fun (a : Nat) => (List.range 3).map fun (b : Nat) =>
            (Mat.zeros 5 5).data (r - ((3 - 1) / 2 : Nat) + a) (c - ((3 - 1) / 2 : Nat) + b)) ∧
          l[(3 * 3 - 1) / 2]? = some (out.data r c)) ∧
      (∀ r c : Int, ¬ ((((3 - 1) / 2 : Nat) : Int) ≤ r ∧
          r < ((Mat.zeros 5 5).rows : Int) - ((3 - 1) / 2 : Nat) ∧
          (((3 - 1) / 2 : Nat) : Int) ≤ c ∧
          c < ((Mat.zeros 5 5).cols : Int) - ((3 - 1) / 2 : Nat)) →
        out.data r c = (Mat.zeros 5 5).data r c) ∧
      (3 = 1 → out = Mat.zeros 5 5) :=
  ⟨by decide, filterNoise_median (Mat.zeros 5 5) 3 (by decide)⟩

/-! ## Border extraction -/

theorem borderPixel_eq (cm : ColorMat) (b : Mat) (y x : Nat) :
    borderPixel cm b y x = if isBorderFlag cm y x then b.set y x 255 else b := rfl

theorem isBorderFlag_iff (cm : ColorMat) (y x : Nat) (hy : y < cm.rows) (hx : x < cm.cols) :
    isBorderFlag cm y x = true ↔
      ∃ y2 x2 : Int, 0 ≤ y2 ∧ y2 < cm.rows ∧ 0 ≤ x2 ∧ x2 < cm.cols ∧
        Adjacent4 y x y2 x2 ∧ cm.data y2 x2 ≠ cm.data y x := by
  constructor
  · intro h
    unfold isBorderFlag at h
    simp only at h
    split at h
    · rename_i h4
      exact ⟨(y : Int) + 1, x, by omega, by omega, by omega, by omega,
        Or.inr ⟨rfl, Or.inr rfl⟩, fun e => h4.2 e.symm⟩
    · split at h
      · rename_i h3
        exact ⟨(y : Int) - 1, x, by omega, by omega, by omega, by omega,
          Or.inr ⟨rfl, Or.inl rfl⟩, fun e => h3.2 e.symm⟩
      · split at h
        · rename_i h2
          exact ⟨y, (x : Int) + 1, by omega, by omega, by omega, by omega,
            Or.inl ⟨rfl, Or.inr rfl⟩, fun e => h2.2 e.symm⟩
        · split at h
          · rename_i h1
            exact ⟨y, (x : Int) - 1, by omega, by omega, by omega, by omega,
              Or.inl ⟨rfl, Or.inl rfl⟩, fun e => h1.2 e.symm⟩
          · exact absurd h (by decide)
  · rintro ⟨y2, x2, h1, h2, h3, h4, hadj, hne⟩
    unfold isBorderFlag
    simp only
    rcases hadj with ⟨rfl, rfl | rfl⟩ | ⟨rfl, rfl | rfl⟩
    · have c1 : (x : Int) > 0 ∧ cm.data y x ≠ cm.data y ((x : Int) - 1) :=
        ⟨by omega, fun e => hne e.symm⟩
      simp only [if_pos c1, ite_self]
    · have c1 : (x : Int) < (cm.cols : Int) - 1 ∧ cm.data y x ≠ cm.data y ((x : Int) + 1) :=
        ⟨by omega, fun e => hne e.symm⟩
      simp only [if_pos c1, ite_self]
    · have c1 : (y : Int) > 0 ∧ cm.data y x ≠ cm.data ((y : Int) - 1) x :=
        ⟨by omega, fun e => hne e.symm⟩
      simp only [if_pos c1, ite_self]
    · have c1 : (y : Int) < (cm.rows : Int) - 1 ∧ cm.data y x ≠ cm.data ((y : Int) + 1) x :=
        ⟨by omega, fun e => hne e.symm⟩
      simp only [if_pos c1, ite_self]

/-- C6. For `borderThickness ≤ 1`, `drawRegionBorders` returns a mask of the
dimensions of the colour image in which a pixel of the image is 255 exactly
when one of its 4-connected neighbours inside the image has a different
colour triple, and is 0 otherwise. -/
theorem drawRegionBorders_thin (dilate : Mat → Int → Mat) (cm : ColorMat) (t : Int)
    (ht : t ≤ 1) :
    (drawRegionBorders dilate cm t).rows = cm.rows ∧
    (drawRegionBorders dilate cm t).cols = cm.cols ∧
    ∀ y x : Int, 0 ≤ y → y < cm.rows → 0 ≤ x → x < cm.cols →
      ((drawRegionBorders dilate cm t).data y x = 255 ↔
        ∃ y2 x2 : Int, 0 ≤ y2 ∧ y2 < cm.rows ∧ 0 ≤ x2 ∧ x2 < cm.cols ∧
          Adjacent4 y x y2 x2 ∧ cm.data y2 x2 ≠ cm.data y x) ∧
      ((drawRegionBorders dilate cm t).data y x ≠ 255 →
        (drawRegionBorders dilate cm t).data y x = 0) := by
  have hdef : drawRegionBorders dilate cm t =
      (cellsOf (List.range cm.rows) (List.range cm.cols)).foldl
        (fun b x => borderPixel cm b x.1 x.2) (Mat.zeros cm.rows cm.cols) := by
    unfold drawRegionBorders
    simp only
    rw [if_neg (by omega)]
    exact foldl_nested_eq (fun b y x => borderPixel cm b y x) _ _ _
  have key := fun r c => foldl_write_spec (fun b x => borderPixel cm b x.1 x.2)
    (fun x => isBorderFlag cm x.1 x.2) (fun _ => 255)
    (fun out x => borderPixel_eq cm out x.1 x.2)
    (cellsOf (List.range cm.rows) (List.range cm.cols)) (Mat.zeros cm.rows cm.cols) r c
  rw [hdef]
  refine ⟨(key 0 0).1, (key 0 0).2.1, ?_⟩
  intro y x hy0 hy1 hx0 hx1
  have hyn : y = (y.toNat : Int) := by omega
  have hxn : x = (x.toNat : Int) := by omega
  have hiff := isBorderFlag_iff cm y.toNat x.toNat (by omega) (by omega)
  rw [← hyn, ← hxn] at hiff
  have hmem : (y.toNat, x.toNat) ∈ cellsOf (List.range cm.rows) (List.range cm.cols) := by
    rw [mem_cellsOf]
    simp only [List.mem_range]
    omega
  rcases (key y x).2.2 with ⟨z, _, hpz, h1, h2, h3⟩ | ⟨hall, hval⟩
  · have e1 : z.1 = y.toNat := by omega
    have e2 : z.2 = x.toNat := by omega
    simp only [e1, e2] at hpz
    refine ⟨⟨fun _ => hiff.1 hpz, fun _ => h3⟩, fun hne => absurd h3 hne⟩
  · have hflag : ¬ isBorderFlag cm y.toNat x.toNat = true :=
      fun hp => hall (y.toNat, x.toNat) hmem hp ⟨hyn, hxn⟩
    have hz : ((cellsOf (List.range cm.rows) (List.range cm.cols)).foldl
        (fun b x => borderPixel cm b x.1 x.2) (Mat.zeros cm.rows cm.cols)).data y x = 0 := by
      rw [hval]
      rfl
    refine ⟨⟨fun h => ?_, fun h => absurd (hiff.2 h) hflag⟩, fun _ => hz⟩
    rw [hz] at h
    exact absurd h (by decide)

theorem drawRegionBorders_thin_witness :
    (1 : Int) ≤ 1 ∧
    (drawRegionBorders (fun m _ => m) splitImage 1).rows = splitImage.rows ∧
    (drawRegionBorders (fun m _ => m) splitImage 1).cols = splitImage.cols ∧
    ∀ y x : Int, 0 ≤ y → y < splitImage.rows → 0 ≤ x → x < splitImage.cols →
      ((drawRegionBorders (fun m _ => m) splitImage 1).data y x = 255 ↔
        ∃ y2 x2 : Int, 0 ≤ y2 ∧ y2 < splitImage.rows ∧ 0 ≤ x2 ∧ x2 < splitImage.cols ∧
          Adjacent4 y x y2 x2 ∧ splitImage.data y2 x2 ≠ splitImage.data y x) ∧
      ((drawRegionBorders (fun m _ => m) splitImage 1).data y x ≠ 255 →
        (drawRegionBorders (fun m _ => m) splitImage 1).data y x = 0) :=
  ⟨by decide, drawRegionBorders_thin (fun m _ => m) splitImage 1 (by decide)⟩

/-! ## Merge sweep -/

theorem mergeCell_of_mergeable (be : Nat → Nat → Nat) (i : Nat) (m : MergeState) (j : Nat)
    (h : Mergeable be m.borderSimilarity i j) :
    mergeCell be i m j =
      { borderSimilarity := fun a b =>
          if a = i ∧ b = j then m.borderSimilarity i j / (be i j : ℚ) else m.borderSimilarity a b,
        regionMapping := fun k => if k = j then m.regionMapping i else m.regionMapping k } := by
  have hr : (if i = i ∧ j = j then m.borderSimilarity i j / (be i j : ℚ)
      else m.borderSimilarity i j) > 1 / 2 := by
    rw [if_pos ⟨rfl, rfl⟩]
    exact h.2
  unfold mergeCell
  rw [if_pos h.1]
  exact if_pos hr

theorem mergeCell_of_not_mergeable (be : Nat → Nat → Nat) (i : Nat) (m : MergeState) (j : Nat)
    (h : ¬ Mergeable be m.borderSimilarity i j) :
    (mergeCell be i m j).regionMapping = m.regionMapping ∧
    ∀ a b, ¬ (a = i ∧ b = j) →
      (mergeCell be i m j).borderSimilarity a b = m.borderSimilarity a b := by
  unfold mergeCell
  by_cases h1 : be i j > 0
  · have hr : ¬ (if i = i ∧ j = j then m.borderSimilarity i j / (be i j : ℚ)
        else m.borderSimilarity i j) > 1 / 2 := by
      rw [if_pos ⟨rfl, rfl⟩]
      exact fun h2 => h ⟨h1, h2⟩
    rw [if_pos h1]
    dsimp only
    rw [if_neg hr]
    refine ⟨rfl, ?_⟩
    intro a b hab
    exact if_neg hab
  · rw [if_neg h1]
    exact ⟨rfl, fun _ _ _ => rfl⟩

theorem mergeCell_regionMapping (be : Nat → Nat → Nat) (i : Nat) (m : MergeState) (j k : Nat) :
    ((mergeCell be i m j).regionMapping k = m.regionMapping i ∧ k = j ∧
        Mergeable be m.borderSimilarity i j) ∨
      ((mergeCell be i m j).regionMapping k = m.regionMapping k ∧
        ¬ (k = j ∧ Mergeable be m.borderSimilarity i j)) := by
  by_cases h : Mergeable be m.borderSimilarity i j
  · rw [mergeCell_of_mergeable be i m j h]
    by_cases hk : k = j
    · left
      exact ⟨if_pos hk, hk, h⟩
    · right
      exact ⟨if_neg hk, fun hh => hk hh.1⟩
  · right
    rw [(mergeCell_of_not_mergeable be i m j h).1]
    exact ⟨rfl, fun hh => h hh.2⟩

theorem mergeCell_borderSimilarity (be : Nat → Nat → Nat) (i : Nat) (m : MergeState)
    (j a b : Nat) (h : ¬ (a = i ∧ b = j)) :
    (mergeCell be i m j).borderSimilarity a b = m.borderSimilarity a b := by
  by_cases hq : Mergeable be m.borderSimilarity i j
  · rw [mergeCell_of_mergeable be i m j hq]
    exact if_neg h
  · exact (mergeCell_of_not_mergeable be i m j hq).2 a b h

/-- One row of the sweep over the columns `js`: column `k` is redirected to
the representative of `i` exactly when `k` is visited and the pair `(i, k)`
passes the test; the other rows of the similarity matrix are untouched. -/
theorem mergeCells_spec (be : Nat → Nat → Nat) (i : Nat) (js : List Nat) (hnd : js.Nodup)
    (m : MergeState) :
    (∀ k, ((js.foldl (mergeCell be i) m).regionMapping k = m.regionMapping i ∧ k ∈ js ∧
          Mergeable be m.borderSimilarity i k) ∨
        ((js.foldl (mergeCell be i) m).regionMapping k = m.regionMapping k ∧
          ¬ (k ∈ js ∧ Mergeable be m.borderSimilarity i k))) ∧
    (∀ a b, a ≠ i → (js.foldl (mergeCell be i) m).borderSimilarity a b = m.borderSimilarity a b) ∧
    (∀ b, b ∉ js → (js.foldl (mergeCell be i) m).borderSimilarity i b = m.borderSimilarity i b) := by
  induction js generalizing m with
  | nil => simp
  | cons j js ih =>
    rw [List.nodup_cons] at hnd
    obtain ⟨hj, hnd⟩ := hnd
    obtain ⟨ih1, ih2, ih3⟩ := ih hnd (mergeCell be i m j)
    rw [List.foldl_cons]
    have hbs : ∀ k, k ∈ js →
        (mergeCell be i m j).borderSimilarity i k = m.borderSimilarity i k := by
      intro k hk
      apply mergeCell_borderSimilarity
      rintro ⟨_, rfl⟩
      exact hj hk
    have hmi : (mergeCell be i m j).regionMapping i = m.regionMapping i := by
      rcases mergeCell_regionMapping be i m j i with ⟨h, _⟩ | ⟨h, _⟩ <;> exact h
    refine ⟨?_, ?_, ?_⟩
    · intro k
      rcases ih1 k with ⟨e, hk, hq⟩ | ⟨e, hn⟩
      · left
        refine ⟨e.trans hmi, List.mem_cons_of_mem _ hk, ?_⟩
        unfold Mergeable at hq ⊢
        rw [hbs k hk] at hq
        exact hq
      · rcases mergeCell_regionMapping be i m j k with ⟨e2, hkj, hq⟩ | ⟨e2, hn2⟩
        · left
          refine ⟨e.trans e2, by simp [hkj], ?_⟩
          rw [hkj]
          exact hq
        · right
          refine ⟨e.trans e2, ?_⟩
          rintro ⟨hk, hq⟩
          rcases List.mem_cons.1 hk with rfl | hk
          · exact hn2 ⟨rfl, hq⟩
          · apply hn
            refine ⟨hk, ?_⟩
            unfold Mergeable at hq ⊢
            rw [hbs k hk]
            exact hq
    · intro a b ha
      rw [ih2 a b ha]
      apply mergeCell_borderSimilarity
      rintro ⟨rfl, _⟩
      exact ha rfl
    · intro b hb
      rw [List.mem_cons, not_or] at hb
      rw [ih3 b hb.2]
      apply mergeCell_borderSimilarity
      rintro ⟨_, rfl⟩
      exact hb.1 rfl

theorem mergeRow_spec (be : Nat → Nat → Nat) (n i : Nat) (m : MergeState) :
    (∀ k, ((mergeRow be n m i).regionMapping k = m.regionMapping i ∧ i ≤ k ∧ k ≤ n ∧
          Mergeable be m.borderSimilarity i k) ∨
        ((mergeRow be n m i).regionMapping k = m.regionMapping k ∧
          ¬ (i ≤ k ∧ k ≤ n ∧ Mergeable be m.borderSimilarity i k))) ∧
    (∀ a b, a ≠ i → (mergeRow be n m i).borderSimilarity a b = m.borderSimilarity a b) := by
  obtain ⟨h1, h2, _⟩ := mergeCells_spec be i (List.range' i (n + 1 - i))
    (List.nodup_range' i (n + 1 - i)) m
  refine ⟨?_, h2⟩
  intro k
  rcases h1 k with ⟨e, hk, hq⟩ | ⟨e, hn⟩
  · left
    rw [List.mem_range'_1] at hk
    exact ⟨e, by omega, by omega, hq⟩
  · right
    refine ⟨e, ?_⟩
    rintro ⟨hik, hkn, hq⟩
    apply hn
    refine ⟨?_, hq⟩
    rw [List.mem_range'_1]
    omega

theorem sweepUpTo_succ (st : BorderStats) (n t : Nat) :
    sweepUpTo st n (t + 1) = mergeRow st.borderEffectiveness n (sweepUpTo st n t) (1 + t) := by
  unfold sweepUpTo
  rw [List.range'_1_concat, List.foldl_append]
  rfl

theorem mergeSweep_eq (st : BorderStats) (n : Nat) : mergeSweep st n = sweepUpTo st n n := rfl

/-- The rows not yet swept still hold the similarity counts of the scan. -/
theorem sweepUpTo_borderSimilarity (st : BorderStats) (n t a b : Nat) (h : t < a) :
    (sweepUpTo st n t).borderSimilarity a b = st.borderSimilarity a b := by
  induction t with
  | zero => rfl
  | succ t ih =>
    rw [sweepUpTo_succ, (mergeRow_spec _ n (1 + t) _).2 a b (by omega)]
    exact ih (by omega)

/-- Invariant of the sweep: a redirected id points to an id of a row already
swept, never above itself, and to a fixed point. -/
theorem sweepUpTo_inv (st : BorderStats) (n t : Nat) :
    (∀ k, (sweepUpTo st n t).regionMapping k ≤ k) ∧
    (∀ k, (sweepUpTo st n t).regionMapping k ≠ k → (sweepUpTo st n t).regionMapping k ≤ t) ∧
    (∀ k, (sweepUpTo st n t).regionMapping ((sweepUpTo st n t).regionMapping k)
      = (sweepUpTo st n t).regionMapping k) := by
  induction t with
  | zero =>
    refine ⟨fun k => le_refl _, fun k h => absurd rfl h, fun k => rfl⟩
  | succ t ih =>
    obtain ⟨ha, hb, hc⟩ := ih
    rw [sweepUpTo_succ]
    have hrow := (mergeRow_spec st.borderEffectiveness n (1 + t) (sweepUpTo st n t)).1
    have hi : (sweepUpTo st n t).regionMapping (1 + t) ≤ 1 + t := ha (1 + t)
    refine ⟨?_, ?_, ?_⟩
    · intro k
      rcases hrow k with ⟨e, h1, _, _⟩ | ⟨e, _⟩
      · rw [e]
        omega
      · rw [e]
        exact ha k
    · intro k hne
      rcases hrow k with ⟨e, _, _, _⟩ | ⟨e, _⟩
      · rw [e]
        omega
      · rw [e] at hne ⊢
        have := hb k hne
        omega
    · intro k
      have hstable : ∀ v, (v = 1 + t → (sweepUpTo st n t).regionMapping v = v) →
          (sweepUpTo st n t).regionMapping v ≤ 1 + t → v ≤ 1 + t →
          (mergeRow st.borderEffectiveness n (sweepUpTo st n t) (1 + t)).regionMapping v
            = (sweepUpTo st n t).regionMapping v := by
        intro v _ _ hv
        rcases hrow v with ⟨e, h1, _, _⟩ | ⟨e, _⟩
        · have : v = 1 + t := by omega
          rw [e, this]
        · exact e
      rcases hrow k with ⟨e, _, _, _⟩ | ⟨e, _⟩
      · rw [e]
        have hv := hstable ((sweepUpTo st n t).regionMapping (1 + t)) (fun _ => hc _)
          (by rw [hc]; exact hi) hi
        rw [hv, hc]
      · rw [e]
        by_cases hk : (sweepUpTo st n t).regionMapping k = k
        · rw [hk]
          exact e.trans hk
        · have hkt := hb k hk
          have hv := hstable ((sweepUpTo st n t).regionMapping k) (fun _ => hc _)
            (by rw [hc]; omega) (by omega)
          rw [hv, hc]

/-- From the row of `i` on, column `j` keeps the representative of `i` as long
as no later row redirects it. -/
theorem sweepUpTo_last_write (st : BorderStats) (n i j : Nat) (hi : 1 ≤ i) (hij : i < j)
    (hjn : j ≤ n)
    (hq : Mergeable st.borderEffectiveness st.borderSimilarity i j)
    (hlast : ∀ i2, i < i2 → i2 < j →
      ¬ Mergeable st.borderEffectiveness st.borderSimilarity i2 j)
    (t : Nat) (ht : i ≤ t) :
    (sweepUpTo st n t).regionMapping j = (sweepUpTo st n t).regionMapping i := by
  induction t, ht using Nat.le_induction with
  | base =>
    obtain ⟨p, rfl⟩ : ∃ p, i = p + 1 := ⟨i - 1, by omega⟩
    rw [sweepUpTo_succ]
    have hrow := (mergeRow_spec st.borderEffectiveness n (1 + p) (sweepUpTo st n p)).1
    have hself : (mergeRow st.borderEffectiveness n (sweepUpTo st n p) (1 + p)).regionMapping
        (p + 1) = (sweepUpTo st n p).regionMapping (1 + p) := by
      rcases hrow (p + 1) with ⟨e, _⟩ | ⟨e, _⟩
      · exact e
      · rw [e, Nat.add_comm]
    rw [hself]
    rcases hrow j with ⟨e, _⟩ | ⟨_, hn⟩
    · exact e
    · exfalso
      apply hn
      refine ⟨by omega, hjn, ?_⟩
      unfold Mergeable at hq ⊢
      rw [sweepUpTo_borderSimilarity st n p (1 + p) j (by omega)]
      rw [Nat.add_comm 1 p]
      exact hq
  | succ t ht ih =>
    rw [sweepUpTo_succ]
    have hrow := (mergeRow_spec st.borderEffectiveness n (1 + t) (sweepUpTo st n t)).1
    have hself : (mergeRow st.borderEffectiveness n (sweepUpTo st n t) (1 + t)).regionMapping i
        = (sweepUpTo st n t).regionMapping i := by
      rcases hrow i with ⟨_, h, _⟩ | ⟨e, _⟩
      · omega
      · exact e
    rw [hself, ← ih]
    rcases hrow j with ⟨e, h1, _, hm⟩ | ⟨e, _⟩
    · unfold Mergeable at hm
      rw [sweepUpTo_borderSimilarity st n t (1 + t) j (by omega)] at hm
      by_cases hlt : 1 + t < j
      · exact absurd hm (hlast (1 + t) (by omega) hlt)
      · have : j = 1 + t := by omega
        rw [e, this]
    · exact e

/-- C3 (counterexample). On the 2-by-2 grid `[[0, 13], [8, 8]]` with
`seedCount = 3` growth ends with labels `[[1, 2], [3, 3]]`; the pair `(1, 3)`
has a recorded border with similarity ratio above 0.5, yet the sweep leaves
`regionMapping[3] = 2` and `regionMapping[1] = 1`, and the pixels labelled 1
and 3 after growth end with different labels. -/
theorem merge_pair_not_joined :
    (seedAndGrow chainGrid 3).pixelQueue = [] ∧
    (seedAndGrow chainGrid 3).regionMap.data 0 0 = 1 ∧
    (seedAndGrow chainGrid 3).regionMap.data 1 0 = 3 ∧
    (executeStats chainGrid 3).borderEffectiveness 1 3 > 0 ∧
    (executeStats chainGrid 3).borderSimilarity 1 3 /
      ((executeStats chainGrid 3).borderEffectiveness 1 3 : ℚ) > 1 / 2 ∧
    executeMapping chainGrid 3 3 = 2 ∧ executeMapping chainGrid 3 1 = 1 ∧
    (executeLabels chainGrid 3).data 0 0 = 1 ∧ (executeLabels chainGrid 3).data 1 0 = 2 := by
  decide!

/-! ## Remap loop -/

theorem cellsOf_nodup (is js : List Nat) (hi : is.Nodup) (hj : js.Nodup) :
    (cellsOf is js).Nodup := by
  unfold cellsOf
  rw [List.nodup_flatMap]
  refine ⟨fun i _ => ?_, ?_⟩
  · exact hj.map (fun a b h => (Prod.mk.inj h).2)
  · refine hi.imp ?_
    intro a b hab
    rw [Function.onFun, List.disjoint_iff_ne]
    intro x hx y hy hxy
    rw [List.mem_map] at hx hy
    obtain ⟨_, _, rfl⟩ := hx
    obtain ⟨_, _, rfl⟩ := hy
    exact hab (Prod.mk.inj hxy).1

/-- A loop that replaces each visited cell by a function of its current value,
visiting no cell twice: the visited cells hold the function of their initial
value, the others are untouched. -/
theorem foldl_update_spec (h : Nat → Nat) (cells : List (Nat × Nat)) (hnd : cells.Nodup)
    (m0 : Mat) (r c : Int) :
    (cells.foldl (fun m x => m.set x.1 x.2 (h (m.data x.1 x.2))) m0).rows = m0.rows ∧
    (cells.foldl (fun m x => m.set x.1 x.2 (h (m.data x.1 x.2))) m0).cols = m0.cols ∧
    ((∃ x ∈ cells, r = x.1 ∧ c = x.2) →
      (cells.foldl (fun m x => m.set x.1 x.2 (h (m.data x.1 x.2))) m0).data r c
        = h (m0.data r c)) ∧
    ((¬ ∃ x ∈ cells, r = x.1 ∧ c = x.2) →
      (cells.foldl (fun m x => m.set x.1 x.2 (h (m.data x.1 x.2))) m0).data r c
        = m0.data r c) := by
  induction cells generalizing m0 with
  | nil => simp
  | cons x xs ih =>
    rw [List.nodup_cons] at hnd
    obtain ⟨hx, hnd⟩ := hnd
    rw [List.foldl_cons]
    obtain ⟨i1, i2, i3, i4⟩ := ih hnd (m0.set x.1 x.2 (h (m0.data x.1 x.2)))
    refine ⟨i1, i2, ?_, ?_⟩
    · rintro ⟨z, hz, hr, hc⟩
      by_cases hin : ∃ w ∈ xs, r = w.1 ∧ c = w.2
      · rw [i3 hin, Mat.set_data]
        obtain ⟨w, hw, hr2, hc2⟩ := hin
        have hne : ¬ (r = (x.1 : Int) ∧ c = (x.2 : Int)) := by
          rintro ⟨e1, e2⟩
          have : w = x := by
            apply Prod.ext <;> omega
          exact hx (this ▸ hw)
        rw [if_neg hne]
      · rw [i4 hin, Mat.set_data]
        rcases List.mem_cons.1 hz with rfl | hz
        · rw [if_pos ⟨hr, hc⟩, hr, hc]
        · exact absurd ⟨z, hz, hr, hc⟩ hin
    · intro hnot
      have hin : ¬ ∃ w ∈ xs, r = w.1 ∧ c = w.2 := by
        rintro ⟨w, hw, h1, h2⟩
        exact hnot ⟨w, List.mem_cons_of_mem _ hw, h1, h2⟩
      rw [i4 hin, Mat.set_data]
      have hne : ¬ (r = (x.1 : Int) ∧ c = (x.2 : Int)) := by
        rintro ⟨e1, e2⟩
        exact hnot ⟨x, List.mem_cons_self _ _, e1, e2⟩
      rw [if_neg hne]

/-- The remap loop, cell by cell. -/
theorem remap_spec (m : Nat → Nat) (labels : Mat) (r c : Int) :
    (remap m labels).rows = labels.rows ∧ (remap m labels).cols = labels.cols ∧
    (0 ≤ r → r < labels.rows → 0 ≤ c → c < labels.cols →
      (remap m labels).data r c = toUchar (m (labels.data r c))) := by
  have hflat : remap m labels =
      (cellsOf (List.range labels.rows) (List.range labels.cols)).foldl
        (fun mm x => mm.set x.1 x.2 ((fun v => toUchar (m v)) (mm.data x.1 x.2))) labels := by
    unfold remap
    exact foldl_nested_eq (fun (mm : Mat) (i j : Nat) =>
      mm.set (i : Int) (j : Int) (toUchar ((m (mm.data i j) : Nat) : Int)))
      (List.range labels.rows) (List.range labels.cols) labels
  obtain ⟨h1, h2, h3, _⟩ := foldl_update_spec (fun v => toUchar (m v))
    (cellsOf (List.range labels.rows) (List.range labels.cols))
    (cellsOf_nodup _ _ (List.nodup_range _) (List.nodup_range _)) labels r c
  rw [← hflat] at h1 h2 h3
  refine ⟨h1, h2, ?_⟩
  intro hr0 hr1 hc0 hc1
  apply h3
  refine ⟨(r.toNat, c.toNat), ?_, by simp only; omega, by simp only; omega⟩
  rw [mem_cellsOf]
  simp only [List.mem_range]
  omega

theorem toUchar_of_le (v : Nat) (h : v ≤ 255) : toUchar (v : Int) = v := by
  unfold toUchar
  omega

theorem toUchar_lt (v : Int) : toUchar v < 256 := by
  unfold toUchar
  omega

/-! ## Seeding and growth: loop principles and basic invariant -/

theorem foldl_inv {α β : Type} (P : α → Prop) (f : α → β → α) (l : List β) (a : α)
    (h0 : P a) (hs : ∀ a b, b ∈ l → P a → P (f a b)) : P (l.foldl f a) := by
  induction l generalizing a with
  | nil => exact h0
  | cons b l ih =>
    rw [List.foldl_cons]
    apply ih
    · exact hs a b (List.mem_cons_self _ _) h0
    · intro a2 b2 hb2 h2
      exact hs a2 b2 (List.mem_cons_of_mem _ hb2) h2

theorem seedStep_skip (seedCount dx dy : Nat) (cs : List (Nat × Nat)) (s : RegionGrower × Int)
    (h : s.2 > (seedCount : Int)) : cs.foldl (seedStep seedCount dx dy) s = s := by
  induction cs with
  | nil => rfl
  | cons c cs ih =>
    rw [List.foldl_cons]
    have : seedStep seedCount dx dy s c = s := by
      unfold seedStep
      rw [if_pos h]
    rw [this, ih]

theorem seedRow_eq_foldl (seedCount dx dy i : Nat) (js : List Nat) (s : RegionGrower × Int) :
    seedRow seedCount dx dy i js s
      = (js.map fun j => (i, j)).foldl (seedStep seedCount dx dy) s := by
  induction js generalizing s with
  | nil => rfl
  | cons j js ih =>
    rw [List.map_cons, List.foldl_cons]
    unfold seedRow
    by_cases h : s.2 > (seedCount : Int)
    · rw [if_pos h]
      have : seedStep seedCount dx dy s (i, j) = s := by
        unfold seedStep
        rw [if_pos h]
      rw [this, seedStep_skip _ _ _ _ _ h]
    · rw [if_neg h]
      have : seedStep seedCount dx dy s (i, j) = seedCell dx dy i j s := by
        unfold seedStep
        rw [if_neg h]
      rw [this]
      exact ih _

theorem seedRows_eq_foldl (seedCount dx dy : Nat) (is js : List Nat) (s : RegionGrower × Int) :
    is.foldl (fun s i => seedRow seedCount dx dy i js s) s
      = (cellsOf is js).foldl (seedStep seedCount dx dy) s := by
  induction is generalizing s with
  | nil => rfl
  | cons i is ih =>
    have h : cellsOf (i :: is) js = js.map (fun j => (i, j)) ++ cellsOf is js := by
      simp [cellsOf]
    rw [h, List.foldl_append, List.foldl_cons, seedRow_eq_foldl]
    exact ih _

/-- The two seeding loops as one loop over the cells in row-major order. -/
theorem seedLoop_eq_foldl (g : RegionGrower) (seedCount : Nat) :
    seedLoop g seedCount =
      (cellsOf (List.range (ceilSqrt seedCount)) (List.range (ceilSqrt seedCount))).foldl
        (seedStep seedCount (g.originalImage.cols / ceilSqrt seedCount)
          (g.originalImage.rows / ceilSqrt seedCount)) (g, 1) := by
  unfold seedLoop
  exact seedRows_eq_foldl _ _ _ _ _ _

theorem seedCell_eq (dx dy i j : Nat) (s : RegionGrower × Int) :
    seedCell dx dy i j s =
      if s.1.regionMap.data (seedPos s.1.originalImage dx dy i j).1
          (seedPos s.1.originalImage dx dy i j).2 = 0 then
        ({ s.1 with
            pixelQueue := s.1.pixelQueue ++
              [{ category := s.2, posX := (seedPos s.1.originalImage dx dy i j).2,
                 posY := (seedPos s.1.originalImage dx dy i j).1,
                 intensity := (s.1.originalImage.data (seedPos s.1.originalImage dx dy i j).1
                   (seedPos s.1.originalImage dx dy i j).2 : Int) }],
            regionMap := s.1.regionMap.set (seedPos s.1.originalImage dx dy i j).1
              (seedPos s.1.originalImage dx dy i j).2 (toUchar s.2) },
          s.2 + 1)
      else s := rfl

theorem growLoop_inv (P : RegionGrower → Prop)
    (hstep : ∀ g, g.pixelQueue ≠ [] → P g → P (growStep g)) (fuel : Nat) (g : RegionGrower)
    (h : P g) : P (growLoop fuel g) := by
  induction fuel generalizing g with
  | zero => exact h
  | succ fuel ih =>
    unfold growLoop
    split
    · exact h
    · rename_i cur rest hq
      exact ih _ (hstep g (by rw [hq]; exact List.cons_ne_nil _ _) h)

theorem growStep_inv (P : RegionGrower → Prop)
    (hpop : ∀ g cur rest, g.pixelQueue = cur :: rest → P g → P { g with pixelQueue := rest })
    (hvisit : ∀ g cur nb, P g → P (visitNeighbor cur g nb)) (g : RegionGrower) (h : P g) :
    P (growStep g) := by
  unfold growStep
  split
  · exact h
  · rename_i cur rest hq
    simp only
    apply foldl_inv
    · exact hpop g cur rest hq h
    · intro a b _ ha
      exact hvisit a cur b ha

theorem Basic_seedCell (img : Mat) (dx dy i j : Nat) (s : RegionGrower × Int)
    (h : Basic img s.1) : Basic img (seedCell dx dy i j s).1 := by
  rw [seedCell_eq]
  split
  · obtain ⟨h1, h2, h3, h4⟩ := h
    refine ⟨h1, h2, h3, ?_⟩
    intro y x
    simp only [Mat.set_data]
    split
    · exact toUchar_lt _
    · exact h4 y x
  · exact h

theorem Basic_seeding (img : Mat) (seedCount : Nat) :
    Basic img (seeding (RegionGrower.new img) seedCount) := by
  unfold seeding
  rw [seedLoop_eq_foldl]
  refine foldl_inv (fun s : RegionGrower × Int => Basic img s.1) _ _ _ ?_ ?_
  · exact ⟨rfl, rfl, rfl, fun _ _ => by simp [RegionGrower.new, Mat.zeros]⟩
  · intro s c _ hs
    unfold seedStep
    split
    · exact hs
    · exact Basic_seedCell img _ _ _ _ s hs

theorem Basic_visitNeighbor (img : Mat) (g : RegionGrower) (cur nb : PixelInfo)
    (h : Basic img g) : Basic img (visitNeighbor cur g nb) := by
  unfold visitNeighbor
  split
  · obtain ⟨h1, h2, h3, h4⟩ := h
    refine ⟨h1, h2, h3, ?_⟩
    intro y x
    simp only [Mat.set_data]
    split
    · exact toUchar_lt _
    · exact h4 y x
  · exact h

theorem Basic_growLoop (img : Mat) (fuel : Nat) (g : RegionGrower) (h : Basic img g) :
    Basic img (growLoop fuel g) := by
  apply growLoop_inv (Basic img) _ fuel g h
  intro g _ hg
  apply growStep_inv (Basic img) _ _ g hg
  · intro g cur rest _ h
    exact h
  · intro g cur nb h
    exact Basic_visitNeighbor img g cur nb h

theorem Basic_seedAndGrow (img : Mat) (seedCount : Nat) :
    Basic img (seedAndGrow img seedCount) :=
  Basic_growLoop img _ _ (Basic_seeding img seedCount)

/-- C4. The final label of every cell is `regionMapping[label after growth]`
(one lookup) and is a fixed point of the `regionMapping` of the merge sweep;
this holds for any 8-bit label grid and any statistics, in particular along
`execute`; and the sweep always yields an idempotent mapping. -/
theorem remap_fixed_point :
    (∀ (st : BorderStats) (seedCount : Nat) (labels : Mat),
      (∀ y x, labels.data y x < 256) →
      ∀ y x : Int, 0 ≤ y → y < labels.rows → 0 ≤ x → x < labels.cols →
        (remap (mergeSweep st seedCount).regionMapping labels).data y x
          = (mergeSweep st seedCount).regionMapping (labels.data y x) ∧
        (mergeSweep st seedCount).regionMapping
            ((remap (mergeSweep st seedCount).regionMapping labels).data y x)
          = (remap (mergeSweep st seedCount).regionMapping labels).data y x) ∧
    (∀ (img : Mat) (seedCount : Nat) (y x : Int),
      0 ≤ y → y < img.rows → 0 ≤ x → x < img.cols →
        (executeLabels img seedCount).data y x
          = executeMapping img seedCount ((seedAndGrow img seedCount).regionMap.data y x) ∧
        executeMapping img seedCount ((executeLabels img seedCount).data y x)
          = (executeLabels img seedCount).data y x) ∧
    (∀ (st : BorderStats) (seedCount k : Nat),
      (mergeSweep st seedCount).regionMapping ((mergeSweep st seedCount).regionMapping k)
        = (mergeSweep st seedCount).regionMapping k) := by
  have hidem : ∀ (st : BorderStats) (seedCount k : Nat),
      (mergeSweep st seedCount).regionMapping ((mergeSweep st seedCount).regionMapping k)
        = (mergeSweep st seedCount).regionMapping k := by
    intro st n k
    rw [mergeSweep_eq]
    exact (sweepUpTo_inv st n n).2.2 k
  have hgen : ∀ (st : BorderStats) (seedCount : Nat) (labels : Mat),
      (∀ y x, labels.data y x < 256) →
      ∀ y x : Int, 0 ≤ y → y < labels.rows → 0 ≤ x → x < labels.cols →
        (remap (mergeSweep st seedCount).regionMapping labels).data y x
          = (mergeSweep st seedCount).regionMapping (labels.data y x) ∧
        (mergeSweep st seedCount).regionMapping
            ((remap (mergeSweep st seedCount).regionMapping labels).data y x)
          = (remap (mergeSweep st seedCount).regionMapping labels).data y x := by
    intro st n labels hl y x hy0 hy1 hx0 hx1
    have h1 := (remap_spec (mergeSweep st n).regionMapping labels y x).2.2 hy0 hy1 hx0 hx1
    have hle : (mergeSweep st n).regionMapping (labels.data y x) ≤ labels.data y x := by
      rw [mergeSweep_eq]
      exact (sweepUpTo_inv st n n).1 _
    have h2 : toUchar (((mergeSweep st n).regionMapping (labels.data y x) : Nat) : Int)
        = (mergeSweep st n).regionMapping (labels.data y x) :=
      toUchar_of_le _ (by have := hl y x; omega)
    rw [h1, h2]
    exact ⟨rfl, hidem st n _⟩
  refine ⟨hgen, ?_, hidem⟩
  intro img n y x hy0 hy1 hx0 hx1
  obtain ⟨_, hr, hc, hlt⟩ := Basic_seedAndGrow img n
  exact hgen (executeStats img n) n (seedAndGrow img n).regionMap hlt y x hy0
    (by rw [hr]; exact hy1) hx0 (by rw [hc]; exact hx1)

/-- Along `execute`, the remap stores `regionMapping[label after growth]`. -/
theorem executeLabels_lookup (img : Mat) (seedCount : Nat) (y x : Int)
    (hy0 : 0 ≤ y) (hy1 : y < img.rows) (hx0 : 0 ≤ x) (hx1 : x < img.cols) :
    (executeLabels img seedCount).data y x
      = executeMapping img seedCount ((seedAndGrow img seedCount).regionMap.data y x) := by
  obtain ⟨_, hr, hc, hlt⟩ := Basic_seedAndGrow img seedCount
  unfold executeLabels
  rw [(remap_spec _ _ y x).2.2 hy0 (by rw [hr]; exact hy1) hx0 (by rw [hc]; exact hx1)]
  apply toUchar_of_le
  have hle : executeMapping img seedCount ((seedAndGrow img seedCount).regionMap.data y x)
      ≤ (seedAndGrow img seedCount).regionMap.data y x := by
    unfold executeMapping
    rw [mergeSweep_eq]
    exact (sweepUpTo_inv _ _ _).1 _
  have := hlt y x
  omega

/-- C3 (amended). If the pair `(i, j)`, `1 ≤ i < j ≤ seedCount`, has a recorded
border with similarity ratio above 0.5 after the border scan, and no row `i2`
with `i < i2 < j` passes the same test for column `j`, then the final
`regionMapping[j]` equals `regionMapping[i]`, and all pixels labelled `i` or
`j` after growth carry the same final label. -/
theorem merge_joins_last_pair (img : Mat) (seedCount i j : Nat)
    (hi : 1 ≤ i) (hij : i < j) (hjn : j ≤ seedCount)
    (hbe : (executeStats img seedCount).borderEffectiveness i j > 0)
    (hratio : (executeStats img seedCount).borderSimilarity i j /
      ((executeStats img seedCount).borderEffectiveness i j : ℚ) > 1 / 2)
    (hlast : ∀ i2, i < i2 → i2 < j →
      ¬ ((executeStats img seedCount).borderEffectiveness i2 j > 0 ∧
        (executeStats img seedCount).borderSimilarity i2 j /
          ((executeStats img seedCount).borderEffectiveness i2 j : ℚ) > 1 / 2)) :
    executeMapping img seedCount j = executeMapping img seedCount i ∧
    ∀ y x y2 x2 : Int, 0 ≤ y → y < img.rows → 0 ≤ x → x < img.cols →
      0 ≤ y2 → y2 < img.rows → 0 ≤ x2 → x2 < img.cols →
      ((seedAndGrow img seedCount).regionMap.data y x = i ∨
        (seedAndGrow img seedCount).regionMap.data y x = j) →
      ((seedAndGrow img seedCount).regionMap.data y2 x2 = i ∨
        (seedAndGrow img seedCount).regionMap.data y2 x2 = j) →
      (executeLabels img seedCount).data y x = (executeLabels img seedCount).data y2 x2 := by
  have hmap : executeMapping img seedCount j = executeMapping img seedCount i := by
    unfold executeMapping
    rw [mergeSweep_eq]
    exact sweepUpTo_last_write (executeStats img seedCount) seedCount i j hi hij hjn
      ⟨hbe, hratio⟩ hlast seedCount (by omega)
  refine ⟨hmap, ?_⟩
  intro y x y2 x2 hy0 hy1 hx0 hx1 hy20 hy21 hx20 hx21 h1 h2
  rw [executeLabels_lookup img seedCount y x hy0 hy1 hx0 hx1,
    executeLabels_lookup img seedCount y2 x2 hy20 hy21 hx20 hx21]
  rcases h1 with h1 | h1 <;> rcases h2 with h2 | h2 <;> rw [h1, h2]
  · exact hmap.symm
  · exact hmap

theorem merge_joins_last_pair_witness :
    (executeStats chainGrid 3).borderEffectiveness 2 3 > 0 ∧
    (executeStats chainGrid 3).borderSimilarity 2 3 /
      ((executeStats chainGrid 3).borderEffectiveness 2 3 : ℚ) > 1 / 2 ∧
    executeMapping chainGrid 3 3 = executeMapping chainGrid 3 2 ∧
    ∀ y x y2 x2 : Int, 0 ≤ y → y < chainGrid.rows → 0 ≤ x → x < chainGrid.cols →
      0 ≤ y2 → y2 < chainGrid.rows → 0 ≤ x2 → x2 < chainGrid.cols →
      ((seedAndGrow chainGrid 3).regionMap.data y x = 2 ∨
        (seedAndGrow chainGrid 3).regionMap.data y x = 3) →
      ((seedAndGrow chainGrid 3).regionMap.data y2 x2 = 2 ∨
        (seedAndGrow chainGrid 3).regionMap.data y2 x2 = 3) →
      (executeLabels chainGrid 3).data y x = (executeLabels chainGrid 3).data y2 x2 :=
  ⟨by decide!, by decide!,
    merge_joins_last_pair chainGrid 3 2 3 (by decide) (by decide) (by decide) (by decide!)
      (by decide!) (fun i2 h1 h2 => by omega)⟩

/-! ## Seeding -/

theorem ceilSqrtFrom_spec (n fuel g : Nat) (hlow : ∀ k, k < g → k * k < n)
    (hfuel : n ≤ fuel + g) :
    n ≤ ceilSqrtFrom n fuel g * ceilSqrtFrom n fuel g ∧
      ∀ k, k < ceilSqrtFrom n fuel g → k * k < n := by
  induction fuel generalizing g with
  | zero =>
    simp only [ceilSqrtFrom]
    refine ⟨?_, hlow⟩
    have hng : n ≤ g := by omega
    rcases Nat.eq_zero_or_pos g with h | h
    · subst h
      omega
    · calc n ≤ g := hng
        _ = g * 1 := by ring
        _ ≤ g * g := Nat.mul_le_mul_left g h
  | succ fuel ih =>
    simp only [ceilSqrtFrom]
    split
    · rename_i h
      exact ⟨h, hlow⟩
    · rename_i h
      apply ih
      · intro k hk
        rcases Nat.lt_succ_iff_lt_or_eq.1 hk with h1 | h1
        · exact hlow k h1
        · subst h1
          omega
      · omega

/-- The model of `ceil(sqrt(n))` is the least `g` with `n ≤ g * g`. -/
theorem ceilSqrt_spec (n : Nat) :
    n ≤ ceilSqrt n * ceilSqrt n ∧ ∀ k, k < ceilSqrt n → k * k < n :=
  ceilSqrtFrom_spec n n 0 (fun k hk => absurd hk (Nat.not_lt_zero k)) (by omega)

theorem ceilSqrt_pos (n : Nat) (h : 1 ≤ n) : 1 ≤ ceilSqrt n := by
  have h1 := (ceilSqrt_spec n).1
  rcases Nat.eq_zero_or_pos (ceilSqrt n) with h0 | h0
  · rw [h0] at h1
    omega
  · exact h0

theorem cell_centre_lt (w g j : Nat) (hw : 1 ≤ w) (hj : j < g) :
    j * (w / g) + (w / g) / 2 < w := by
  rcases Nat.eq_zero_or_pos (w / g) with h0 | h0
  · rw [h0]
    simpa using hw
  · have h1 : (j + 1) * (w / g) ≤ g * (w / g) := Nat.mul_le_mul_right _ hj
    have h2 : g * (w / g) ≤ w := Nat.mul_div_le w g
    have h3 : (j + 1) * (w / g) = j * (w / g) + w / g := by ring
    omega

/-- The candidate position of a cell of the seeding grid lies in the image
before clamping; the two clamps change nothing. -/
theorem seedPos_inGrid (img : Mat) (g i j : Nat) (hr : 1 ≤ img.rows) (hc : 1 ≤ img.cols)
    (hi : i < g) (hj : j < g) :
    seedPos img (img.cols / g) (img.rows / g) i j
      = ((i : Int) * (img.rows / g : Nat) + ((img.rows / g : Nat) : Int) / 2,
         (j : Int) * (img.cols / g : Nat) + ((img.cols / g : Nat) : Int) / 2) ∧
    InGrid img (seedPos img (img.cols / g) (img.rows / g) i j).1
      (seedPos img (img.cols / g) (img.rows / g) i j).2 := by
  have hx := cell_centre_lt img.cols g j hc hj
  have hy := cell_centre_lt img.rows g i hr hi
  have hx2 : (j : Int) * (img.cols / g : Nat) + ((img.cols / g : Nat) : Int) / 2
      = ((j * (img.cols / g) + (img.cols / g) / 2 : Nat) : Int) := by
    push_cast
    rfl
  have hy2 : (i : Int) * (img.rows / g : Nat) + ((img.rows / g : Nat) : Int) / 2
      = ((i * (img.rows / g) + (img.rows / g) / 2 : Nat) : Int) := by
    push_cast
    rfl
  have hpos : seedPos img (img.cols / g) (img.rows / g) i j
      = ((i : Int) * (img.rows / g : Nat) + ((img.rows / g : Nat) : Int) / 2,
         (j : Int) * (img.cols / g : Nat) + ((img.cols / g : Nat) : Int) / 2) := by
    unfold seedPos
    simp only
    rw [if_neg (by rw [hy2]; exact not_le.2 (Int.ofNat_lt.2 hy)),
      if_neg (by rw [hx2]; exact not_le.2 (Int.ofNat_lt.2 hx))]
  refine ⟨hpos, ?_⟩
  rw [hpos]
  simp only [InGrid]
  rw [hy2, hx2]
  exact ⟨Int.ofNat_nonneg _, Int.ofNat_lt.2 hy, Int.ofNat_nonneg _, Int.ofNat_lt.2 hx⟩

theorem SeedInv_init (img : Mat) (n dx dy : Nat) :
    SeedInv img n dx dy [] (RegionGrower.new img, 1) where
  image := rfl
  idx := by simp [RegionGrower.new]
  le := by simp [RegionGrower.new]
  cats := by
    intro k p h
    simp [RegionGrower.new] at h
  lab := by
    intro y x
    simp [RegionGrower.new, Mat.zeros, queuePositions]
  nodup := by simp [queuePositions, RegionGrower.new]
  sub := by
    intro q hq
    simp [queuePositions, RegionGrower.new] at hq
  full := by
    intro _ c hc
    simp at hc

theorem queuePositions_push (g : RegionGrower) (rm : Mat) (p : PixelInfo) :
    queuePositions { g with pixelQueue := g.pixelQueue ++ [p], regionMap := rm }
      = queuePositions g ++ [(p.posY, p.posX)] := by
  simp [queuePositions]

theorem mem_queuePositions_of_getElem? (g : RegionGrower) (k : Nat) (p : PixelInfo)
    (h : g.pixelQueue[k]? = some p) : (p.posY, p.posX) ∈ queuePositions g := by
  unfold queuePositions
  rw [List.mem_map]
  exact ⟨p, List.getElem?_mem h, rfl⟩

theorem SeedInv_step (img : Mat) (n dx dy : Nat) (h255 : n ≤ 255) (pre : List (Nat × Nat))
    (c : Nat × Nat) (s : RegionGrower × Int) (h : SeedInv img n dx dy pre s) :
    SeedInv img n dx dy (pre ++ [c]) (seedStep n dx dy s c) := by
  have hsub : ∀ q ∈ queuePositions s.1,
      q ∈ (pre ++ [c]).map (fun c => seedPos img dx dy c.1 c.2) := by
    intro q hq
    rw [List.map_append]
    exact List.mem_append_left _ (h.sub q hq)
  have hidx := h.idx
  unfold seedStep
  by_cases hfull : s.2 > (n : Int)
  · rw [if_pos hfull]
    exact
      { image := h.image, idx := h.idx, le := h.le, cats := h.cats, lab := h.lab,
        nodup := h.nodup, sub := hsub,
        full := by
          intro hlt
          omega }
  · rw [if_neg hfull, seedCell_eq, h.image]
    have hlen : s.1.pixelQueue.length < n := by omega
    by_cases hz : s.1.regionMap.data (seedPos img dx dy c.1 c.2).1
        (seedPos img dx dy c.1 c.2).2 = 0
    · rw [if_pos hz]
      have hnotin : seedPos img dx dy c.1 c.2 ∉ queuePositions s.1 := by
        intro hin
        exact (h.lab _ _).2 hin hz
      have hu : toUchar s.2 = s.1.pixelQueue.length + 1 := by
        rw [hidx]
        exact_mod_cast toUchar_of_le (s.1.pixelQueue.length + 1) (by omega)
      refine
        { image := h.image, idx := ?_, le := ?_, cats := ?_, lab := ?_, nodup := ?_,
          sub := ?_, full := ?_ }
      · simp only [List.length_append, List.length_singleton]
        push_cast
        omega
      · simp only [List.length_append, List.length_singleton]
        omega
      · intro k p hk
        simp only at hk
        by_cases hkl : k < s.1.pixelQueue.length
        · rw [List.getElem?_append_left hkl] at hk
          obtain ⟨c1, c2, c3⟩ := h.cats k p hk
          refine ⟨c1, ?_, c3⟩
          simp only [Mat.set_data]
          rw [if_neg]
          · exact c2
          · rintro ⟨e1, e2⟩
            apply hnotin
            have := mem_queuePositions_of_getElem? s.1 k p hk
            rw [e1, e2] at this
            exact this
        · rw [List.getElem?_append_right (not_lt.1 hkl)] at hk
          rcases Nat.eq_zero_or_pos (k - s.1.pixelQueue.length) with h0 | h0
          · rw [h0] at hk
            simp only [List.getElem?_cons_zero, Option.some.injEq] at hk
            subst hk
            have hk2 : k = s.1.pixelQueue.length := by omega
            refine ⟨by simp only; omega, ?_, rfl⟩
            simp only [Mat.set_data, and_self, if_true]
            omega
          · obtain ⟨m, hm⟩ : ∃ m, k - s.1.pixelQueue.length = m + 1 := ⟨_, (Nat.succ_pred_eq_of_pos h0).symm⟩
            rw [hm] at hk
            simp at hk
      · intro y x
        rw [queuePositions_push]
        simp only [Mat.set_data, List.mem_append, List.mem_singleton]
        by_cases hyx : y = (seedPos img dx dy c.1 c.2).1 ∧ x = (seedPos img dx dy c.1 c.2).2
        · rw [if_pos hyx]
          constructor
          · intro _
            right
            exact Prod.ext hyx.1 hyx.2
          · intro _
            omega
        · rw [if_neg hyx, h.lab y x]
          constructor
          · intro hq
            exact Or.inl hq
          · rintro (hq | hq)
            · exact hq
            · exact absurd ⟨congrArg Prod.fst hq, congrArg Prod.snd hq⟩ hyx
      · rw [queuePositions_push, List.nodup_append]
        refine ⟨h.nodup, List.nodup_singleton _, ?_⟩
        intro q hq hq2
        rw [List.mem_singleton] at hq2
        rw [hq2] at hq
        exact hnotin hq
      · intro q hq
        rw [queuePositions_push, List.mem_append, List.mem_singleton] at hq
        rcases hq with hq | hq
        · exact hsub q hq
        · rw [List.map_append, hq]
          exact List.mem_append_right _ (by simp)
      · intro _ c2 hc2
        rw [queuePositions_push, List.mem_append, List.mem_singleton]
        rcases List.mem_append.1 hc2 with h1 | h1
        · exact Or.inl (h.full hlen c2 h1)
        · rw [List.mem_singleton] at h1
          right
          rw [h1]
    · rw [if_neg hz]
      exact
        { image := h.image, idx := h.idx, le := h.le, cats := h.cats, lab := h.lab,
          nodup := h.nodup, sub := hsub,
          full := by
            intro hlt c2 hc2
            rcases List.mem_append.1 hc2 with h1 | h1
            · exact h.full hlt c2 h1
            · rw [List.mem_singleton] at h1
              rw [h1]
              exact (h.lab _ _).1 hz }

theorem SeedInv_foldl (img : Mat) (n dx dy : Nat) (h255 : n ≤ 255) (cells : List (Nat × Nat)) :
    SeedInv img n dx dy cells (cells.foldl (seedStep n dx dy) (RegionGrower.new img, 1)) := by
  induction cells using List.reverseRecOn with
  | nil => exact SeedInv_init img n dx dy
  | append_singleton cells c ih =>
    rw [List.foldl_append, List.foldl_cons, List.foldl_nil]
    exact SeedInv_step img n dx dy h255 cells c _ ih

/-- The seeding invariant at the end of the seeding loops of `execute`. -/
theorem SeedInv_seedLoop (img : Mat) (n : Nat) (h255 : n ≤ 255) :
    SeedInv img n (img.cols / ceilSqrt n) (img.rows / ceilSqrt n)
      (cellsOf (List.range (ceilSqrt n)) (List.range (ceilSqrt n)))
      (seedLoop (RegionGrower.new img) n) := by
  rw [seedLoop_eq_foldl]
  exact SeedInv_foldl img n _ _ h255 _

theorem cellsOf_length (is js : List Nat) : (cellsOf is js).length = is.length * js.length := by
  unfold cellsOf
  exact length_flatMap_const _ _ _ (fun _ => List.length_map _ _)

/-- On the cells of the seeding grid the clamped positions are the candidate
positions, with the coordinates swapped. -/
theorem candidates_eq (img : Mat) (n : Nat) (hr : 1 ≤ img.rows) (hc : 1 ≤ img.cols) :
    candidates img n =
      ((cellsOf (List.range (ceilSqrt n)) (List.range (ceilSqrt n))).map
        (fun c => seedPos img (img.cols / ceilSqrt n) (img.rows / ceilSqrt n) c.1 c.2)).map
        Prod.swap := by
  unfold candidates
  rw [List.map_map]
  apply List.map_congr_left
  intro c hc2
  rw [mem_cellsOf, List.mem_range, List.mem_range] at hc2
  rw [Function.comp_apply, (seedPos_inGrid img (ceilSqrt n) c.1 c.2 hr hc hc2.1 hc2.2).1]
  rfl

theorem candidates_nodup (img : Mat) (n : Nat) (hgc : ceilSqrt n ≤ img.cols)
    (hgr : ceilSqrt n ≤ img.rows) (hg : 1 ≤ ceilSqrt n) : (candidates img n).Nodup := by
  unfold candidates
  apply List.Nodup.map_on
  · intro a _ b _ hab
    have hdx : 0 < img.cols / ceilSqrt n := Nat.div_pos hgc hg
    have hdy : 0 < img.rows / ceilSqrt n := Nat.div_pos hgr hg
    have h1 := congrArg Prod.fst hab
    have h2 := congrArg Prod.snd hab
    simp only at h1 h2
    have h3 : a.2 * (img.cols / ceilSqrt n) = b.2 * (img.cols / ceilSqrt n) := by
      have : (a.2 : Int) * ((img.cols / ceilSqrt n : Nat) : Int)
          = (b.2 : Int) * ((img.cols / ceilSqrt n : Nat) : Int) := by
        omega
      exact_mod_cast this
    have h4 : a.1 * (img.rows / ceilSqrt n) = b.1 * (img.rows / ceilSqrt n) := by
      have : (a.1 : Int) * ((img.rows / ceilSqrt n : Nat) : Int)
          = (b.1 : Int) * ((img.rows / ceilSqrt n : Nat) : Int) := by
        omega
      exact_mod_cast this
    exact Prod.ext (Nat.eq_of_mul_eq_mul_right hdy h4) (Nat.eq_of_mul_eq_mul_right hdx h3)
  · exact cellsOf_nodup _ _ (List.nodup_range _) (List.nodup_range _)

theorem toFinset_map_eq_image {α β : Type} [DecidableEq α] [DecidableEq β] (f : α → β)
    (l : List α) : (l.map f).toFinset = l.toFinset.image f := by
  ext x
  simp

/-- C8. For a non-empty grid and `1 ≤ seedCount ≤ 255`, from an all-zero label
grid, the number of accepted seeds (the entries pushed by seeding, also
`seedIndex - 1`) is `min(seedCount, D)` with `D` the number of distinct
candidate positions; it never exceeds `seedCount` and equals `seedCount`
whenever `g ≤ cols` and `g ≤ rows`. -/
theorem seeding_count (img : Mat) (seedCount : Nat) (hr : 1 ≤ img.rows) (hc : 1 ≤ img.cols)
    (h1 : 1 ≤ seedCount) (h255 : seedCount ≤ 255) :
    (seeding (RegionGrower.new img) seedCount).pixelQueue.length
      = min seedCount (candidates img seedCount).toFinset.card ∧
    (seedLoop (RegionGrower.new img) seedCount).2
      = ((seeding (RegionGrower.new img) seedCount).pixelQueue.length : Int) + 1 ∧
    (seeding (RegionGrower.new img) seedCount).pixelQueue.length ≤ seedCount ∧
    (ceilSqrt seedCount ≤ img.cols → ceilSqrt seedCount ≤ img.rows →
      (seeding (RegionGrower.new img) seedCount).pixelQueue.length = seedCount) := by
  have inv := SeedInv_seedLoop img seedCount h255
  unfold seeding
  have hlen : (seedLoop (RegionGrower.new img) seedCount).1.pixelQueue.length
      = (queuePositions (seedLoop (RegionGrower.new img) seedCount).1).toFinset.card := by
    rw [List.toFinset_card_of_nodup inv.nodup]
    simp [queuePositions]
  have hcard : (candidates img seedCount).toFinset.card
      = ((cellsOf (List.range (ceilSqrt seedCount)) (List.range (ceilSqrt seedCount))).map
        (fun c => seedPos img (img.cols / ceilSqrt seedCount) (img.rows / ceilSqrt seedCount)
          c.1 c.2)).toFinset.card := by
    rw [candidates_eq img seedCount hr hc, toFinset_map_eq_image]
    exact Finset.card_image_of_injective _ Prod.swap_injective
  have hsubset : (queuePositions (seedLoop (RegionGrower.new img) seedCount).1).toFinset ⊆
      ((cellsOf (List.range (ceilSqrt seedCount)) (List.range (ceilSqrt seedCount))).map
        (fun c => seedPos img (img.cols / ceilSqrt seedCount) (img.rows / ceilSqrt seedCount)
          c.1 c.2)).toFinset := by
    intro q hq
    rw [List.mem_toFinset] at hq ⊢
    exact inv.sub q hq
  have hle : (seedLoop (RegionGrower.new img) seedCount).1.pixelQueue.length
      ≤ (candidates img seedCount).toFinset.card := by
    rw [hlen, hcard]
    exact Finset.card_le_card hsubset
  have hmin : (seedLoop (RegionGrower.new img) seedCount).1.pixelQueue.length
      = min seedCount (candidates img seedCount).toFinset.card := by
    by_cases hlt : (seedLoop (RegionGrower.new img) seedCount).1.pixelQueue.length < seedCount
    · have heq : (queuePositions (seedLoop (RegionGrower.new img) seedCount).1).toFinset =
          ((cellsOf (List.range (ceilSqrt seedCount)) (List.range (ceilSqrt seedCount))).map
            (fun c => seedPos img (img.cols / ceilSqrt seedCount)
              (img.rows / ceilSqrt seedCount) c.1 c.2)).toFinset := by
        apply Finset.Subset.antisymm hsubset
        intro q hq
        rw [List.mem_toFinset] at hq ⊢
        rw [List.mem_map] at hq
        obtain ⟨c, hc2, rfl⟩ := hq
        exact inv.full hlt c hc2
      have : (seedLoop (RegionGrower.new img) seedCount).1.pixelQueue.length
          = (candidates img seedCount).toFinset.card := by
        rw [hlen, hcard, heq]
      omega
    · have := inv.le
      omega
  refine ⟨hmin, inv.idx, inv.le, ?_⟩
  intro hgc hgr
  have hD : (candidates img seedCount).toFinset.card = ceilSqrt seedCount * ceilSqrt seedCount := by
    rw [List.toFinset_card_of_nodup
      (candidates_nodup img seedCount hgc hgr (ceilSqrt_pos seedCount h1))]
    unfold candidates
    rw [List.length_map, cellsOf_length, List.length_range]
  have := (ceilSqrt_spec seedCount).1
  omega

theorem seeding_count_witness :
    (1 ≤ thinGrid.rows ∧ 1 ≤ thinGrid.cols ∧ 1 ≤ 4 ∧ 4 ≤ 255) ∧
    (seeding (RegionGrower.new thinGrid) 4).pixelQueue.length = 2 ∧
    ((seeding (RegionGrower.new thinGrid) 4).pixelQueue.length
      = min 4 (candidates thinGrid 4).toFinset.card ∧
    (seedLoop (RegionGrower.new thinGrid) 4).2
      = ((seeding (RegionGrower.new thinGrid) 4).pixelQueue.length : Int) + 1 ∧
    (seeding (RegionGrower.new thinGrid) 4).pixelQueue.length ≤ 4 ∧
    (ceilSqrt 4 ≤ thinGrid.cols → ceilSqrt 4 ≤ thinGrid.rows →
      (seeding (RegionGrower.new thinGrid) 4).pixelQueue.length = 4)) :=
  ⟨by decide, by decide,
    seeding_count thinGrid 4 (by decide) (by decide) (by decide) (by decide)⟩

/-! ## Region growth -/

theorem isValidCoordinate_iff (g : RegionGrower) (x y : Int) :
    isValidCoordinate g x y = true ↔ InGrid g.originalImage y x := by
  simp [isValidCoordinate, InGrid, and_assoc]

theorem mem_addNeighbor (g : RegionGrower) (x y : Int) (nbs : List PixelInfo) (p : PixelInfo) :
    p ∈ addNeighbor g x y nbs ↔
      p ∈ nbs ∨ (InGrid g.originalImage y x ∧
        p = { category := (g.regionMap.data y x : Int), posX := x, posY := y,
              intensity := (g.originalImage.data y x : Int) }) := by
  unfold addNeighbor
  by_cases h : isValidCoordinate g x y = true
  · rw [if_pos h, List.mem_append, List.mem_singleton]
    rw [isValidCoordinate_iff] at h
    simp [h]
  · rw [if_neg h]
    rw [isValidCoordinate_iff] at h
    simp [h]

/-- The entries of `findNeighbors` are the 4-connected neighbours inside the
grid, each with the intensity of its pixel. -/
theorem mem_findNeighbors (g : RegionGrower) (cur nb : PixelInfo)
    (h : nb ∈ findNeighbors g cur) :
    InGrid g.originalImage nb.posY nb.posX ∧
      nb.intensity = (g.originalImage.data nb.posY nb.posX : Int) ∧
      Adjacent4 cur.posY cur.posX nb.posY nb.posX := by
  unfold findNeighbors at h
  simp only [mem_addNeighbor, List.not_mem_nil, false_or] at h
  unfold Adjacent4
  rcases h with ((⟨h1, rfl⟩ | ⟨h1, rfl⟩) | ⟨h1, rfl⟩) | ⟨h1, rfl⟩
  · exact ⟨h1, rfl, Or.inl ⟨rfl, Or.inl rfl⟩⟩
  · exact ⟨h1, rfl, Or.inl ⟨rfl, Or.inr rfl⟩⟩
  · exact ⟨h1, rfl, Or.inr ⟨rfl, Or.inl rfl⟩⟩
  · exact ⟨h1, rfl, Or.inr ⟨rfl, Or.inr rfl⟩⟩

theorem findNeighbors_complete (g : RegionGrower) (cur : PixelInfo) (y x : Int)
    (hin : InGrid g.originalImage y x) (hadj : Adjacent4 cur.posY cur.posX y x) :
    (y, x) ∈ (findNeighbors g cur).map (fun nb => (nb.posY, nb.posX)) := by
  rw [List.mem_map]
  unfold findNeighbors
  simp only [mem_addNeighbor, List.not_mem_nil, false_or]
  rcases hadj with ⟨rfl, rfl | rfl⟩ | ⟨rfl, rfl | rfl⟩
  · exact ⟨_, Or.inl (Or.inl (Or.inl ⟨hin, rfl⟩)), rfl⟩
  · exact ⟨_, Or.inl (Or.inl (Or.inr ⟨hin, rfl⟩)), rfl⟩
  · exact ⟨_, Or.inl (Or.inr ⟨hin, rfl⟩), rfl⟩
  · exact ⟨_, Or.inr ⟨hin, rfl⟩, rfl⟩

theorem Extends_set (labels : Mat) (y0 x0 : Int) (v : Nat) (h0 : labels.data y0 x0 = 0) :
    Extends labels (labels.set y0 x0 v) := by
  intro y x hne
  rw [Mat.set_data, if_neg]
  rintro ⟨rfl, rfl⟩
  exact hne h0

theorem RegionEdge_mono (img l1 l2 : Mat) (k : Nat) (hk : 1 ≤ k) (hext : Extends l1 l2)
    (a b : Int × Int) (h : RegionEdge img l1 k a b) : RegionEdge img l2 k a b := by
  obtain ⟨he, ha, hb⟩ := h
  refine ⟨he, ?_, ?_⟩
  · rw [hext _ _ (by omega), ha]
  · rw [hext _ _ (by omega), hb]

theorem Joined_mono (img l1 l2 : Mat) (S : List PixelInfo) (k : Nat) (p : Int × Int)
    (hext : Extends l1 l2) (h : Joined img l1 S k p) : Joined img l2 S k p := by
  obtain ⟨s, hs, hk, hpath⟩ := h
  exact ⟨s, hs, hk, hpath.mono (RegionEdge_mono img l1 l2 k hk hext)⟩

theorem Closed_mono (img l1 l2 : Mat) (p : Int × Int) (hext : Extends l1 l2)
    (h : Closed img l1 p) : Closed img l2 p := by
  intro q hq
  rw [hext _ _ (h q hq)]
  exact h q hq

theorem visitNeighbor_grow (cur nb : PixelInfo) (g : RegionGrower)
    (h : growthCriterion cur nb = true ∧ g.regionMap.data nb.posY nb.posX = 0) :
    visitNeighbor cur g nb =
      { g with
        regionMap := g.regionMap.set nb.posY nb.posX (toUchar cur.category),
        pixelQueue := g.pixelQueue ++ [{ nb with category := cur.category }] } := by
  unfold visitNeighbor
  rw [if_pos]
  simp [h.1, h.2]

theorem visitNeighbor_skip (cur nb : PixelInfo) (g : RegionGrower)
    (h : ¬ (growthCriterion cur nb = true ∧ g.regionMap.data nb.posY nb.posX = 0)) :
    visitNeighbor cur g nb = g := by
  unfold visitNeighbor
  rw [if_neg]
  simpa using h

theorem QueueOk_mono (img l1 l2 : Mat) (p : PixelInfo) (hext : Extends l1 l2)
    (h : QueueOk img l1 p) : QueueOk img l2 p := by
  obtain ⟨h1, h2, h3, h4⟩ := h
  have := hext _ _ h4
  exact ⟨h1, h2, by rw [this]; exact h3, by rw [this]; exact h4⟩

theorem toUchar_category (img labels : Mat) (cur : PixelInfo) (hlt : ∀ y x, labels.data y x < 256)
    (h : QueueOk img labels cur) : toUchar cur.category = labels.data cur.posY cur.posX := by
  rw [← h.2.2.1]
  exact toUchar_of_le _ (by have := hlt cur.posY cur.posX; omega)

/-- Visiting one neighbour of the popped entry keeps the invariant. -/
theorem VisitInv_visit (img : Mat) (S : List PixelInfo) (cur nb : PixelInfo)
    (nbs : List PixelInfo) (g : RegionGrower) (h : VisitInv img S cur (nb :: nbs) g) :
    VisitInv img S cur nbs (visitNeighbor cur g nb) := by
  obtain ⟨hnbin, hnbint, hnbadj⟩ := h.nbsok nb (List.mem_cons_self _ _)
  have hnbs : ∀ nb2 ∈ nbs, InGrid img nb2.posY nb2.posX ∧
      nb2.intensity = (img.data nb2.posY nb2.posX : Int) ∧
      Adjacent4 cur.posY cur.posX nb2.posY nb2.posX :=
    fun nb2 h2 => h.nbsok nb2 (List.mem_cons_of_mem _ h2)
  have hcrit : growthCriterion cur nb = true ↔
      |(img.data cur.posY cur.posX : Int) - (img.data nb.posY nb.posX : Int)| ≤ 3 := by
    unfold growthCriterion
    rw [h.curok.2.1, hnbint]
    simp
  by_cases hc : growthCriterion cur nb = true ∧ g.regionMap.data nb.posY nb.posX = 0
  · rw [visitNeighbor_grow cur nb g hc]
    have hu := toUchar_category img g.regionMap cur h.base.lt h.curok
    have hk0 : g.regionMap.data cur.posY cur.posX ≠ 0 := h.curok.2.2.2
    have hext : Extends g.regionMap (g.regionMap.set nb.posY nb.posX (toUchar cur.category)) :=
      Extends_set _ _ _ _ hc.2
    have hnew : (g.regionMap.set nb.posY nb.posX (toUchar cur.category)).data nb.posY nb.posX
        = g.regionMap.data cur.posY cur.posX := by
      rw [Mat.set_data, if_pos ⟨rfl, rfl⟩, hu]
    have hold : ∀ y x, ¬ (y = nb.posY ∧ x = nb.posX) →
        (g.regionMap.set nb.posY nb.posX (toUchar cur.category)).data y x
          = g.regionMap.data y x := by
      intro y x hyx
      rw [Mat.set_data, if_neg hyx]
    have hcur : (g.regionMap.set nb.posY nb.posX (toUchar cur.category)).data cur.posY cur.posX
        = g.regionMap.data cur.posY cur.posX := hext _ _ hk0
    have hedge : GrowEdge img (cur.posY, cur.posX) (nb.posY, nb.posX) :=
      ⟨h.curok.1, hnbin, hnbadj, hcrit.1 hc.1⟩
    have hjoin_nb : Joined img (g.regionMap.set nb.posY nb.posX (toUchar cur.category)) S
        (g.regionMap.data cur.posY cur.posX) (nb.posY, nb.posX) := by
      obtain ⟨s, hs, hk, hpath⟩ := Joined_mono img _ _ S _ _ hext
        (h.base.joined cur.posY cur.posX hk0)
      exact ⟨s, hs, hk, hpath.tail ⟨hedge, hcur, hnew⟩⟩
    refine
      { base :=
          { image := h.base.image, lt := ?_, ingrid := ?_, qok := ?_, seeds := ?_,
            joined := ?_ },
        curok := QueueOk_mono img _ _ cur hext h.curok, nbsok := hnbs, closed := ?_ }
    · intro y x
      simp only [Mat.set_data]
      split
      · exact toUchar_lt _
      · exact h.base.lt y x
    · intro y x hne
      by_cases hyx : y = nb.posY ∧ x = nb.posX
      · rw [hyx.1, hyx.2]
        exact hnbin
      · rw [hold y x hyx] at hne
        exact h.base.ingrid y x hne
    · intro p hp
      simp only at hp
      rcases List.mem_append.1 hp with hp | hp
      · exact QueueOk_mono img _ _ p hext (h.base.qok p hp)
      · rw [List.mem_singleton] at hp
        subst hp
        refine ⟨hnbin, hnbint, ?_, ?_⟩
        · show ((g.regionMap.set nb.posY nb.posX (toUchar cur.category)).data nb.posY nb.posX : Int)
            = cur.category
          rw [hnew]
          exact h.curok.2.2.1
        · show (g.regionMap.set nb.posY nb.posX (toUchar cur.category)).data nb.posY nb.posX ≠ 0
          rw [hnew]
          exact hk0
    · intro s hs
      obtain ⟨h1, h2⟩ := h.base.seeds s hs
      refine ⟨?_, h2⟩
      show (g.regionMap.set nb.posY nb.posX (toUchar cur.category)).data s.posY s.posX ≠ 0
      rw [hext _ _ h1]
      exact h1
    · intro y x hne
      show Joined img (g.regionMap.set nb.posY nb.posX (toUchar cur.category)) S
        ((g.regionMap.set nb.posY nb.posX (toUchar cur.category)).data y x) (y, x)
      by_cases hyx : y = nb.posY ∧ x = nb.posX
      · rw [hyx.1, hyx.2, hnew]
        exact hjoin_nb
      · have hne2 : g.regionMap.data y x ≠ 0 := by
          rw [← hold y x hyx]
          exact hne
        rw [hold y x hyx]
        exact Joined_mono img _ _ S _ _ hext (h.base.joined y x hne2)
    · intro y x hne
      show (y, x) ∈ queuePositions _ ∨ Closed img _ (y, x) ∨ _
      rw [queuePositions_push]
      by_cases hyx : y = nb.posY ∧ x = nb.posX
      · left
        rw [hyx.1, hyx.2]
        exact List.mem_append_right _ (List.mem_singleton.2 rfl)
      · have hne2 : g.regionMap.data y x ≠ 0 := by
          have := hold y x hyx
          simp only at hne
          rw [this] at hne
          exact hne
        rcases h.closed y x hne2 with hq | hcl | ⟨hpos, hall⟩
        · exact Or.inl (List.mem_append_left _ hq)
        · exact Or.inr (Or.inl (Closed_mono img _ _ _ hext hcl))
        · refine Or.inr (Or.inr ⟨hpos, ?_⟩)
          intro q hq
          rcases hall q hq with hl | hm
          · left
            show (g.regionMap.set nb.posY nb.posX (toUchar cur.category)).data q.1 q.2 ≠ 0
            rw [hext _ _ hl]
            exact hl
          · rw [List.map_cons, List.mem_cons] at hm
            rcases hm with hm | hm
            · left
              show (g.regionMap.set nb.posY nb.posX (toUchar cur.category)).data q.1 q.2 ≠ 0
              rw [hm, hnew]
              exact hk0
            · exact Or.inr hm
  · rw [visitNeighbor_skip cur nb g hc]
    refine { base := h.base, curok := h.curok, nbsok := hnbs, closed := ?_ }
    intro y x hne
    rcases h.closed y x hne with hq | hcl | ⟨hpos, hall⟩
    · exact Or.inl hq
    · exact Or.inr (Or.inl hcl)
    · refine Or.inr (Or.inr ⟨hpos, ?_⟩)
      intro q hq
      rcases hall q hq with hl | hm
      · exact Or.inl hl
      · rw [List.map_cons, List.mem_cons] at hm
        rcases hm with hm | hm
        · left
          intro hzero
          apply hc
          refine ⟨hcrit.2 ?_, ?_⟩
          · have := hq.2.2.2
            rw [hpos, hm] at this
            exact this
          · rw [hm] at hzero
            exact hzero
        · exact Or.inr hm

theorem VisitInv_foldl (img : Mat) (S : List PixelInfo) (cur : PixelInfo)
    (nbs : List PixelInfo) (g : RegionGrower) (h : VisitInv img S cur nbs g) :
    VisitInv img S cur [] (nbs.foldl (visitNeighbor cur) g) := by
  induction nbs generalizing g with
  | nil => exact h
  | cons nb nbs ih =>
    rw [List.foldl_cons]
    exact ih _ (VisitInv_visit img S cur nb nbs g h)

theorem growStep_cons (g : RegionGrower) (cur : PixelInfo) (rest : List PixelInfo)
    (hq : g.pixelQueue = cur :: rest) :
    growStep g = (findNeighbors { g with pixelQueue := rest } cur).foldl (visitNeighbor cur)
      { g with pixelQueue := rest } := by
  unfold growStep
  split
  · rename_i h
    rw [hq] at h
    exact absurd h (List.cons_ne_nil _ _)
  · rename_i c r h
    rw [hq] at h
    obtain ⟨rfl, rfl⟩ := List.cons.inj h
    rfl

/-- Popping the front entry starts the visit of its neighbours. -/
theorem VisitInv_pop (img : Mat) (S : List PixelInfo) (g : RegionGrower) (cur : PixelInfo)
    (rest : List PixelInfo) (hq : g.pixelQueue = cur :: rest) (h : GrowInv img S g) :
    VisitInv img S cur (findNeighbors { g with pixelQueue := rest } cur)
      { g with pixelQueue := rest } := by
  have hcurmem : cur ∈ g.pixelQueue := by
    rw [hq]
    exact List.mem_cons_self _ _
  refine
    { base :=
        { image := h.base.image, lt := h.base.lt, ingrid := h.base.ingrid, qok := ?_,
          seeds := h.base.seeds, joined := h.base.joined },
      curok := h.base.qok cur hcurmem, nbsok := ?_, closed := ?_ }
  · intro p hp
    exact h.base.qok p (by rw [hq]; exact List.mem_cons_of_mem _ hp)
  · intro nb hnb
    have := mem_findNeighbors _ cur nb hnb
    simp only [h.base.image] at this
    exact this
  · intro y x hne
    rcases h.closed y x hne with hqp | hcl
    · unfold queuePositions at hqp
      rw [hq, List.map_cons, List.mem_cons] at hqp
      rcases hqp with hqp | hqp
      · refine Or.inr (Or.inr ⟨hqp, ?_⟩)
        intro q hedge
        right
        have hin : InGrid ({ g with pixelQueue := rest } : RegionGrower).originalImage
            q.1 q.2 := by
          simp only [h.base.image]
          exact hedge.2.1
        have hadj := hedge.2.2.1
        rw [hqp] at hadj
        exact findNeighbors_complete _ cur q.1 q.2 hin hadj
      · exact Or.inl hqp
    · exact Or.inr (Or.inl hcl)

/-- One iteration of the growth loop keeps the invariant. -/
theorem GrowInv_growStep (img : Mat) (S : List PixelInfo) (g : RegionGrower)
    (h : GrowInv img S g) : GrowInv img S (growStep g) := by
  rcases hq : g.pixelQueue with _ | ⟨cur, rest⟩
  · have : growStep g = g := by
      unfold growStep
      rw [hq]
    rw [this]
    exact h
  · rw [growStep_cons g cur rest hq]
    have hend := VisitInv_foldl img S cur _ _ (VisitInv_pop img S g cur rest hq h)
    refine { base := hend.base, closed := ?_ }
    intro y x hne
    rcases hend.closed y x hne with hqp | hcl | ⟨_, hall⟩
    · exact Or.inl hqp
    · exact Or.inr hcl
    · right
      intro q hq2
      rcases hall q hq2 with hl | hm
      · exact hl
      · simp at hm

theorem GrowInv_growLoop (img : Mat) (S : List PixelInfo) (fuel : Nat) (g : RegionGrower)
    (h : GrowInv img S g) : GrowInv img S (growLoop fuel g) :=
  growLoop_inv (GrowInv img S) (fun g _ hg => GrowInv_growStep img S g hg) fuel g h

/-- The grower after seeding satisfies the growth invariant, with the queue of
accepted seeds as seed list. -/
theorem GrowInv_seeding (img : Mat) (n : Nat) (hr : 1 ≤ img.rows) (hc : 1 ≤ img.cols)
    (h255 : n ≤ 255) :
    GrowInv img (seeding (RegionGrower.new img) n).pixelQueue
      (seeding (RegionGrower.new img) n) := by
  have inv := SeedInv_seedLoop img n h255
  have hbasic := Basic_seeding img n
  unfold seeding at hbasic ⊢
  have hingrid : ∀ y x, (seedLoop (RegionGrower.new img) n).1.regionMap.data y x ≠ 0 →
      InGrid img y x := by
    intro y x hne
    have hmem := inv.sub _ ((inv.lab y x).1 hne)
    rw [List.mem_map] at hmem
    obtain ⟨c, hc2, hpos⟩ := hmem
    rw [mem_cellsOf, List.mem_range, List.mem_range] at hc2
    have := (seedPos_inGrid img (ceilSqrt n) c.1 c.2 hr hc hc2.1 hc2.2).2
    rw [hpos] at this
    exact this
  have hq : ∀ p ∈ (seedLoop (RegionGrower.new img) n).1.pixelQueue,
      QueueOk img (seedLoop (RegionGrower.new img) n).1.regionMap p := by
    intro p hp
    obtain ⟨k, hk⟩ := List.mem_iff_getElem?.1 hp
    obtain ⟨c1, c2, c3⟩ := inv.cats k p hk
    have hne : (seedLoop (RegionGrower.new img) n).1.regionMap.data p.posY p.posX ≠ 0 := by
      omega
    refine ⟨hingrid _ _ hne, c3, ?_, hne⟩
    rw [c2, c1]
    push_cast
    rfl
  refine
    { base :=
        { image := inv.image, lt := hbasic.2.2.2, ingrid := hingrid, qok := hq,
          seeds := fun s hs => ⟨(hq s hs).2.2.2, (hq s hs).1⟩, joined := ?_ },
      closed := fun y x hne => Or.inl ((inv.lab y x).1 hne) }
  intro y x hne
  have hmem := (inv.lab y x).1 hne
  unfold queuePositions at hmem
  rw [List.mem_map] at hmem
  obtain ⟨p, hp, hpos⟩ := hmem
  obtain ⟨k, hk⟩ := List.mem_iff_getElem?.1 hp
  obtain ⟨_, c2, _⟩ := inv.cats k p hk
  have e1 : p.posY = y := congrArg Prod.fst hpos
  have e2 : p.posX = x := congrArg Prod.snd hpos
  rw [e1, e2] at c2
  rw [c2]
  refine ⟨p, by simpa using hk, by omega, ?_⟩
  rw [e1, e2]

/-! ### Termination of the growth loop -/

theorem zeroCells_set (img labels : Mat) (y0 x0 : Int) (v : Nat) (hin : InGrid img y0 x0)
    (h0 : labels.data y0 x0 = 0) (hv : v ≠ 0) :
    zeroCells img (labels.set y0 x0 v) + 1 = zeroCells img labels := by
  unfold zeroCells
  have hmem : (y0, x0) ∈ (Finset.Ico (0 : Int) img.rows ×ˢ Finset.Ico (0 : Int) img.cols).filter
      (fun c => labels.data c.1 c.2 = 0) := by
    rw [Finset.mem_filter, Finset.mem_product, Finset.mem_Ico, Finset.mem_Ico]
    exact ⟨⟨⟨hin.1, hin.2.1⟩, ⟨hin.2.2.1, hin.2.2.2⟩⟩, h0⟩
  have heq : (Finset.Ico (0 : Int) img.rows ×ˢ Finset.Ico (0 : Int) img.cols).filter
      (fun c => (labels.set y0 x0 v).data c.1 c.2 = 0)
      = ((Finset.Ico (0 : Int) img.rows ×ˢ Finset.Ico (0 : Int) img.cols).filter
        (fun c => labels.data c.1 c.2 = 0)).erase (y0, x0) := by
    ext c
    simp only [Finset.mem_filter, Finset.mem_erase, Mat.set_data]
    by_cases hc : c.1 = y0 ∧ c.2 = x0
    · rw [if_pos hc]
      have : c = (y0, x0) := Prod.ext hc.1 hc.2
      constructor
      · intro h
        exact absurd h.2 hv
      · intro h
        exact absurd this h.1
    · rw [if_neg hc]
      have : c ≠ (y0, x0) := fun e => hc ⟨congrArg Prod.fst e, congrArg Prod.snd e⟩
      constructor
      · intro h
        exact ⟨this, h⟩
      · intro h
        exact h.2
  rw [heq, Finset.card_erase_of_mem hmem]
  have := Finset.card_pos.2 ⟨_, hmem⟩
  omega

theorem growMeasure_visit (img : Mat) (S : List PixelInfo) (cur nb : PixelInfo)
    (nbs : List PixelInfo) (g : RegionGrower) (h : VisitInv img S cur (nb :: nbs) g) :
    growMeasure img (visitNeighbor cur g nb) = growMeasure img g := by
  by_cases hc : growthCriterion cur nb = true ∧ g.regionMap.data nb.posY nb.posX = 0
  · rw [visitNeighbor_grow cur nb g hc]
    unfold growMeasure
    have hu := toUchar_category img g.regionMap cur h.base.lt h.curok
    have := zeroCells_set img g.regionMap nb.posY nb.posX (toUchar cur.category)
      (h.nbsok nb (List.mem_cons_self _ _)).1 hc.2 (by rw [hu]; exact h.curok.2.2.2)
    simp only [List.length_append, List.length_singleton]
    omega
  · rw [visitNeighbor_skip cur nb g hc]

theorem growMeasure_foldl (img : Mat) (S : List PixelInfo) (cur : PixelInfo)
    (nbs : List PixelInfo) (g : RegionGrower) (h : VisitInv img S cur nbs g) :
    growMeasure img (nbs.foldl (visitNeighbor cur) g) = growMeasure img g := by
  induction nbs generalizing g with
  | nil => rfl
  | cons nb nbs ih =>
    rw [List.foldl_cons, ih _ (VisitInv_visit img S cur nb nbs g h),
      growMeasure_visit img S cur nb nbs g h]

theorem growMeasure_growStep (img : Mat) (S : List PixelInfo) (g : RegionGrower)
    (cur : PixelInfo) (rest : List PixelInfo) (hq : g.pixelQueue = cur :: rest)
    (h : GrowInv img S g) : growMeasure img (growStep g) + 1 = growMeasure img g := by
  rw [growStep_cons g cur rest hq,
    growMeasure_foldl img S cur _ _ (VisitInv_pop img S g cur rest hq h)]
  unfold growMeasure
  rw [hq, List.length_cons]
  rfl

/-- The growth loop empties the queue within `growMeasure` pops. -/
theorem growLoop_terminates (img : Mat) (S : List PixelInfo) (fuel : Nat) (g : RegionGrower)
    (h : GrowInv img S g) (hfuel : growMeasure img g ≤ fuel) :
    (growLoop fuel g).pixelQueue = [] := by
  induction fuel generalizing g with
  | zero =>
    unfold growMeasure at hfuel
    have : g.pixelQueue.length = 0 := by omega
    exact List.length_eq_zero.1 this
  | succ fuel ih =>
    rcases hq : g.pixelQueue with _ | ⟨cur, rest⟩
    · unfold growLoop
      rw [hq]
      exact hq
    · have hstep : growLoop (fuel + 1) g = growLoop fuel (growStep g) := by
        conv_lhs => unfold growLoop
        rw [hq]
      rw [hstep]
      apply ih _ (GrowInv_growStep img S g h)
      have := growMeasure_growStep img S g cur rest hq h
      omega

/-- After seeding, unlabelled pixels and queued seeds together number at most
`rows * cols`. -/
theorem growMeasure_seeding (img : Mat) (n : Nat) (hr : 1 ≤ img.rows) (hc : 1 ≤ img.cols)
    (h255 : n ≤ 255) :
    growMeasure img (seeding (RegionGrower.new img) n) ≤ img.rows * img.cols := by
  have inv := SeedInv_seedLoop img n h255
  have hg := GrowInv_seeding img n hr hc h255
  unfold seeding at hg ⊢
  unfold growMeasure zeroCells
  have hlen : (seedLoop (RegionGrower.new img) n).1.pixelQueue.length
      = (queuePositions (seedLoop (RegionGrower.new img) n).1).toFinset.card := by
    rw [List.toFinset_card_of_nodup inv.nodup]
    simp [queuePositions]
  have hsub : (queuePositions (seedLoop (RegionGrower.new img) n).1).toFinset ⊆
      (Finset.Ico (0 : Int) img.rows ×ˢ Finset.Ico (0 : Int) img.cols).filter
        (fun c => ¬ (seedLoop (RegionGrower.new img) n).1.regionMap.data c.1 c.2 = 0) := by
    intro q hq
    rw [List.mem_toFinset] at hq
    have hne := (inv.lab q.1 q.2).2 hq
    have hin := hg.base.ingrid q.1 q.2 hne
    rw [Finset.mem_filter, Finset.mem_product, Finset.mem_Ico, Finset.mem_Ico]
    exact ⟨⟨⟨hin.1, hin.2.1⟩, ⟨hin.2.2.1, hin.2.2.2⟩⟩, hne⟩
  have hcard := Finset.card_le_card hsub
  have hsplit := Finset.filter_card_add_filter_neg_card_eq_card
    (s := Finset.Ico (0 : Int) img.rows ×ˢ Finset.Ico (0 : Int) img.cols)
    (fun c => (seedLoop (RegionGrower.new img) n).1.regionMap.data c.1 c.2 = 0)
  have htot : (Finset.Ico (0 : Int) img.rows ×ˢ Finset.Ico (0 : Int) img.cols).card
      = img.rows * img.cols := by
    rw [Finset.card_product, Int.card_Ico, Int.card_Ico]
    simp
  omega

/-- For a non-empty grid and `seedCount ≤ 255`, the growth loop of `execute`
has emptied the queue after at most `rows * cols` pops. -/
theorem seedAndGrow_done (img : Mat) (n : Nat) (hr : 1 ≤ img.rows) (hc : 1 ≤ img.cols)
    (h255 : n ≤ 255) : (seedAndGrow img n).pixelQueue = [] :=
  growLoop_terminates img _ _ _ (GrowInv_seeding img n hr hc h255)
    (growMeasure_seeding img n hr hc h255)

theorem GrowInv_seedAndGrow (img : Mat) (n : Nat) (hr : 1 ≤ img.rows) (hc : 1 ≤ img.cols)
    (h255 : n ≤ 255) :
    GrowInv img (seeding (RegionGrower.new img) n).pixelQueue (seedAndGrow img n) :=
  GrowInv_growLoop img _ _ _ (GrowInv_seeding img n hr hc h255)

/-- C1. For a non-empty grid and `1 ≤ seedCount ≤ 255`, from an all-zero label
grid, seeding and region growth end with an empty queue, and a pixel has a
non-zero label exactly when some accepted seed position reaches it by a
4-connected path inside the grid whose consecutive pixels differ in intensity
by at most 3; every other pixel is still labelled 0. -/
theorem growth_labels_reachable (img : Mat) (seedCount : Nat) (hr : 1 ≤ img.rows)
    (hc : 1 ≤ img.cols) (_h1 : 1 ≤ seedCount) (h255 : seedCount ≤ 255) :
    (seedAndGrow img seedCount).pixelQueue = [] ∧
    ∀ y x : Int, (seedAndGrow img seedCount).regionMap.data y x ≠ 0 ↔
      ∃ s ∈ (seeding (RegionGrower.new img) seedCount).pixelQueue,
        Relation.ReflTransGen (GrowEdge img) (s.posY, s.posX) (y, x) := by
  have hdone := seedAndGrow_done img seedCount hr hc h255
  have inv := GrowInv_seedAndGrow img seedCount hr hc h255
  refine ⟨hdone, ?_⟩
  intro y x
  constructor
  · intro hne
    obtain ⟨s, hs, _, hpath⟩ := inv.base.joined y x hne
    exact ⟨s, List.getElem?_mem hs, hpath.mono (fun a b hab => hab.1)⟩
  · rintro ⟨s, hs, hpath⟩
    have hgen : ∀ p : Int × Int, Relation.ReflTransGen (GrowEdge img) (s.posY, s.posX) p →
        (seedAndGrow img seedCount).regionMap.data p.1 p.2 ≠ 0 := by
      intro p hp
      induction hp with
      | refl => exact (inv.base.seeds s hs).1
      | @tail a b _ hedge ih =>
        rcases inv.closed a.1 a.2 ih with hq | hcl
        · unfold queuePositions at hq
          rw [hdone] at hq
          simp at hq
        · exact hcl b hedge
    exact hgen (y, x) hpath

theorem growth_labels_reachable_witness :
    (1 ≤ chainGrid.rows ∧ 1 ≤ chainGrid.cols ∧ 1 ≤ 3 ∧ 3 ≤ 255) ∧
    (seedAndGrow chainGrid 3).pixelQueue = [] ∧
    ∀ y x : Int, (seedAndGrow chainGrid 3).regionMap.data y x ≠ 0 ↔
      ∃ s ∈ (seeding (RegionGrower.new chainGrid) 3).pixelQueue,
        Relation.ReflTransGen (GrowEdge chainGrid) (s.posY, s.posX) (y, x) :=
  ⟨by decide,
    growth_labels_reachable chainGrid 3 (by decide) (by decide) (by decide) (by decide)⟩

/-- C2. For a non-empty grid and `1 ≤ seedCount ≤ 255`, after region growth
every pixel labelled `k ≥ 1` is joined to the position of the seed of id `k`
(the `k`-th accepted seed) by a 4-connected path all of whose pixels are
labelled `k` and whose consecutive pixels differ in intensity by at most 3. -/
theorem growth_regions_connected (img : Mat) (seedCount : Nat) (hr : 1 ≤ img.rows)
    (hc : 1 ≤ img.cols) (_h1 : 1 ≤ seedCount) (h255 : seedCount ≤ 255)
    (y x : Int) (k : Nat) (hk : 1 ≤ k)
    (hlab : (seedAndGrow img seedCount).regionMap.data y x = k) :
    ∃ s, (seeding (RegionGrower.new img) seedCount).pixelQueue[k - 1]? = some s ∧
      s.category = (k : Int) ∧
      (seedAndGrow img seedCount).regionMap.data s.posY s.posX = k ∧
      Relation.ReflTransGen (RegionEdge img (seedAndGrow img seedCount).regionMap k)
        (s.posY, s.posX) (y, x) := by
  have inv := GrowInv_seedAndGrow img seedCount hr hc h255
  have sinv := SeedInv_seedLoop img seedCount h255
  have hne : (seedAndGrow img seedCount).regionMap.data y x ≠ 0 := by omega
  obtain ⟨s, hs, _, hpath⟩ := inv.base.joined y x hne
  rw [hlab] at hs hpath
  have hcat := (sinv.cats (k - 1) s hs).1
  refine ⟨s, hs, ?_, ?_, hpath⟩
  · rw [hcat]
    omega
  · rcases Relation.ReflTransGen.cases_head hpath with heq | ⟨b, hedge, _⟩
    · have e1 : s.posY = y := congrArg Prod.fst heq
      have e2 : s.posX = x := congrArg Prod.snd heq
      rw [e1, e2]
      exact hlab
    · exact hedge.2.1

theorem growth_regions_connected_witness :
    (1 ≤ chainGrid.rows ∧ 1 ≤ chainGrid.cols ∧ 1 ≤ 3 ∧ 3 ≤ 255 ∧ 1 ≤ 3 ∧
      (seedAndGrow chainGrid 3).regionMap.data 1 1 = 3) ∧
    ∃ s, (seeding (RegionGrower.new chainGrid) 3).pixelQueue[3 - 1]? = some s ∧
      s.category = ((3 : Nat) : Int) ∧
      (seedAndGrow chainGrid 3).regionMap.data s.posY s.posX = 3 ∧
      Relation.ReflTransGen (RegionEdge chainGrid (seedAndGrow chainGrid 3).regionMap 3)
        (s.posY, s.posX) (1, 1) :=
  ⟨by decide,
    growth_regions_connected chainGrid 3 (by decide) (by decide) (by decide) (by decide)
      1 1 3 (by decide) (by decide)⟩

/-! ## Seed ids above 255 -/

/-- On `hangGrid` only the pixels of the pair have an intensity within 3 of 50. -/
theorem hangGrid_similar (y x y2 x2 : Int)
    (hsim : |(hangGrid.data y x : Int) - (hangGrid.data y2 x2 : Int)| ≤ 3)
    (h2 : y2 = 15 ∧ (x2 = 15 ∨ x2 = 16)) : y = 15 ∧ (x = 15 ∨ x = 16) := by
  by_contra hnot
  have hv2 : hangGrid.data y2 x2 = 50 := by
    unfold hangGrid
    simp only
    rw [if_pos h2]
  have hv : hangGrid.data y x = 100 * ((x + 2 * y) % 3).toNat := by
    unfold hangGrid
    simp only
    rw [if_neg hnot]
  rw [hv, hv2, abs_le] at hsim
  omega

theorem hangGrid_pair (y x : Int) (h : y = 15 ∧ (x = 15 ∨ x = 16)) :
    hangGrid.data y x = 50 := by
  unfold hangGrid
  simp only
  rw [if_pos h]

theorem HangVisit_visit (cur nb : PixelInfo) (g : RegionGrower) (h : HangVisit cur g)
    (hint : nb.intensity = (hangGrid.data nb.posY nb.posX : Int)) :
    HangVisit cur (visitNeighbor cur g nb) ∧
    (∀ q ∈ g.pixelQueue, q ∈ (visitNeighbor cur g nb).pixelQueue) ∧
    (AtPair cur → AtPair nb → ∃ q ∈ (visitNeighbor cur g nb).pixelQueue, AtPair q) := by
  have hcrit : growthCriterion cur nb = true ↔
      |(hangGrid.data cur.posY cur.posX : Int) - (hangGrid.data nb.posY nb.posX : Int)| ≤ 3 := by
    unfold growthCriterion
    rw [h.curint, hint]
    simp
  by_cases hc : growthCriterion cur nb = true ∧ g.regionMap.data nb.posY nb.posX = 0
  · rw [visitNeighbor_grow cur nb g hc]
    have hwrap : AtPair nb → toUchar cur.category = 0 := fun hnb =>
      h.curwrap (hangGrid_similar _ _ _ _ (hcrit.1 hc.1) hnb)
    refine ⟨{ image := h.image, inten := ?_, wraps := ?_, zero := ?_, curint := h.curint,
              curwrap := h.curwrap }, ?_, ?_⟩
    · intro q hq
      simp only at hq
      rcases List.mem_append.1 hq with hq | hq
      · exact h.inten q hq
      · rw [List.mem_singleton] at hq
        rw [hq]
        exact hint
    · intro q hq hat
      simp only at hq
      rcases List.mem_append.1 hq with hq | hq
      · exact h.wraps q hq hat
      · rw [List.mem_singleton] at hq
        rw [hq] at hat ⊢
        exact hwrap hat
    · simp only [Mat.set_data]
      constructor
      · split
        · rename_i hpos
          exact hwrap ⟨hpos.1.symm, Or.inl hpos.2.symm⟩
        · exact h.zero.1
      · split
        · rename_i hpos
          exact hwrap ⟨hpos.1.symm, Or.inr hpos.2.symm⟩
        · exact h.zero.2
    · intro q hq
      exact List.mem_append_left _ hq
    · intro _ hnb
      exact ⟨_, List.mem_append_right _ (List.mem_singleton.2 rfl), hnb⟩
  · rw [visitNeighbor_skip cur nb g hc]
    refine ⟨h, fun q hq => hq, ?_⟩
    intro hcur hnb
    exfalso
    apply hc
    constructor
    · rw [hcrit, hangGrid_pair _ _ hcur, hangGrid_pair _ _ hnb]
      decide
    · obtain ⟨h1, h2 | h2⟩ := hnb
      · rw [h1, h2]
        exact h.zero.1
      · rw [h1, h2]
        exact h.zero.2

theorem HangVisit_foldl (cur : PixelInfo) (nbs : List PixelInfo) (g : RegionGrower)
    (h : HangVisit cur g)
    (hnbs : ∀ nb ∈ nbs, nb.intensity = (hangGrid.data nb.posY nb.posX : Int)) :
    HangVisit cur (nbs.foldl (visitNeighbor cur) g) ∧
    (∀ q ∈ g.pixelQueue, q ∈ (nbs.foldl (visitNeighbor cur) g).pixelQueue) ∧
    (AtPair cur → (∃ nb ∈ nbs, AtPair nb) →
      ∃ q ∈ (nbs.foldl (visitNeighbor cur) g).pixelQueue, AtPair q) := by
  induction nbs generalizing g with
  | nil =>
    refine ⟨h, fun q hq => hq, ?_⟩
    rintro _ ⟨nb, hnb, _⟩
    simp at hnb
  | cons nb nbs ih =>
    rw [List.foldl_cons]
    have hint := hnbs nb (List.mem_cons_self _ _)
    obtain ⟨v1, v2, v3⟩ := HangVisit_visit cur nb g h hint
    obtain ⟨i1, i2, i3⟩ := ih _ v1 (fun nb2 h2 => hnbs nb2 (List.mem_cons_of_mem _ h2))
    refine ⟨i1, fun q hq => i2 q (v2 q hq), ?_⟩
    rintro hcur ⟨nb2, hnb2, hat⟩
    rcases List.mem_cons.1 hnb2 with rfl | hmem
    · obtain ⟨q, hq, hqat⟩ := v3 hcur hat
      exact ⟨q, i2 q hq, hqat⟩
    · exact i3 hcur ⟨nb2, hmem, hat⟩

theorem HangInv_growStep (g : RegionGrower) (h : HangInv g) : HangInv (growStep g) := by
  obtain ⟨p, hp, hpat⟩ := h.pending
  rcases hq : g.pixelQueue with _ | ⟨cur, rest⟩
  · rw [hq] at hp
    simp at hp
  · rw [growStep_cons g cur rest hq]
    have hcurmem : cur ∈ g.pixelQueue := by
      rw [hq]
      exact List.mem_cons_self _ _
    have hstart : HangVisit cur { g with pixelQueue := rest } :=
      { image := h.image,
        inten := fun q hq2 => h.inten q (by rw [hq]; exact List.mem_cons_of_mem _ hq2),
        wraps := fun q hq2 => h.wraps q (by rw [hq]; exact List.mem_cons_of_mem _ hq2),
        zero := h.zero, curint := h.inten cur hcurmem, curwrap := h.wraps cur hcurmem }
    have hnbs : ∀ nb ∈ findNeighbors { g with pixelQueue := rest } cur,
        nb.intensity = (hangGrid.data nb.posY nb.posX : Int) := by
      intro nb hnb
      have := mem_findNeighbors _ cur nb hnb
      simp only [h.image] at this
      exact this.2.1
    obtain ⟨f1, f2, f3⟩ := HangVisit_foldl cur _ _ hstart hnbs
    refine { image := f1.image, inten := f1.inten, wraps := f1.wraps, zero := f1.zero,
             pending := ?_ }
    rw [hq] at hp
    rcases List.mem_cons.1 hp with rfl | hp
    · apply f3 hpat
      have hother : ∃ x2 : Int, (x2 = 15 ∨ x2 = 16) ∧ Adjacent4 p.posY p.posX 15 x2 := by
        obtain ⟨h1, h2 | h2⟩ := hpat
        · exact ⟨16, Or.inr rfl, Or.inl ⟨h1.symm, Or.inr (by omega)⟩⟩
        · exact ⟨15, Or.inl rfl, Or.inl ⟨h1.symm, Or.inl (by omega)⟩⟩
      obtain ⟨x2, hx2, hadj⟩ := hother
      have hin : InGrid ({ g with pixelQueue := rest } : RegionGrower).originalImage 15 x2 := by
        simp only [h.image]
        unfold InGrid hangGrid
        simp only
        omega
      have hmem := findNeighbors_complete _ p 15 x2 hin hadj
      rw [List.mem_map] at hmem
      obtain ⟨nb, hnb, hpos⟩ := hmem
      have e2 : nb.posX = x2 := congrArg Prod.snd hpos
      refine ⟨nb, hnb, congrArg Prod.fst hpos, ?_⟩
      rw [e2]
      exact hx2
    · exact ⟨p, f2 p hp, hpat⟩

/-- Every entry pushed by seeding carries the intensity of its pixel. -/
theorem seeding_intensity (img : Mat) (n : Nat) :
    ∀ q ∈ (seeding (RegionGrower.new img) n).pixelQueue,
      q.intensity = (img.data q.posY q.posX : Int) := by
  unfold seeding
  rw [seedLoop_eq_foldl]
  refine (foldl_inv (fun s : RegionGrower × Int => s.1.originalImage = img ∧
    ∀ q ∈ s.1.pixelQueue, q.intensity = (img.data q.posY q.posX : Int)) _ _ _ ?_ ?_).2
  · exact ⟨rfl, fun q hq => by simp [RegionGrower.new] at hq⟩
  · intro s c _ hs
    unfold seedStep
    split
    · exact hs
    · rw [seedCell_eq]
      split
      · refine ⟨hs.1, ?_⟩
        intro q hq
        simp only at hq
        rcases List.mem_append.1 hq with hq | hq
        · exact hs.2 q hq
        · rw [List.mem_singleton] at hq
          rw [hq, hs.1]
      · exact hs

set_option maxRecDepth 100000 in
/-- Evaluation of seeding on `hangGrid` with `seedCount = 256`: both pixels of
the pair are labelled 0 and the only queued entry on the pair has category
256. -/
theorem hangGrid_seeding_eval :
    (seeding (RegionGrower.new hangGrid) 256).regionMap.data 15 15 = 0 ∧
    (seeding (RegionGrower.new hangGrid) 256).regionMap.data 15 16 = 0 ∧
    (seeding (RegionGrower.new hangGrid) 256).pixelQueue.filter
        (fun q => decide (q.posY = 15 ∧ (q.posX = 15 ∨ q.posX = 16)))
      = [{ category := 256, posX := 15, posY := 15, intensity := 50 }] := by
  decide!

/-- The grower on `hangGrid` after seeding with `seedCount = 256` satisfies
the invariant of the endless loop. -/
theorem HangInv_seeding : HangInv (seeding (RegionGrower.new hangGrid) 256) := by
  obtain ⟨z1, z2, hf⟩ := hangGrid_seeding_eval
  have hmem : ∀ q, q ∈ (seeding (RegionGrower.new hangGrid) 256).pixelQueue ∧ AtPair q ↔
      q = { category := 256, posX := 15, posY := 15, intensity := 50 } := by
    intro q
    have : q ∈ (seeding (RegionGrower.new hangGrid) 256).pixelQueue.filter
          (fun q => decide (q.posY = 15 ∧ (q.posX = 15 ∨ q.posX = 16))) ↔
        q ∈ (seeding (RegionGrower.new hangGrid) 256).pixelQueue ∧
          decide (q.posY = 15 ∧ (q.posX = 15 ∨ q.posX = 16)) = true := List.mem_filter
    rw [hf, List.mem_singleton, decide_eq_true_iff] at this
    exact this.symm
  refine
    { image := (Basic_seeding hangGrid 256).1, inten := seeding_intensity hangGrid 256,
      wraps := ?_, zero := ⟨z1, z2⟩, pending := ?_ }
  · intro q hq hat
    rw [(hmem q).1 ⟨hq, hat⟩]
    decide
  · exact ⟨_, ((hmem _).2 rfl).1, ((hmem _).2 rfl).2⟩

set_option maxRecDepth 100000 in
/-- C7 (failing input). On the 16-row, 17-column grid `hangGrid` with
`seedCount = 256` the 256th accepted seed is enqueued with label
256 at `(x, y) = (15, 15)`, but its label cell holds 0 once seeding is
finished. -/
theorem seeding_label_wraps :
    (seeding (RegionGrower.new hangGrid) 256).pixelQueue[255]?
      = some { category := 256, posX := 15, posY := 15, intensity := 50 } ∧
    (seeding (RegionGrower.new hangGrid) 256).regionMap.data 15 15 = 0 := by
  decide!

/-- C9 (failing input). On `hangGrid` with `seedCount = 256` the growth loop
never empties the queue: after any number of pops an entry is still queued. -/
theorem growth_never_ends (fuel : Nat) :
    (growLoop fuel (seeding (RegionGrower.new hangGrid) 256)).pixelQueue ≠ [] := by
  have h := growLoop_inv HangInv (fun g _ hg => HangInv_growStep g hg) fuel _ HangInv_seeding
  obtain ⟨q, hq, _⟩ := h.pending
  intro hnil
  rw [hnil] at hq
  simp at hq

/-! ## Seed grid geometry -/

/-- C20. For a grid with `cols ≥ 1`, `rows ≥ 1` and `seedCount ≥ 1`, the cell
count `g = ceil(sqrt(seedCount))` is at least 1, and for all `0 ≤ i, j < g` the
candidate position `x = j * dx + dx / 2`, `y = i * dy + dy / 2` satisfies
`0 ≤ x < cols` and `0 ≤ y < rows` before clamping, so neither clamp branch is
taken and the position used for the grid accesses is the candidate itself. -/
theorem seed_candidates_in_bounds (img : Mat) (seedCount : Nat) (hw : 1 ≤ img.cols)
    (hh : 1 ≤ img.rows) (h1 : 1 ≤ seedCount) :
    1 ≤ ceilSqrt seedCount ∧
    ∀ i j : Nat, i < ceilSqrt seedCount → j < ceilSqrt seedCount →
      (0 ≤ (j : Int) * (img.cols / ceilSqrt seedCount : Nat)
          + ((img.cols / ceilSqrt seedCount : Nat) : Int) / 2 ∧
        (j : Int) * (img.cols / ceilSqrt seedCount : Nat)
          + ((img.cols / ceilSqrt seedCount : Nat) : Int) / 2 < (img.cols : Int) ∧
        0 ≤ (i : Int) * (img.rows / ceilSqrt seedCount : Nat)
          + ((img.rows / ceilSqrt seedCount : Nat) : Int) / 2 ∧
        (i : Int) * (img.rows / ceilSqrt seedCount : Nat)
          + ((img.rows / ceilSqrt seedCount : Nat) : Int) / 2 < (img.rows : Int)) ∧
      seedPos img (img.cols / ceilSqrt seedCount) (img.rows / ceilSqrt seedCount) i j
        = ((i : Int) * (img.rows / ceilSqrt seedCount : Nat)
            + ((img.rows / ceilSqrt seedCount : Nat) : Int) / 2,
           (j : Int) * (img.cols / ceilSqrt seedCount : Nat)
            + ((img.cols / ceilSqrt seedCount : Nat) : Int) / 2) := by
  refine ⟨ceilSqrt_pos seedCount h1, ?_⟩
  intro i j hi hj
  obtain ⟨hpos, hin⟩ := seedPos_inGrid img (ceilSqrt seedCount) i j hh hw hi hj
  refine ⟨?_, hpos⟩
  rw [hpos] at hin
  exact ⟨hin.2.2.1, hin.2.2.2, hin.1, hin.2.1⟩

theorem seed_candidates_in_bounds_witness :
    (1 ≤ thinGrid.cols ∧ 1 ≤ thinGrid.rows ∧ 1 ≤ 4) ∧
    1 ≤ ceilSqrt 4 ∧
    ∀ i j : Nat, i < ceilSqrt 4 → j < ceilSqrt 4 →
      (0 ≤ (j : Int) * (thinGrid.cols / ceilSqrt 4 : Nat)
          + ((thinGrid.cols / ceilSqrt 4 : Nat) : Int) / 2 ∧
        (j : Int) * (thinGrid.cols / ceilSqrt 4 : Nat)
          + ((thinGrid.cols / ceilSqrt 4 : Nat) : Int) / 2 < (thinGrid.cols : Int) ∧
        0 ≤ (i : Int) * (thinGrid.rows / ceilSqrt 4 : Nat)
          + ((thinGrid.rows / ceilSqrt 4 : Nat) : Int) / 2 ∧
        (i : Int) * (thinGrid.rows / ceilSqrt 4 : Nat)
          + ((thinGrid.rows / ceilSqrt 4 : Nat) : Int) / 2 < (thinGrid.rows : Int)) ∧
      seedPos thinGrid (thinGrid.cols / ceilSqrt 4) (thinGrid.rows / ceilSqrt 4) i j
        = ((i : Int) * (thinGrid.rows / ceilSqrt 4 : Nat)
            + ((thinGrid.rows / ceilSqrt 4 : Nat) : Int) / 2,
           (j : Int) * (thinGrid.cols / ceilSqrt 4 : Nat)
            + ((thinGrid.cols / ceilSqrt 4 : Nat) : Int) / 2) :=
  ⟨by decide, seed_candidates_in_bounds thinGrid 4 (by decide) (by decide) (by decide)⟩

/-! ## What the merge sweep reads -/

/-- The similarity cell visited by the sweep holds the quotient when the
effectiveness count is positive and is untouched otherwise. -/
theorem mergeCell_visited (be : Nat → Nat → Nat) (i : Nat) (m : MergeState) (j : Nat) :
    (mergeCell be i m j).borderSimilarity i j
      = if be i j > 0 then m.borderSimilarity i j / (be i j : ℚ) else m.borderSimilarity i j := by
  by_cases h1 : be i j > 0
  · rw [if_pos h1]
    by_cases hq : Mergeable be m.borderSimilarity i j
    · rw [mergeCell_of_mergeable be i m j hq]
      exact if_pos ⟨rfl, rfl⟩
    · have hr : ¬ (if i = i ∧ j = j then m.borderSimilarity i j / (be i j : ℚ)
          else m.borderSimilarity i j) > 1 / 2 := by
        rw [if_pos ⟨rfl, rfl⟩]
        exact fun h2 => hq ⟨h1, h2⟩
      unfold mergeCell
      rw [if_pos h1]
      dsimp only
      rw [if_neg hr]
      exact if_pos ⟨rfl, rfl⟩
  · rw [if_neg h1]
    unfold mergeCell
    rw [if_neg h1]

/-- Two sweep states agree on the mapping and on the similarity cells
`[i][j]`, `1 ≤ i ≤ j ≤ n`. -/
theorem mergeCell_congr (be be2 : Nat → Nat → Nat) (n i j : Nat) (m m2 : MergeState)
    (hi : 1 ≤ i) (hij : i ≤ j) (hjn : j ≤ n)
    (hbe : ∀ a b, 1 ≤ a → a ≤ b → b ≤ n → be a b = be2 a b)
    (hrm : ∀ k, m.regionMapping k = m2.regionMapping k)
    (hbs : ∀ a b, 1 ≤ a → a ≤ b → b ≤ n → m.borderSimilarity a b = m2.borderSimilarity a b) :
    (∀ k, (mergeCell be i m j).regionMapping k = (mergeCell be2 i m2 j).regionMapping k) ∧
    (∀ a b, 1 ≤ a → a ≤ b → b ≤ n →
      (mergeCell be i m j).borderSimilarity a b = (mergeCell be2 i m2 j).borderSimilarity a b) := by
  have e1 := hbe i j hi hij hjn
  have e2 := hbs i j hi hij hjn
  by_cases hq : Mergeable be m.borderSimilarity i j
  · have hq2 : Mergeable be2 m2.borderSimilarity i j := by
      unfold Mergeable at hq ⊢
      rw [← e1, ← e2]
      exact hq
    rw [mergeCell_of_mergeable be i m j hq, mergeCell_of_mergeable be2 i m2 j hq2]
    refine ⟨?_, ?_⟩
    · intro k
      simp only
      rw [hrm i, hrm k]
    · intro a b ha hab hbn
      simp only
      rw [e1, e2, hbs a b ha hab hbn]
  · have hq2 : ¬ Mergeable be2 m2.borderSimilarity i j := by
      unfold Mergeable at hq ⊢
      rw [← e1, ← e2]
      exact hq
    refine ⟨?_, ?_⟩
    · intro k
      rw [(mergeCell_of_not_mergeable be i m j hq).1,
        (mergeCell_of_not_mergeable be2 i m2 j hq2).1]
      exact hrm k
    · intro a b ha hab hbn
      by_cases hab2 : a = i ∧ b = j
      · obtain ⟨rfl, rfl⟩ := hab2
        rw [mergeCell_visited, mergeCell_visited, e1, e2]
      · rw [(mergeCell_of_not_mergeable be i m j hq).2 a b hab2,
          (mergeCell_of_not_mergeable be2 i m2 j hq2).2 a b hab2]
        exact hbs a b ha hab hbn

theorem mergeRow_congr (be be2 : Nat → Nat → Nat) (n i : Nat) (m m2 : MergeState)
    (hi : 1 ≤ i)
    (hbe : ∀ a b, 1 ≤ a → a ≤ b → b ≤ n → be a b = be2 a b)
    (hrm : ∀ k, m.regionMapping k = m2.regionMapping k)
    (hbs : ∀ a b, 1 ≤ a → a ≤ b → b ≤ n → m.borderSimilarity a b = m2.borderSimilarity a b) :
    (∀ k, (mergeRow be n m i).regionMapping k = (mergeRow be2 n m2 i).regionMapping k) ∧
    (∀ a b, 1 ≤ a → a ≤ b → b ≤ n →
      (mergeRow be n m i).borderSimilarity a b = (mergeRow be2 n m2 i).borderSimilarity a b) := by
  unfold mergeRow
  have hmem : ∀ j ∈ List.range' i (n + 1 - i), i ≤ j ∧ j ≤ n := by
    intro j hj
    rw [List.mem_range'_1] at hj
    omega
  generalize List.range' i (n + 1 - i) = js at hmem
  induction js generalizing m m2 with
  | nil => exact ⟨hrm, hbs⟩
  | cons j js ih =>
    rw [List.foldl_cons, List.foldl_cons]
    obtain ⟨hij, hjn⟩ := hmem j (List.mem_cons_self _ _)
    obtain ⟨c1, c2⟩ := mergeCell_congr be be2 n i j m m2 hi hij hjn hbe hrm hbs
    exact ih _ _ c1 c2 (fun j2 h2 => hmem j2 (List.mem_cons_of_mem _ h2))

/-- C19. The merge sweep reads only the cells `[i][j]` with
`1 ≤ i ≤ j ≤ seedCount`: two pairs of matrices that agree on these cells give
the same `regionMapping`, whatever row 0, column 0 and the cells below the
diagonal hold; in particular, when no such cell has a positive effectiveness
count (borders recorded only in `[b][a]`, `b > a`) nothing is merged. -/
theorem mergeSweep_reads_upper (seedCount : Nat) (st st2 : BorderStats)
    (hbe : ∀ i j, 1 ≤ i → i ≤ j → j ≤ seedCount →
      st.borderEffectiveness i j = st2.borderEffectiveness i j)
    (hbs : ∀ i j, 1 ≤ i → i ≤ j → j ≤ seedCount →
      st.borderSimilarity i j = st2.borderSimilarity i j) :
    (∀ k, (mergeSweep st seedCount).regionMapping k = (mergeSweep st2 seedCount).regionMapping k) ∧
    ((∀ i j, 1 ≤ i → i ≤ j → j ≤ seedCount → st.borderEffectiveness i j = 0) →
      ∀ k, (mergeSweep st seedCount).regionMapping k = k) := by
  have hgen : ∀ t, (∀ k, (sweepUpTo st seedCount t).regionMapping k
        = (sweepUpTo st2 seedCount t).regionMapping k) ∧
      (∀ a b, 1 ≤ a → a ≤ b → b ≤ seedCount →
        (sweepUpTo st seedCount t).borderSimilarity a b
          = (sweepUpTo st2 seedCount t).borderSimilarity a b) := by
    intro t
    induction t with
    | zero => exact ⟨fun _ => rfl, hbs⟩
    | succ t ih =>
      rw [sweepUpTo_succ, sweepUpTo_succ]
      exact mergeRow_congr _ _ seedCount (1 + t) _ _ (by omega) hbe ih.1 ih.2
  refine ⟨fun k => by rw [mergeSweep_eq, mergeSweep_eq]; exact (hgen seedCount).1 k, ?_⟩
  intro hzero k
  rw [mergeSweep_eq]
  have hid : ∀ t k, (sweepUpTo st seedCount t).regionMapping k = k := by
    intro t
    induction t with
    | zero => exact fun _ => rfl
    | succ t ih =>
      intro k
      rw [sweepUpTo_succ]
      rcases (mergeRow_spec st.borderEffectiveness seedCount (1 + t)
        (sweepUpTo st seedCount t)).1 k with ⟨_, h1, h2, hq⟩ | ⟨e, _⟩
      · have := hzero (1 + t) k (by omega) h1 h2
        have hpos := hq.1
        omega
      · rw [e]
        exact ih k
  exact hid seedCount k

theorem mergeSweep_reads_upper_witness :
    (∀ i j, 1 ≤ i → i ≤ j → j ≤ 2 →
      (BorderStats.zeros.incEffectiveness 2 1).borderEffectiveness i j
        = BorderStats.zeros.borderEffectiveness i j) ∧
    (∀ k, (mergeSweep (BorderStats.zeros.incEffectiveness 2 1) 2).regionMapping k
        = (mergeSweep BorderStats.zeros 2).regionMapping k) ∧
    ((∀ i j, 1 ≤ i → i ≤ j → j ≤ 2 →
        (BorderStats.zeros.incEffectiveness 2 1).borderEffectiveness i j = 0) →
      ∀ k, (mergeSweep (BorderStats.zeros.incEffectiveness 2 1) 2).regionMapping k = k) :=
  have h : ∀ i j, 1 ≤ i → i ≤ j → j ≤ 2 →
      (BorderStats.zeros.incEffectiveness 2 1).borderEffectiveness i j
        = BorderStats.zeros.borderEffectiveness i j := by
    intro i j h1 h2 h3
    simp only [BorderStats.incEffectiveness, BorderStats.zeros]
    rw [if_neg (by omega)]
  ⟨h, mergeSweep_reads_upper 2 (BorderStats.zeros.incEffectiveness 2 1) BorderStats.zeros h
    (fun _ _ _ _ _ => rfl)⟩

/-! ## Border scan -/

theorem foldl_flatMap_eq {α β γ : Type} (f : β → List γ) (g : α → γ → α) (l : List β) (a : α) :
    (l.flatMap f).foldl g a = l.foldl (fun s c => (f c).foldl g s) a := by
  induction l generalizing a with
  | nil => rfl
  | cons c l ih =>
    rw [List.flatMap_cons, List.foldl_append, List.foldl_cons]
    exact ih _

theorem scanPixel_eq (img labels : Mat) (st : BorderStats) (i j : Nat) :
    scanPixel img labels st i j
      = (pixelAdjacencies img (i, j)).foldl (scanAdj img labels) st := by
  unfold scanPixel pixelAdjacencies scanAdj
  by_cases h1 : (j : Int) < (img.cols : Int) - 1 <;>
    by_cases h2 : (i : Int) < (img.rows : Int) - 1 <;>
    simp [h1, h2]

/-- The border scan is one loop over the adjacencies. -/
theorem borderScan_eq (img labels : Mat) (st : BorderStats) :
    borderScan img labels st = (adjacencies img).foldl (scanAdj img labels) st := by
  unfold borderScan adjacencies
  rw [foldl_nested_eq (fun st i j => scanPixel img labels st i j), foldl_flatMap_eq]
  congr 1
  funext s c
  exact scanPixel_eq img labels s c.1 c.2

theorem scanAdj_effectiveness (img labels : Mat) (st : BorderStats)
    (e : (Int × Int) × (Int × Int)) (a b : Nat) :
    (scanAdj img labels st e).borderEffectiveness a b
      = st.borderEffectiveness a b + (if borderAt labels a b e = true then 1 else 0) := by
  unfold scanAdj scanPair borderAt
  simp only [decide_eq_true_eq]
  by_cases hne : labels.data e.1.1 e.1.2 ≠ labels.data e.2.1 e.2.2
  · rw [if_pos hne]
    by_cases hab : a = labels.data e.1.1 e.1.2 ∧ b = labels.data e.2.1 e.2.2
    · obtain ⟨rfl, rfl⟩ := hab
      have hcond : labels.data e.1.1 e.1.2 = labels.data e.1.1 e.1.2 ∧
          labels.data e.2.1 e.2.2 = labels.data e.2.1 e.2.2 ∧
          labels.data e.1.1 e.1.2 ≠ labels.data e.2.1 e.2.2 := ⟨rfl, rfl, hne⟩
      rw [if_pos hcond]
      split <;> simp [BorderStats.incEffectiveness, BorderStats.incSimilarity]
    · have hcond : ¬ (labels.data e.1.1 e.1.2 = a ∧ labels.data e.2.1 e.2.2 = b ∧ a ≠ b) :=
        fun h => hab ⟨h.1.symm, h.2.1.symm⟩
      rw [if_neg hcond]
      split <;> simp [BorderStats.incEffectiveness, BorderStats.incSimilarity, hab]
  · rw [if_neg hne]
    have hcond : ¬ (labels.data e.1.1 e.1.2 = a ∧ labels.data e.2.1 e.2.2 = b ∧ a ≠ b) := by
      rintro ⟨h1, h2, h3⟩
      apply hne
      rw [h1, h2]
      exact h3
    rw [if_neg hcond]
    rfl

theorem scanAdj_similarity (img labels : Mat) (st : BorderStats)
    (e : (Int × Int) × (Int × Int)) (a b : Nat) :
    (scanAdj img labels st e).borderSimilarity a b
      = st.borderSimilarity a b
        + (if similarBorderAt img labels a b e = true then 1 else 0) := by
  unfold scanAdj scanPair similarBorderAt borderAt mergeCriterion
  simp only [Bool.and_eq_true, decide_eq_true_eq]
  by_cases hne : labels.data e.1.1 e.1.2 ≠ labels.data e.2.1 e.2.2
  · rw [if_pos hne]
    by_cases hs : |(img.data e.1.1 e.1.2 : Int) - (img.data e.2.1 e.2.2 : Int)| ≤ 10
    · rw [if_pos hs]
      by_cases hab : a = labels.data e.1.1 e.1.2 ∧ b = labels.data e.2.1 e.2.2
      · obtain ⟨rfl, rfl⟩ := hab
        have hcond : (labels.data e.1.1 e.1.2 = labels.data e.1.1 e.1.2 ∧
            labels.data e.2.1 e.2.2 = labels.data e.2.1 e.2.2 ∧
            labels.data e.1.1 e.1.2 ≠ labels.data e.2.1 e.2.2) ∧
            |(img.data e.1.1 e.1.2 : Int) - (img.data e.2.1 e.2.2 : Int)| ≤ 10 :=
          ⟨⟨rfl, rfl, hne⟩, hs⟩
        rw [if_pos hcond]
        simp [BorderStats.incEffectiveness, BorderStats.incSimilarity]
      · have hcond : ¬ ((labels.data e.1.1 e.1.2 = a ∧ labels.data e.2.1 e.2.2 = b ∧ a ≠ b) ∧
            |(img.data e.1.1 e.1.2 : Int) - (img.data e.2.1 e.2.2 : Int)| ≤ 10) :=
          fun h => hab ⟨h.1.1.symm, h.1.2.1.symm⟩
        rw [if_neg hcond]
        simp [BorderStats.incEffectiveness, BorderStats.incSimilarity, hab]
    · rw [if_neg hs]
      have hcond : ¬ ((labels.data e.1.1 e.1.2 = a ∧ labels.data e.2.1 e.2.2 = b ∧ a ≠ b) ∧
          |(img.data e.1.1 e.1.2 : Int) - (img.data e.2.1 e.2.2 : Int)| ≤ 10) :=
        fun h => hs h.2
      rw [if_neg hcond]
      simp [BorderStats.incEffectiveness]
  · rw [if_neg hne]
    have hcond : ¬ ((labels.data e.1.1 e.1.2 = a ∧ labels.data e.2.1 e.2.2 = b ∧ a ≠ b) ∧
        |(img.data e.1.1 e.1.2 : Int) - (img.data e.2.1 e.2.2 : Int)| ≤ 10) := by
      rintro ⟨⟨h1, h2, h3⟩, _⟩
      apply hne
      rw [h1, h2]
      exact h3
    rw [if_neg hcond]
    simp

/-- After scanning the adjacencies `es`, each cell of the two matrices has
grown by the number of borders, and of similar borders, between its two
regions. -/
theorem scan_counts (img labels : Mat) (es : List ((Int × Int) × (Int × Int)))
    (st : BorderStats) (a b : Nat) :
    (es.foldl (scanAdj img labels) st).borderEffectiveness a b
      = st.borderEffectiveness a b + es.countP (borderAt labels a b) ∧
    (es.foldl (scanAdj img labels) st).borderSimilarity a b
      = st.borderSimilarity a b + (es.countP (similarBorderAt img labels a b) : ℚ) := by
  induction es generalizing st with
  | nil => simp
  | cons e es ih =>
    rw [List.foldl_cons]
    obtain ⟨h1, h2⟩ := ih (scanAdj img labels st e)
    rw [h1, h2, scanAdj_effectiveness, scanAdj_similarity, List.countP_cons, List.countP_cons]
    constructor
    · omega
    · by_cases hsim : similarBorderAt img labels a b e = true
      · rw [if_pos hsim, if_pos hsim]
        push_cast
        ring
      · rw [if_neg hsim, if_neg hsim]
        push_cast
        ring

/-- The two matrices after the border scan of `execute`, cell by cell. -/
theorem borderScan_counts (img labels : Mat) (a b : Nat) :
    (borderScan img labels BorderStats.zeros).borderEffectiveness a b
      = (adjacencies img).countP (borderAt labels a b) ∧
    (borderScan img labels BorderStats.zeros).borderSimilarity a b
      = ((adjacencies img).countP (similarBorderAt img labels a b) : ℚ) := by
  rw [borderScan_eq]
  obtain ⟨h1, h2⟩ := scan_counts img labels (adjacencies img) BorderStats.zeros a b
  rw [h1, h2]
  simp [BorderStats.zeros]

theorem mem_pixelAdjacencies (img : Mat) (c : Nat × Nat) (e : (Int × Int) × (Int × Int)) :
    e ∈ pixelAdjacencies img c ↔
      e.1 = ((c.1 : Int), (c.2 : Int)) ∧
      ((e.2 = ((c.1 : Int), (c.2 : Int) + 1) ∧ (c.2 : Int) < (img.cols : Int) - 1) ∨
        (e.2 = ((c.1 : Int) + 1, (c.2 : Int)) ∧ (c.1 : Int) < (img.rows : Int) - 1)) := by
  obtain ⟨⟨y, x⟩, ⟨y2, x2⟩⟩ := e
  unfold pixelAdjacencies
  by_cases h1 : (c.2 : Int) < (img.cols : Int) - 1 <;>
    by_cases h2 : (c.1 : Int) < (img.rows : Int) - 1 <;>
    (simp [h1, h2]; try tauto)

/-- The scanned adjacencies are the pairs of a pixel of the grid with its
right neighbour or its down neighbour in the grid. -/
theorem mem_adjacencies (img : Mat) (e : (Int × Int) × (Int × Int)) :
    e ∈ adjacencies img ↔
      InGrid img e.1.1 e.1.2 ∧ InGrid img e.2.1 e.2.2 ∧
        (e.2 = (e.1.1, e.1.2 + 1) ∨ e.2 = (e.1.1 + 1, e.1.2)) := by
  unfold adjacencies
  rw [List.mem_flatMap]
  constructor
  · rintro ⟨c, hc, he⟩
    rw [mem_cellsOf, List.mem_range, List.mem_range] at hc
    rw [mem_pixelAdjacencies] at he
    obtain ⟨h1, h2⟩ := he
    unfold InGrid
    rw [h1]
    rcases h2 with ⟨h2, h3⟩ | ⟨h2, h3⟩
    · rw [h2]
      simp only
      refine ⟨by omega, by omega, Or.inl trivial⟩
    · rw [h2]
      simp only
      refine ⟨by omega, by omega, Or.inr trivial⟩
  · rintro ⟨h1, h2, h3⟩
    unfold InGrid at h1 h2
    refine ⟨(e.1.1.toNat, e.1.2.toNat), ?_, ?_⟩
    · rw [mem_cellsOf, List.mem_range, List.mem_range]
      simp only
      omega
    · rw [mem_pixelAdjacencies]
      have e1 : ((e.1.1.toNat : Nat) : Int) = e.1.1 := by omega
      have e2 : ((e.1.2.toNat : Nat) : Int) = e.1.2 := by omega
      simp only [e1, e2]
      refine ⟨trivial, ?_⟩
      rcases h3 with h3 | h3
      · left
        rw [h3] at h2
        simp only at h2
        exact ⟨h3, by omega⟩
      · right
        rw [h3] at h2
        simp only at h2
        exact ⟨h3, by omega⟩

theorem adjacencies_nodup (img : Mat) : (adjacencies img).Nodup := by
  unfold adjacencies
  rw [List.nodup_flatMap]
  refine ⟨fun c _ => ?_, ?_⟩
  · unfold pixelAdjacencies
    by_cases h1 : (c.2 : Int) < (img.cols : Int) - 1 <;>
      by_cases h2 : (c.1 : Int) < (img.rows : Int) - 1 <;>
      simp [h1, h2]
  · refine (cellsOf_nodup _ _ (List.nodup_range _) (List.nodup_range _)).imp ?_
    intro c d hcd
    rw [Function.onFun, List.disjoint_iff_ne]
    intro e1 he1 e2 he2 heq
    rw [mem_pixelAdjacencies] at he1 he2
    rw [heq] at he1
    have := he1.1.symm.trans he2.1
    apply hcd
    have h1 := congrArg Prod.fst this
    have h2 := congrArg Prod.snd this
    simp only at h1 h2
    exact Prod.ext (by omega) (by omega)

/-- Summed over all pairs of labels up to `N`, the border indicator of an
adjacency is 1 exactly when its two labels differ. -/
theorem sum_borderAt (labels : Mat) (N : Nat) (hN : ∀ y x, labels.data y x ≤ N)
    (e : (Int × Int) × (Int × Int)) :
    (Finset.sum (Finset.range (N + 1)) fun a => Finset.sum (Finset.range (N + 1)) fun b =>
      if borderAt labels a b e = true then 1 else 0)
      = if labels.data e.1.1 e.1.2 ≠ labels.data e.2.1 e.2.2 then 1 else 0 := by
  unfold borderAt
  simp only [decide_eq_true_eq]
  by_cases hne : labels.data e.1.1 e.1.2 ≠ labels.data e.2.1 e.2.2
  · rw [if_pos hne]
    rw [Finset.sum_eq_single (labels.data e.1.1 e.1.2)]
    · rw [Finset.sum_eq_single (labels.data e.2.1 e.2.2)]
      · rw [if_pos ⟨rfl, rfl, hne⟩]
      · intro b _ hb
        rw [if_neg (fun h => hb h.2.1.symm)]
      · intro hb
        exfalso
        apply hb
        rw [Finset.mem_range]
        have := hN e.2.1 e.2.2
        omega
    · intro a _ ha
      apply Finset.sum_eq_zero
      intro b _
      rw [if_neg (fun h => ha h.1.symm)]
    · intro ha
      exfalso
      apply ha
      rw [Finset.mem_range]
      have := hN e.1.1 e.1.2
      omega
  · rw [if_neg hne]
    apply Finset.sum_eq_zero
    intro a _
    apply Finset.sum_eq_zero
    intro b _
    rw [if_neg]
    rintro ⟨h1, h2, h3⟩
    apply hne
    rw [h1, h2]
    exact h3

/-- Summed over all pairs of labels up to `N`, the counts of borders that pass
a test `q` add up to the number of adjacencies with differing labels that
pass `q`. -/
theorem sum_countP_borderAt (labels : Mat) (N : Nat) (hN : ∀ y x, labels.data y x ≤ N)
    (q : (Int × Int) × (Int × Int) → Bool) (es : List ((Int × Int) × (Int × Int))) :
    (Finset.sum (Finset.range (N + 1)) fun a => Finset.sum (Finset.range (N + 1)) fun b =>
      es.countP (fun e => borderAt labels a b e && q e))
      = es.countP (fun e =>
          decide (labels.data e.1.1 e.1.2 ≠ labels.data e.2.1 e.2.2) && q e) := by
  induction es with
  | nil => simp
  | cons e es ih =>
    simp only [List.countP_cons]
    rw [← ih]
    simp only [Finset.sum_add_distrib]
    congr 1
    by_cases hq : q e = true
    · simp only [hq, Bool.and_true, decide_eq_true_eq]
      exact sum_borderAt labels N hN e
    · simp only [Bool.not_eq_true] at hq
      simp [hq]

theorem mergeCells_visited (be : Nat → Nat → Nat) (i : Nat) (js : List Nat) (hnd : js.Nodup)
    (m : MergeState) (j : Nat) (hj : j ∈ js) :
    (js.foldl (mergeCell be i) m).borderSimilarity i j
      = if be i j > 0 then m.borderSimilarity i j / (be i j : ℚ) else m.borderSimilarity i j := by
  induction js generalizing m with
  | nil => simp at hj
  | cons j0 js ih =>
    rw [List.nodup_cons] at hnd
    rw [List.foldl_cons]
    by_cases h0 : j = j0
    · subst h0
      rw [(mergeCells_spec be i js hnd.2 (mergeCell be i m j)).2.2 j hnd.1, mergeCell_visited]
    · have hj2 : j ∈ js := by
        rcases List.mem_cons.1 hj with h | h
        · exact absurd h h0
        · exact h
      rw [ih hnd.2 (mergeCell be i m j0) hj2,
        mergeCell_borderSimilarity be i m j0 i j (fun h => h0 h.2)]

/-- The similarity cell `[i][j]`, `1 ≤ i ≤ j ≤ n`, during the sweep: the count
of the scan until row `i` is swept, then the quotient (or the count, when the
effectiveness count is 0), for good. -/
theorem sweepUpTo_cell (st : BorderStats) (n i j : Nat) (hi : 1 ≤ i) (hij : i ≤ j)
    (hjn : j ≤ n) (t : Nat) :
    (sweepUpTo st n t).borderSimilarity i j
      = if t < i then st.borderSimilarity i j
        else if st.borderEffectiveness i j > 0 then
          st.borderSimilarity i j / (st.borderEffectiveness i j : ℚ)
        else st.borderSimilarity i j := by
  induction t with
  | zero =>
    rw [if_pos (by omega)]
    rfl
  | succ t ih =>
    rw [sweepUpTo_succ]
    by_cases hrow : 1 + t = i
    · rw [if_neg (by omega)]
      have hlt : t < i := by omega
      rw [if_pos hlt] at ih
      subst hrow
      unfold mergeRow
      rw [mergeCells_visited _ _ _ (List.nodup_range' _ _) _ j
        (by rw [List.mem_range'_1]; omega), ih]
    · rw [(mergeRow_spec _ n (1 + t) _).2 i j (fun h => hrow h.symm), ih]
      by_cases hlt : t + 1 < i
      · rw [if_pos hlt, if_pos (by omega)]
      · rw [if_neg hlt, if_neg (by omega)]

/-- C16. After the border scan the similarity count of a pair of regions never
exceeds its effectiveness count; for `1 ≤ i ≤ j ≤ seedCount` the sweep divides
`borderSimilarity[i][j]` exactly when `borderEffectiveness[i][j] > 0` (never
by zero), and the value it leaves is a ratio in `[0, 1]` (over exact
rationals). -/
theorem similarity_ratio_bounds (img labels : Mat) (seedCount i j : Nat) (hi : 1 ≤ i)
    (hij : i ≤ j) (hjn : j ≤ seedCount) :
    (∀ a b, 0 ≤ (borderScan img labels BorderStats.zeros).borderSimilarity a b ∧
      (borderScan img labels BorderStats.zeros).borderSimilarity a b
        ≤ ((borderScan img labels BorderStats.zeros).borderEffectiveness a b : ℚ)) ∧
    (mergeSweep (borderScan img labels BorderStats.zeros) seedCount).borderSimilarity i j
      = (if (borderScan img labels BorderStats.zeros).borderEffectiveness i j > 0 then
          (borderScan img labels BorderStats.zeros).borderSimilarity i j /
            ((borderScan img labels BorderStats.zeros).borderEffectiveness i j : ℚ)
        else (borderScan img labels BorderStats.zeros).borderSimilarity i j) ∧
    0 ≤ (mergeSweep (borderScan img labels BorderStats.zeros) seedCount).borderSimilarity i j ∧
    (mergeSweep (borderScan img labels BorderStats.zeros) seedCount).borderSimilarity i j ≤ 1 := by
  have hb : ∀ a b, 0 ≤ (borderScan img labels BorderStats.zeros).borderSimilarity a b ∧
      (borderScan img labels BorderStats.zeros).borderSimilarity a b
        ≤ ((borderScan img labels BorderStats.zeros).borderEffectiveness a b : ℚ) := by
    intro a b
    obtain ⟨h1, h2⟩ := borderScan_counts img labels a b
    rw [h1, h2]
    refine ⟨Nat.cast_nonneg _, ?_⟩
    have : (adjacencies img).countP (similarBorderAt img labels a b)
        ≤ (adjacencies img).countP (borderAt labels a b) := by
      apply List.countP_mono_left
      intro e _ he
      unfold similarBorderAt at he
      rw [Bool.and_eq_true] at he
      exact he.1
    exact_mod_cast this
  have hcell : (mergeSweep (borderScan img labels BorderStats.zeros) seedCount).borderSimilarity i j
      = (if (borderScan img labels BorderStats.zeros).borderEffectiveness i j > 0 then
          (borderScan img labels BorderStats.zeros).borderSimilarity i j /
            ((borderScan img labels BorderStats.zeros).borderEffectiveness i j : ℚ)
        else (borderScan img labels BorderStats.zeros).borderSimilarity i j) := by
    rw [mergeSweep_eq, sweepUpTo_cell _ seedCount i j hi hij hjn seedCount, if_neg (by omega)]
  refine ⟨hb, hcell, ?_, ?_⟩
  · rw [hcell]
    split
    · exact div_nonneg (hb i j).1 (Nat.cast_nonneg _)
    · exact (hb i j).1
  · rw [hcell]
    split
    · rename_i hpos
      have hpos2 : (0 : ℚ) < ((borderScan img labels BorderStats.zeros).borderEffectiveness i j : ℚ) := by
        exact_mod_cast hpos
      rw [div_le_one hpos2]
      exact (hb i j).2
    · rename_i hzero
      have h0 : (borderScan img labels BorderStats.zeros).borderEffectiveness i j = 0 := by omega
      have := (hb i j).2
      rw [h0] at this
      have h1 : ((0 : Nat) : ℚ) = 0 := Nat.cast_zero
      rw [h1] at this
      linarith

theorem similarity_ratio_bounds_witness :
    (1 ≤ 1 ∧ 1 ≤ 2 ∧ 2 ≤ 3) ∧
    (∀ a b, 0 ≤ (borderScan chainGrid (seedAndGrow chainGrid 3).regionMap
        BorderStats.zeros).borderSimilarity a b ∧
      (borderScan chainGrid (seedAndGrow chainGrid 3).regionMap
          BorderStats.zeros).borderSimilarity a b
        ≤ ((borderScan chainGrid (seedAndGrow chainGrid 3).regionMap
          BorderStats.zeros).borderEffectiveness a b : ℚ)) ∧
    (mergeSweep (borderScan chainGrid (seedAndGrow chainGrid 3).regionMap BorderStats.zeros)
        3).borderSimilarity 1 2
      = (if (borderScan chainGrid (seedAndGrow chainGrid 3).regionMap
            BorderStats.zeros).borderEffectiveness 1 2 > 0 then
          (borderScan chainGrid (seedAndGrow chainGrid 3).regionMap
              BorderStats.zeros).borderSimilarity 1 2 /
            ((borderScan chainGrid (seedAndGrow chainGrid 3).regionMap
              BorderStats.zeros).borderEffectiveness 1 2 : ℚ)
        else (borderScan chainGrid (seedAndGrow chainGrid 3).regionMap
          BorderStats.zeros).borderSimilarity 1 2) ∧
    0 ≤ (mergeSweep (borderScan chainGrid (seedAndGrow chainGrid 3).regionMap BorderStats.zeros)
        3).borderSimilarity 1 2 ∧
    (mergeSweep (borderScan chainGrid (seedAndGrow chainGrid 3).regionMap BorderStats.zeros)
        3).borderSimilarity 1 2 ≤ 1 :=
  ⟨by decide, similarity_ratio_bounds chainGrid (seedAndGrow chainGrid 3).regionMap 3 1 2
    (by decide) (by decide) (by decide)⟩

/-- C17. After the border scan of any intensity grid and any label grid with
labels up to `N`, the effectiveness counts summed over all pairs equal the
number of scanned adjacencies (a pixel with its right neighbour, or with its
down neighbour) whose two labels differ; the similarity counts sum to the
number of those whose intensities differ by at most 10; every diagonal entry
is 0. The scanned adjacencies are listed once each. -/
theorem borderScan_totals (img labels : Mat) (N : Nat) (hN : ∀ y x, labels.data y x ≤ N) :
    (Finset.sum (Finset.range (N + 1)) fun a => Finset.sum (Finset.range (N + 1)) fun b =>
      (borderScan img labels BorderStats.zeros).borderEffectiveness a b)
      = (adjacencies img).countP (fun e =>
          decide (labels.data e.1.1 e.1.2 ≠ labels.data e.2.1 e.2.2)) ∧
    (Finset.sum (Finset.range (N + 1)) fun a => Finset.sum (Finset.range (N + 1)) fun b =>
      (borderScan img labels BorderStats.zeros).borderSimilarity a b)
      = (((adjacencies img).countP (fun e =>
          decide (labels.data e.1.1 e.1.2 ≠ labels.data e.2.1 e.2.2) &&
          decide (|(img.data e.1.1 e.1.2 : Int) - (img.data e.2.1 e.2.2 : Int)| ≤ 10)) : Nat) : ℚ) ∧
    (∀ i, (borderScan img labels BorderStats.zeros).borderEffectiveness i i = 0) ∧
    (adjacencies img).Nodup ∧
    (∀ e, e ∈ adjacencies img ↔
      InGrid img e.1.1 e.1.2 ∧ InGrid img e.2.1 e.2.2 ∧
        (e.2 = (e.1.1, e.1.2 + 1) ∨ e.2 = (e.1.1 + 1, e.1.2))) := by
  refine ⟨?_, ?_, ?_, adjacencies_nodup img, mem_adjacencies img⟩
  · have h := sum_countP_borderAt labels N hN (fun _ => true) (adjacencies img)
    simp only [Bool.and_true] at h
    rw [← h]
    apply Finset.sum_congr rfl
    intro a _
    apply Finset.sum_congr rfl
    intro b _
    exact (borderScan_counts img labels a b).1
  · have h := sum_countP_borderAt labels N hN
      (fun e => decide (|(img.data e.1.1 e.1.2 : Int) - (img.data e.2.1 e.2.2 : Int)| ≤ 10))
      (adjacencies img)
    rw [← h]
    push_cast
    apply Finset.sum_congr rfl
    intro a _
    apply Finset.sum_congr rfl
    intro b _
    exact (borderScan_counts img labels a b).2
  · intro i
    rw [(borderScan_counts img labels i i).1, List.countP_eq_zero]
    intro e _
    unfold borderAt
    simp

theorem borderScan_totals_witness :
    (∀ y x, (seedAndGrow chainGrid 3).regionMap.data y x ≤ 255) ∧
    (Finset.sum (Finset.range (255 + 1)) fun a => Finset.sum (Finset.range (255 + 1)) fun b =>
      (borderScan chainGrid (seedAndGrow chainGrid 3).regionMap
        BorderStats.zeros).borderEffectiveness a b)
      = (adjacencies chainGrid).countP (fun e =>
          decide ((seedAndGrow chainGrid 3).regionMap.data e.1.1 e.1.2
            ≠ (seedAndGrow chainGrid 3).regionMap.data e.2.1 e.2.2)) :=
  have h : ∀ y x, (seedAndGrow chainGrid 3).regionMap.data y x ≤ 255 := fun y x =>
    Nat.le_of_lt_succ ((Basic_seedAndGrow chainGrid 3).2.2.2 y x)
  ⟨h, (borderScan_totals chainGrid (seedAndGrow chainGrid 3).regionMap 255 h).1⟩

/-- C18 (counterexample). On the one-row grid `[0, 8]` with `seedCount = 1` the
left pixel stays unlabelled, the right pixel is seed 1, and the border scan
counts their adjacency with the unlabelled pixel as current:
`borderEffectiveness[0][1] = 1` and `borderSimilarity[0][1] = 1`. -/
theorem unlabelled_current_is_counted :
    (seedAndGrow stepGrid 1).pixelQueue = [] ∧
    (seedAndGrow stepGrid 1).regionMap.data 0 0 = 0 ∧
    (seedAndGrow stepGrid 1).regionMap.data 0 1 = 1 ∧
    (executeStats stepGrid 1).borderEffectiveness 0 1 = 1 ∧
    (executeStats stepGrid 1).borderSimilarity 0 1 = 1 := by
  decide!

/-- C18 (amended). The border scan counts unlabelled pixels like any other,
as current pixel and as neighbour: `borderEffectiveness[0][j]` is the number
of scanned adjacencies whose current pixel has label 0 and whose neighbour has
label `j ≠ 0`, and `borderSimilarity[0][j]` the number of those with
intensities at most 10 apart; both are 0 when no unlabelled pixel has a right
or down neighbour labelled `j`. `borderEffectiveness[i][0]` may be positive
too (one-row grid `[0, 0, 8]`). Row 0 is left out by the merge sweep only:
`regionMapping[0]` stays 0. -/
theorem unlabelled_rows_of_stats (img labels : Mat) (j : Nat) :
    (borderScan img labels BorderStats.zeros).borderEffectiveness 0 j
      = (adjacencies img).countP (fun e =>
          decide (labels.data e.1.1 e.1.2 = 0 ∧ labels.data e.2.1 e.2.2 = j ∧ 0 ≠ j)) ∧
    (borderScan img labels BorderStats.zeros).borderSimilarity 0 j
      = (((adjacencies img).countP (fun e =>
          decide (labels.data e.1.1 e.1.2 = 0 ∧ labels.data e.2.1 e.2.2 = j ∧ 0 ≠ j) &&
          decide (|(img.data e.1.1 e.1.2 : Int) - (img.data e.2.1 e.2.2 : Int)| ≤ 10)) : Nat) : ℚ) ∧
    ((∀ e ∈ adjacencies img,
        ¬ (labels.data e.1.1 e.1.2 = 0 ∧ labels.data e.2.1 e.2.2 = j ∧ 0 ≠ j)) →
      (borderScan img labels BorderStats.zeros).borderEffectiveness 0 j = 0 ∧
      (borderScan img labels BorderStats.zeros).borderSimilarity 0 j = 0) ∧
    (∀ seedCount, (mergeSweep (borderScan img labels BorderStats.zeros) seedCount).regionMapping 0
      = 0) ∧
    (executeStats ledgeGrid 1).borderEffectiveness 1 0 = 1 := by
  obtain ⟨h1, h2⟩ := borderScan_counts img labels 0 j
  refine ⟨h1, h2, ?_, ?_, by decide!⟩
  · intro hnone
    have hz : (adjacencies img).countP (borderAt labels 0 j) = 0 := by
      rw [List.countP_eq_zero]
      intro e he
      unfold borderAt
      rw [decide_eq_true_eq]
      exact hnone e he
    have hz2 : (adjacencies img).countP (similarBorderAt img labels 0 j) = 0 := by
      rw [List.countP_eq_zero]
      intro e he
      unfold similarBorderAt borderAt
      rw [Bool.and_eq_true, decide_eq_true_eq]
      exact fun h => hnone e he h.1
    rw [h1, h2, hz, hz2]
    exact ⟨rfl, Nat.cast_zero⟩
  · intro n
    rw [mergeSweep_eq]
    have := (sweepUpTo_inv (borderScan img labels BorderStats.zeros) n n).1 0
    omega

/-! ## Border extraction on the seam image, and the two-block scenario -/

/-- The mask of `drawRegionBorders` without dilation, pixel by pixel. -/
theorem drawRegionBorders_data (dilate : Mat → Int → Mat) (cm : ColorMat) (t : Int)
    (ht : t ≤ 1) (y x : Nat) (hy : y < cm.rows) (hx : x < cm.cols) :
    (drawRegionBorders dilate cm t).data y x = if isBorderFlag cm y x = true then 255 else 0 := by
  have hdef : drawRegionBorders dilate cm t =
      (cellsOf (List.range cm.rows) (List.range cm.cols)).foldl
        (fun b x => borderPixel cm b x.1 x.2) (Mat.zeros cm.rows cm.cols) := by
    unfold drawRegionBorders
    simp only
    rw [if_neg (by omega)]
    exact foldl_nested_eq (fun b y x => borderPixel cm b y x) _ _ _
  have key := foldl_write_spec (fun b x => borderPixel cm b x.1 x.2)
    (fun x => isBorderFlag cm x.1 x.2) (fun _ => 255)
    (fun out x => borderPixel_eq cm out x.1 x.2)
    (cellsOf (List.range cm.rows) (List.range cm.cols)) (Mat.zeros cm.rows cm.cols) y x
  rw [hdef]
  have hmem : (y, x) ∈ cellsOf (List.range cm.rows) (List.range cm.cols) := by
    rw [mem_cellsOf, List.mem_range, List.mem_range]
    exact ⟨hy, hx⟩
  rcases key.2.2 with ⟨z, _, hpz, h1, h2, h3⟩ | ⟨hall, hval⟩
  · have e1 : z.1 = y := by omega
    have e2 : z.2 = x := by omega
    simp only [e1, e2] at hpz
    rw [if_pos hpz, h3]
  · have hflag : ¬ isBorderFlag cm y x = true := fun hp => hall (y, x) hmem hp ⟨rfl, rfl⟩
    rw [if_neg hflag, hval]
    rfl

/-- C13 (counterexample). On the seam image with black left columns and white
right columns, thickness 1, row 0 of the mask has two pixels at 255: the one
left of the seam and the one right of it. -/
theorem seam_mask_two_in_row :
    (drawRegionBorders (fun m _ => m) (seamImage (0, 0, 0) (255, 255, 255)) 1).data 0 1 = 255 ∧
    (drawRegionBorders (fun m _ => m) (seamImage (0, 0, 0) (255, 255, 255)) 1).data 0 2 = 255 := by
  decide

/-- C13 (amended). For the 4-by-4 image whose left two columns have one colour
and whose right two columns a different colour, `drawRegionBorders` with
thickness 1 yields a two-pixel-wide mask along the seam: in every row exactly
the two pixels of columns 1 and 2 are 255 and the other pixels are 0. -/
theorem seam_mask_two_wide (dilate : Mat → Int → Mat) (A B : Nat × Nat × Nat) (hAB : A ≠ B)
    (y x : Nat) (hy : y < 4) (hx : x < 4) :
    (drawRegionBorders dilate (seamImage A B) 1).data y x
      = if x = 1 ∨ x = 2 then 255 else 0 := by
  rw [drawRegionBorders_data dilate (seamImage A B) 1 (by decide) y x hy hx]
  have hBA : B ≠ A := fun h => hAB h.symm
  interval_cases x <;> interval_cases y <;>
    simp [isBorderFlag, seamImage, hAB, hBA]

theorem seam_mask_two_wide_witness :
    ((0, 0, 0) ≠ ((255, 255, 255) : Nat × Nat × Nat) ∧ 3 < 4 ∧ 2 < 4) ∧
    (drawRegionBorders (fun m _ => m) (seamImage (0, 0, 0) (255, 255, 255)) 1).data
        ((3 : Nat) : Int) ((2 : Nat) : Int)
      = if (2 : Nat) = 1 ∨ (2 : Nat) = 2 then 255 else 0 :=
  ⟨by decide, seam_mask_two_wide (fun m _ => m) (0, 0, 0) (255, 255, 255) (by decide) 3 2
    (by decide) (by decide)⟩

/-- C11. Two-block scenario (4-by-4 grid, left two columns 10, right two
columns 200, `seedCount = 2`): seed 1 lands at `(x, y) = (1, 1)` in the left
block and seed 2 at `(3, 1)` in the right block; growth ends with the left
columns labelled 1 and the right columns labelled 2; the scan gives
`borderEffectiveness[1][2] = 4` and `borderSimilarity[1][2] = 0`; the sweep
leaves `regionMapping` the identity and the ratio 0; the final label grid is
the grown one, with exactly the two labels 1 and 2. -/
theorem two_block_scenario :
    (seeding (RegionGrower.new blockGrid) 2).pixelQueue
      = [{ category := 1, posX := 1, posY := 1, intensity := 10 },
         { category := 2, posX := 3, posY := 1, intensity := 200 }] ∧
    (seedAndGrow blockGrid 2).pixelQueue = [] ∧
    (∀ y ∈ List.range 4, ∀ x ∈ List.range 4,
      (seedAndGrow blockGrid 2).regionMap.data (y : Int) (x : Int) = if x < 2 then 1 else 2) ∧
    (executeStats blockGrid 2).borderEffectiveness 1 2 = 4 ∧
    (executeStats blockGrid 2).borderSimilarity 1 2 = 0 ∧
    (mergeSweep (executeStats blockGrid 2) 2).borderSimilarity 1 2 = 0 ∧
    (∀ k ∈ List.range 3, executeMapping blockGrid 2 k = k) ∧
    (∀ y ∈ List.range 4, ∀ x ∈ List.range 4,
      (executeLabels blockGrid 2).data (y : Int) (x : Int) = if x < 2 then 1 else 2) ∧
    ((cellsOf (List.range 4) (List.range 4)).map
      (fun c => (executeLabels blockGrid 2).data (c.1 : Int) (c.2 : Int))).dedup = [1, 2] := by
  decide!

/-! ## Label bounds for any seed count -/

theorem toUchar_le (v : Int) (A : Nat) (h0 : 0 ≤ v) (h : v ≤ (A : Int)) : toUchar v ≤ A := by
  unfold toUchar
  omega

theorem SeedLab_step (img : Mat) (n g : Nat) (hr : 1 ≤ img.rows) (hc : 1 ≤ img.cols)
    (c : Nat × Nat) (hc1 : c.1 < g) (hc2 : c.2 < g) (s : RegionGrower × Int)
    (h : SeedLab img n s) :
    SeedLab img n (seedStep n (img.cols / g) (img.rows / g) s c) := by
  have hidx := h.idx
  unfold seedStep
  by_cases hfull : s.2 > (n : Int)
  · rw [if_pos hfull]
    exact h
  · rw [if_neg hfull, seedCell_eq, h.image]
    have hlen : s.1.pixelQueue.length < n := by omega
    by_cases hz : s.1.regionMap.data (seedPos img (img.cols / g) (img.rows / g) c.1 c.2).1
        (seedPos img (img.cols / g) (img.rows / g) c.1 c.2).2 = 0
    · rw [if_pos hz]
      refine
        { image := h.image, idx := ?_, le := ?_, cats := ?_, lab := ?_, ingrid := ?_ }
      · simp only [List.length_append, List.length_singleton]
        push_cast
        omega
      · simp only [List.length_append, List.length_singleton]
        omega
      · intro k p hk
        simp only at hk
        by_cases hkl : k < s.1.pixelQueue.length
        · rw [List.getElem?_append_left hkl] at hk
          exact h.cats k p hk
        · rw [List.getElem?_append_right (not_lt.1 hkl)] at hk
          rcases Nat.eq_zero_or_pos (k - s.1.pixelQueue.length) with h0 | h0
          · rw [h0] at hk
            simp only [List.getElem?_cons_zero, Option.some.injEq] at hk
            subst hk
            simp only
            omega
          · obtain ⟨m, hm⟩ : ∃ m, k - s.1.pixelQueue.length = m + 1 :=
              ⟨_, (Nat.succ_pred_eq_of_pos h0).symm⟩
            rw [hm] at hk
            simp at hk
      · intro y x
        simp only [Mat.set_data, List.length_append, List.length_singleton]
        split
        · exact toUchar_le _ _ (by omega) (by push_cast; omega)
        · have := h.lab y x
          omega
      · intro y x hne
        simp only [Mat.set_data] at hne
        by_cases hyx : y = (seedPos img (img.cols / g) (img.rows / g) c.1 c.2).1 ∧
            x = (seedPos img (img.cols / g) (img.rows / g) c.1 c.2).2
        · rw [hyx.1, hyx.2]
          exact (seedPos_inGrid img g c.1 c.2 hr hc hc1 hc2).2
        · rw [if_neg hyx] at hne
          exact h.ingrid y x hne
    · rw [if_neg hz]
      exact h

theorem SeedLab_foldl (img : Mat) (n g : Nat) (hr : 1 ≤ img.rows) (hc : 1 ≤ img.cols)
    (cells : List (Nat × Nat)) (hcells : ∀ c ∈ cells, c.1 < g ∧ c.2 < g) :
    SeedLab img n
      (cells.foldl (seedStep n (img.cols / g) (img.rows / g)) (RegionGrower.new img, 1)) := by
  refine foldl_inv (fun s : RegionGrower × Int => SeedLab img n s) _ _ _ ?_ ?_
  · exact
      { image := rfl, idx := by simp [RegionGrower.new], le := Nat.zero_le _,
        cats := by
          intro k p hk
          simp [RegionGrower.new] at hk
        lab := fun _ _ => Nat.le_refl _
        ingrid := fun _ _ hne => absurd rfl hne }
  · intro s c hcm hs
    exact SeedLab_step img n g hr hc c (hcells c hcm).1 (hcells c hcm).2 s hs

theorem cellsOf_range_lt (g : Nat) (c : Nat × Nat)
    (h : c ∈ cellsOf (List.range g) (List.range g)) : c.1 < g ∧ c.2 < g := by
  rw [mem_cellsOf, List.mem_range, List.mem_range] at h
  exact h

theorem SeedLab_seedLoop (img : Mat) (n : Nat) (hr : 1 ≤ img.rows) (hc : 1 ≤ img.cols) :
    SeedLab img n (seedLoop (RegionGrower.new img) n) := by
  rw [seedLoop_eq_foldl]
  exact SeedLab_foldl img n (ceilSqrt n) hr hc _ (cellsOf_range_lt _)

theorem LabelInv_of_SeedLab (img : Mat) (n : Nat) (s : RegionGrower × Int)
    (h : SeedLab img n s) : LabelInv img s.1.pixelQueue.length s.1 where
  image := h.image
  cat := by
    intro p hp
    obtain ⟨k, hk⟩ := List.getElem?_of_mem hp
    have hc := h.cats k p hk
    have hlt : k < s.1.pixelQueue.length := by
      by_contra hge
      rw [List.getElem?_eq_none (not_lt.1 hge)] at hk
      exact Option.noConfusion hk
    omega
  lab := h.lab
  ingrid := h.ingrid

theorem LabelInv_mono (img : Mat) (A B : Nat) (hAB : A ≤ B) (g : RegionGrower)
    (h : LabelInv img A g) : LabelInv img B g where
  image := h.image
  cat := by
    intro p hp
    have := h.cat p hp
    omega
  lab := fun y x => Nat.le_trans (h.lab y x) hAB
  ingrid := h.ingrid

theorem LabelInv_visit (img : Mat) (A : Nat) (cur nb : PixelInfo) (g : RegionGrower)
    (hcur : 1 ≤ cur.category ∧ cur.category ≤ (A : Int)) (hnb : InGrid img nb.posY nb.posX)
    (h : LabelInv img A g) : LabelInv img A (visitNeighbor cur g nb) := by
  by_cases hg : growthCriterion cur nb = true ∧ g.regionMap.data nb.posY nb.posX = 0
  · rw [visitNeighbor_grow cur nb g hg]
    refine { image := h.image, cat := ?_, lab := ?_, ingrid := ?_ }
    · intro p hp
      simp only at hp
      rcases List.mem_append.1 hp with hp | hp
      · exact h.cat p hp
      · rw [List.mem_singleton.1 hp]
        exact hcur
    · intro y x
      simp only [Mat.set_data]
      split
      · exact toUchar_le _ _ (by omega) hcur.2
      · exact h.lab y x
    · intro y x hne
      simp only [Mat.set_data] at hne
      by_cases hyx : y = nb.posY ∧ x = nb.posX
      · rw [hyx.1, hyx.2]
        exact hnb
      · rw [if_neg hyx] at hne
        exact h.ingrid y x hne
  · rw [visitNeighbor_skip cur nb g hg]
    exact h

theorem LabelInv_visits (img : Mat) (A : Nat) (cur : PixelInfo) (nbs : List PixelInfo)
    (g : RegionGrower) (hcur : 1 ≤ cur.category ∧ cur.category ≤ (A : Int))
    (hnbs : ∀ nb ∈ nbs, InGrid img nb.posY nb.posX) (h : LabelInv img A g) :
    LabelInv img A (nbs.foldl (visitNeighbor cur) g) := by
  refine foldl_inv (LabelInv img A) _ _ _ h ?_
  intro g2 nb hnb hg2
  exact LabelInv_visit img A cur nb g2 hcur (hnbs nb hnb) hg2

theorem LabelInv_pop (img : Mat) (A : Nat) (g : RegionGrower) (cur : PixelInfo)
    (rest : List PixelInfo) (hq : g.pixelQueue = cur :: rest) (h : LabelInv img A g) :
    (1 ≤ cur.category ∧ cur.category ≤ (A : Int)) ∧
    (∀ nb ∈ findNeighbors { g with pixelQueue := rest } cur, InGrid img nb.posY nb.posX) ∧
    LabelInv img A { g with pixelQueue := rest } := by
  refine ⟨h.cat cur (by rw [hq]; exact List.mem_cons_self _ _), ?_, ?_⟩
  · intro nb hnb
    have := (mem_findNeighbors _ cur nb hnb).1
    rw [show ({ g with pixelQueue := rest } : RegionGrower).originalImage = img from h.image]
      at this
    exact this
  · exact
      { image := h.image
        cat := fun p hp => h.cat p (by rw [hq]; exact List.mem_cons_of_mem _ hp)
        lab := h.lab
        ingrid := h.ingrid }

theorem LabelInv_growStep (img : Mat) (A : Nat) (g : RegionGrower) (h : LabelInv img A g) :
    LabelInv img A (growStep g) := by
  cases hq : g.pixelQueue with
  | nil =>
    unfold growStep
    rw [hq]
    exact h
  | cons cur rest =>
    rw [growStep_cons g cur rest hq]
    obtain ⟨h1, h2, h3⟩ := LabelInv_pop img A g cur rest hq h
    exact LabelInv_visits img A cur _ _ h1 h2 h3

theorem LabelInv_growLoop (img : Mat) (A fuel : Nat) (g : RegionGrower)
    (h : LabelInv img A g) : LabelInv img A (growLoop fuel g) :=
  growLoop_inv (LabelInv img A) (fun g _ hg => LabelInv_growStep img A g hg) fuel g h

theorem LabelInv_seeding (img : Mat) (n : Nat) (hr : 1 ≤ img.rows) (hc : 1 ≤ img.cols) :
    LabelInv img (seeding (RegionGrower.new img) n).pixelQueue.length
      (seeding (RegionGrower.new img) n) :=
  LabelInv_of_SeedLab img n _ (SeedLab_seedLoop img n hr hc)

theorem seeding_length_le (img : Mat) (n : Nat) (hr : 1 ≤ img.rows) (hc : 1 ≤ img.cols) :
    (seeding (RegionGrower.new img) n).pixelQueue.length ≤ n :=
  (SeedLab_seedLoop img n hr hc).le

theorem not_mem_take_of_getElem? {α : Type} (l : List α) (hnd : l.Nodup) (k : Nat) (c : α)
    (hk : l[k]? = some c) : c ∉ l.take k := by
  induction l generalizing k with
  | nil => simp
  | cons a l ih =>
    rw [List.nodup_cons] at hnd
    cases k with
    | zero => simp
    | succ k =>
      rw [List.getElem?_cons_succ] at hk
      rw [List.take_succ_cons, List.mem_cons]
      rintro (h | h)
      · subst h
        exact hnd.1 (List.getElem?_mem hk)
      · exact ih hnd.2 k hk h

theorem remap_eq_foldl (m : Nat → Nat) (labels : Mat) :
    remap m labels
      = (cellsOf (List.range labels.rows) (List.range labels.cols)).foldl (remapStep m) labels := by
  unfold remap
  exact foldl_nested_eq (fun (mm : Mat) (i j : Nat) =>
    mm.set (i : Int) (j : Int) (toUchar ((m (mm.data i j) : Nat) : Int)))
    (List.range labels.rows) (List.range labels.cols) labels

/-- The cell read at step `k` of the remap loop still holds its label. -/
theorem remap_read (m : Nat → Nat) (labels : Mat) (k : Nat) (c : Nat × Nat)
    (hk : (cellsOf (List.range labels.rows) (List.range labels.cols))[k]? = some c) :
    (((cellsOf (List.range labels.rows) (List.range labels.cols)).take k).foldl
      (remapStep m) labels).data c.1 c.2 = labels.data c.1 c.2 := by
  have hnd := cellsOf_nodup (List.range labels.rows) (List.range labels.cols)
    (List.nodup_range _) (List.nodup_range _)
  have hnot := not_mem_take_of_getElem? _ hnd k c hk
  have hspec := (foldl_update_spec (fun v => toUchar (m v))
    ((cellsOf (List.range labels.rows) (List.range labels.cols)).take k)
    (hnd.sublist (List.take_sublist _ _)) labels c.1 c.2).2.2.2
  apply hspec
  rintro ⟨z, hz, h1, h2⟩
  have e1 : z.1 = c.1 := by omega
  have e2 : z.2 = c.2 := by omega
  have : z = c := Prod.ext e1 e2
  rw [this] at hz
  exact hnot hz

/-- C15. For a non-empty grid and `seedCount ≥ 1` the grid divisor
`ceil(sqrt(seedCount))` is at least 1 and every value of the label grid is at
most `seedCount`: after every prefix of the (flattened) seeding loop, after
any number of iterations of the growth loop, and after any prefix of the pass
over the neighbours of a popped entry. Hence both labels of every adjacency
of the border scan, and the label read at every step of the remap loop (which
is still the label left by growth), are indices below `seedCount + 1`. -/
theorem labels_within_seedCount (img : Mat) (seedCount : Nat) (hr : 1 ≤ img.rows)
    (hc : 1 ≤ img.cols) (hn : 1 ≤ seedCount) :
    1 ≤ ceilSqrt seedCount ∧
    (∀ k y x,
      (((cellsOf (List.range (ceilSqrt seedCount)) (List.range (ceilSqrt seedCount))).take
          k).foldl
        (seedStep seedCount (img.cols / ceilSqrt seedCount) (img.rows / ceilSqrt seedCount))
        (RegionGrower.new img, 1)).1.regionMap.data y x ≤ seedCount) ∧
    (∀ pops y x, (grownLabels img seedCount pops).data y x ≤ seedCount) ∧
    (∀ pops cur rest,
      (growLoop pops (seeding (RegionGrower.new img) seedCount)).pixelQueue = cur :: rest →
      ∀ k y x,
        (((findNeighbors
            { growLoop pops (seeding (RegionGrower.new img) seedCount) with pixelQueue := rest }
            cur).take k).foldl (visitNeighbor cur)
          { growLoop pops (seeding (RegionGrower.new img) seedCount) with
            pixelQueue := rest }).regionMap.data y x ≤ seedCount) ∧
    (∀ pops, ∀ e ∈ adjacencies img,
      (grownLabels img seedCount pops).data e.1.1 e.1.2 < seedCount + 1 ∧
      (grownLabels img seedCount pops).data e.2.1 e.2.2 < seedCount + 1) ∧
    (∀ pops (m : Nat → Nat),
      remap m (grownLabels img seedCount pops)
        = (cellsOf (List.range (grownLabels img seedCount pops).rows)
            (List.range (grownLabels img seedCount pops).cols)).foldl (remapStep m)
            (grownLabels img seedCount pops) ∧
      ∀ k c,
        (cellsOf (List.range (grownLabels img seedCount pops).rows)
          (List.range (grownLabels img seedCount pops).cols))[k]? = some c →
        (((cellsOf (List.range (grownLabels img seedCount pops).rows)
            (List.range (grownLabels img seedCount pops).cols)).take k).foldl (remapStep m)
            (grownLabels img seedCount pops)).data c.1 c.2 < seedCount + 1) := by
  have hlen := seeding_length_le img seedCount hr hc
  have hgrow : ∀ pops, LabelInv img seedCount
      (growLoop pops (seeding (RegionGrower.new img) seedCount)) := fun pops =>
    LabelInv_growLoop img _ pops _
      (LabelInv_mono img _ _ hlen _ (LabelInv_seeding img seedCount hr hc))
  have hlab : ∀ pops y x, (grownLabels img seedCount pops).data y x ≤ seedCount :=
    fun pops y x => (hgrow pops).lab y x
  refine ⟨ceilSqrt_pos seedCount hn, ?_, hlab, ?_, ?_, ?_⟩
  · intro k y x
    have h := SeedLab_foldl img seedCount (ceilSqrt seedCount) hr hc
      ((cellsOf (List.range (ceilSqrt seedCount)) (List.range (ceilSqrt seedCount))).take k)
      (fun c hcm => cellsOf_range_lt _ c (List.mem_of_mem_take hcm))
    exact Nat.le_trans (h.lab y x) h.le
  · intro pops cur rest hq k y x
    obtain ⟨h1, h2, h3⟩ := LabelInv_pop img seedCount _ cur rest hq (hgrow pops)
    exact (LabelInv_visits img seedCount cur _ _ h1
      (fun nb hnb => h2 nb (List.mem_of_mem_take hnb)) h3).lab y x
  · intro pops e _
    exact ⟨Nat.lt_succ_of_le (hlab pops _ _), Nat.lt_succ_of_le (hlab pops _ _)⟩
  · intro pops m
    refine ⟨remap_eq_foldl m _, ?_⟩
    intro k c hk
    rw [remap_read m _ k c hk]
    exact Nat.lt_succ_of_le (hlab pops _ _)

theorem labels_within_seedCount_witness :
    (1 ≤ chainGrid.rows ∧ 1 ≤ chainGrid.cols ∧ 1 ≤ 300) ∧
    (grownLabels chainGrid 300 5).data 1 1 ≤ 300 :=
  ⟨by decide,
    (labels_within_seedCount chainGrid 300 (by decide) (by decide) (by decide)).2.2.1 5 1 1⟩

/-- Every value of `regionMapping` other than the index itself is a region id
`i ≥ 1` that has a recorded border `borderEffectiveness[i][_] > 0`. -/
theorem sweepUpTo_source (st : BorderStats) (n t : Nat) (Q : Nat → Prop)
    (hQ : ∀ i j, st.borderEffectiveness i j > 0 → Q i) (k : Nat) :
    (sweepUpTo st n t).regionMapping k = k ∨
      (Q ((sweepUpTo st n t).regionMapping k) ∧ 1 ≤ (sweepUpTo st n t).regionMapping k) := by
  induction t generalizing k with
  | zero =>
    left
    rfl
  | succ t ih =>
    rw [sweepUpTo_succ]
    rcases (mergeRow_spec st.borderEffectiveness n (1 + t) (sweepUpTo st n t)).1 k with
      ⟨he, _, _, hm⟩ | ⟨he, _⟩
    · rw [he]
      rcases ih (1 + t) with h | h
      · rw [h]
        exact Or.inr ⟨hQ _ _ hm.1, by omega⟩
      · exact Or.inr h
    · rw [he]
      exact ih k

/-- C14. For a non-empty grid and `seedCount ≥ 1`, whatever the number of
growth iterations after which growth ends, every non-zero value `v` of the
final label grid lies in `1 .. number of accepted seeds` (itself at most
`seedCount`), is the id of the `v`-th accepted seed, and is the label that
growth left on at least one pixel of the grid. `executeLabels` is the final
grid for `rows * cols` iterations. -/
theorem surviving_ids_are_seeded (img : Mat) (seedCount pops : Nat) (hr : 1 ≤ img.rows)
    (hc : 1 ≤ img.cols) (_hn : 1 ≤ seedCount) (y x : Int) (hyx : InGrid img y x)
    (hv : (finalLabels img seedCount pops).data y x ≠ 0) :
    1 ≤ (finalLabels img seedCount pops).data y x ∧
    (finalLabels img seedCount pops).data y x
      ≤ (seeding (RegionGrower.new img) seedCount).pixelQueue.length ∧
    (seeding (RegionGrower.new img) seedCount).pixelQueue.length ≤ seedCount ∧
    (∃ s, (seeding (RegionGrower.new img) seedCount).pixelQueue[
        (finalLabels img seedCount pops).data y x - 1]? = some s ∧
      s.category = ((finalLabels img seedCount pops).data y x : Int)) ∧
    (∃ y2 x2, InGrid img y2 x2 ∧
      (grownLabels img seedCount pops).data y2 x2 = (finalLabels img seedCount pops).data y x) ∧
    executeLabels img seedCount = finalLabels img seedCount (img.rows * img.cols) := by
  have hinv : LabelInv img (seeding (RegionGrower.new img) seedCount).pixelQueue.length
      (growLoop pops (seeding (RegionGrower.new img) seedCount)) :=
    LabelInv_growLoop img _ pops _ (LabelInv_seeding img seedCount hr hc)
  obtain ⟨_, hrows, hcols, hlt⟩ := Basic_growLoop img pops _ (Basic_seeding img seedCount)
  have hsrc := sweepUpTo_source
    (borderScan img (grownLabels img seedCount pops) BorderStats.zeros) seedCount seedCount
    (fun i => ∃ y2 x2, InGrid img y2 x2 ∧ (grownLabels img seedCount pops).data y2 x2 = i)
    (by
      intro i j hpos
      rw [(borderScan_counts img (grownLabels img seedCount pops) i j).1] at hpos
      obtain ⟨e, he, hb⟩ := List.countP_pos_iff.1 hpos
      unfold borderAt at hb
      rw [decide_eq_true_eq] at hb
      exact ⟨e.1.1, e.1.2, ((mem_adjacencies img e).1 he).1, hb.1⟩)
    ((grownLabels img seedCount pops).data y x)
  have hle := (sweepUpTo_inv
    (borderScan img (grownLabels img seedCount pops) BorderStats.zeros) seedCount seedCount).1
    ((grownLabels img seedCount pops).data y x)
  have hval : (finalLabels img seedCount pops).data y x
      = (sweepUpTo (borderScan img (grownLabels img seedCount pops) BorderStats.zeros)
          seedCount seedCount).regionMapping ((grownLabels img seedCount pops).data y x) := by
    unfold finalLabels
    rw [mergeSweep_eq]
    obtain ⟨h1, h2, h3, h4⟩ := hyx
    rw [(remap_spec _ (grownLabels img seedCount pops) y x).2.2 h1
      (by unfold grownLabels; rw [hrows]; exact h2) h3
      (by unfold grownLabels; rw [hcols]; exact h4)]
    apply toUchar_of_le
    have := hlt y x
    unfold grownLabels
    unfold grownLabels at hle
    omega
  have hpres : ∃ y2 x2, InGrid img y2 x2 ∧
      (grownLabels img seedCount pops).data y2 x2 = (finalLabels img seedCount pops).data y x := by
    rcases hsrc with h | h
    · exact ⟨y, x, hyx, by rw [hval, h]⟩
    · rw [hval]
      exact h.1
  obtain ⟨y2, x2, _, hlab⟩ := hpres
  have hbound : (finalLabels img seedCount pops).data y x
      ≤ (seeding (RegionGrower.new img) seedCount).pixelQueue.length := by
    rw [← hlab]
    exact hinv.lab y2 x2
  have hpos : 1 ≤ (finalLabels img seedCount pops).data y x := Nat.one_le_iff_ne_zero.2 hv
  refine ⟨hpos, hbound, seeding_length_le img seedCount hr hc, ?_, ⟨y2, x2, ‹_›, hlab⟩, rfl⟩
  have hidx : (finalLabels img seedCount pops).data y x - 1
      < (seeding (RegionGrower.new img) seedCount).pixelQueue.length := by omega
  have hs := List.getElem?_eq_getElem hidx
  have hcat := (SeedLab_seedLoop img seedCount hr hc).cats _ _ hs
  exact ⟨_, hs, hcat.trans (by omega)⟩

theorem surviving_ids_are_seeded_witness :
    (1 ≤ chainGrid.rows ∧ 1 ≤ chainGrid.cols ∧ 1 ≤ 3 ∧ InGrid chainGrid 1 0 ∧
      (finalLabels chainGrid 3 4).data 1 0 ≠ 0) ∧
    1 ≤ (finalLabels chainGrid 3 4).data 1 0 :=
  ⟨⟨by decide, by decide, by decide, ⟨by decide, by decide, by decide, by decide⟩, by decide!⟩,
    (surviving_ids_are_seeded chainGrid 3 4 (by decide) (by decide) (by decide) 1 0
      ⟨by decide, by decide, by decide, by decide⟩ (by decide!)).1⟩

/-! ## Breadth-first growth on a uniform grid -/

theorem pixelDistance_adj (s : PixelInfo) (y x y2 x2 : Int) (h : Adjacent4 y x y2 x2) :
    pixelDistance s y2 x2 ≤ pixelDistance s y x + 1 := by
  unfold Adjacent4 at h
  unfold pixelDistance
  omega

theorem pixelDistance_eq_zero (s : PixelInfo) (y x : Int) (h : pixelDistance s y x = 0) :
    s.posY = y ∧ s.posX = x := by
  unfold pixelDistance at h
  omega

theorem pixelDistance_self (s : PixelInfo) : pixelDistance s s.posY s.posX = 0 := by
  unfold pixelDistance
  omega

/-- From a pixel of the grid that is not the seed `s`, one step inside the
grid leads closer to `s`. -/
theorem step_toward (img : Mat) (s : PixelInfo) (hs : InGrid img s.posY s.posX) (y x : Int)
    (hin : InGrid img y x) (hd : 1 ≤ pixelDistance s y x) :
    ∃ y2 x2, InGrid img y2 x2 ∧ Adjacent4 y2 x2 y x ∧
      pixelDistance s y2 x2 + 1 = pixelDistance s y x := by
  unfold InGrid at hs hin
  unfold pixelDistance at hd
  by_cases h1 : y < s.posY
  · refine ⟨y + 1, x, ?_, ?_, ?_⟩
    · unfold InGrid
      omega
    · unfold Adjacent4
      omega
    · unfold pixelDistance
      omega
  by_cases h2 : s.posY < y
  · refine ⟨y - 1, x, ?_, ?_, ?_⟩
    · unfold InGrid
      omega
    · unfold Adjacent4
      omega
    · unfold pixelDistance
      omega
  by_cases h3 : x < s.posX
  · refine ⟨y, x + 1, ?_, ?_, ?_⟩
    · unfold InGrid
      omega
    · unfold Adjacent4
      omega
    · unfold pixelDistance
      omega
  · refine ⟨y, x - 1, ?_, ?_, ?_⟩
    · unfold InGrid
      omega
    · unfold Adjacent4
      omega
    · unfold pixelDistance
      omega

theorem level_eq (S : List PixelInfo) (q : PixelInfo) (k : Nat) (s : PixelInfo)
    (hk : (k : Int) = q.category) (hs : S[k - 1]? = some s) :
    level S q = pixelDistance s q.posY q.posX := by
  unfold level
  rw [← hk, Int.toNat_ofNat, hs]

theorem GrowEdge_of_uniform (img : Mat) (hu : Uniform img) (a b : Int × Int)
    (ha : InGrid img a.1 a.2) (hb : InGrid img b.1 b.2) (hadj : Adjacent4 a.1 a.2 b.1 b.2) :
    GrowEdge img a b := by
  refine ⟨ha, hb, hadj, ?_⟩
  rw [hu a.1 a.2 b.1 b.2 ha hb]
  simp

/-- The level of a queued entry is the distance between its pixel and the seed
whose id labels that pixel. -/
theorem level_of_queued (img : Mat) (S : List PixelInfo) (labels : Mat) (q : PixelInfo)
    (hq : QueueOk img labels q) (hj : Joined img labels S (labels.data q.posY q.posX)
      (q.posY, q.posX)) :
    ∃ s, S[labels.data q.posY q.posX - 1]? = some s ∧ s ∈ S ∧
      level S q = pixelDistance s q.posY q.posX := by
  obtain ⟨s, hs, _, _⟩ := hj
  exact ⟨s, hs, List.getElem?_mem hs, level_eq S q _ s hq.2.2.1 hs⟩

theorem BfsVisit_visit (img : Mat) (S : List PixelInfo) (L : Nat) (cur nb : PixelInfo)
    (nbs : List PixelInfo) (g : RegionGrower) (h : BfsVisit img S L cur (nb :: nbs) g) :
    BfsVisit img S L cur nbs (visitNeighbor cur g nb) := by
  have hv := VisitInv_visit img S cur nb nbs g h.visit
  by_cases hg : growthCriterion cur nb = true ∧ g.regionMap.data nb.posY nb.posX = 0
  · have hcne : g.regionMap.data cur.posY cur.posX ≠ 0 := h.visit.curok.2.2.2
    obtain ⟨s, hs, hsmem, hlev⟩ := level_of_queued img S g.regionMap cur h.visit.curok
      (h.visit.base.joined cur.posY cur.posX hcne)
    obtain ⟨hnbin, _, hnbadj⟩ := h.visit.nbsok nb (List.mem_cons_self _ _)
    have hfar := h.far nb.posY nb.posX hnbin hg.2
    have hadj := pixelDistance_adj s cur.posY cur.posX nb.posY nb.posX hnbadj
    have hcl := h.curlev
    have hdn : pixelDistance s nb.posY nb.posX = L + 1 := by
      have := hfar s hsmem
      omega
    have hu := toUchar_category img g.regionMap cur h.visit.base.lt h.visit.curok
    have hlevnew : level S { nb with category := cur.category } = L + 1 := by
      rw [level_eq S { nb with category := cur.category } _ s h.visit.curok.2.2.1 hs]
      exact hdn
    rw [visitNeighbor_grow cur nb g hg] at hv ⊢
    refine
      { visit := hv, nearest := ?_, curlev := h.curlev, qlev := ?_, sorted := ?_, far := ?_ }
    · intro y x s1 hne hs1 s2 hs2
      simp only [Mat.set_data] at hne hs1
      by_cases hyx : y = nb.posY ∧ x = nb.posX
      · rw [if_pos hyx, hu, hs] at hs1
        have e : s = s1 := Option.some.inj hs1
        rw [← e, hyx.1, hyx.2, hdn]
        exact hfar s2 hs2
      · rw [if_neg hyx] at hne hs1
        exact h.nearest y x s1 hne hs1 s2 hs2
    · intro q hq
      simp only at hq
      rcases List.mem_append.1 hq with hq | hq
      · exact h.qlev q hq
      · rw [List.mem_singleton.1 hq, hlevnew]
        omega
    · show (g.pixelQueue ++ [{ nb with category := cur.category }]).Pairwise
        (fun a b => level S a ≤ level S b)
      rw [List.pairwise_append]
      refine ⟨h.sorted, List.pairwise_singleton _ _, ?_⟩
      intro a ha b hb
      rw [List.mem_singleton.1 hb, hlevnew]
      exact (h.qlev a ha).2
    · intro y x hin hz s2 hs2
      simp only [Mat.set_data] at hz
      by_cases hyx : y = nb.posY ∧ x = nb.posX
      · rw [hyx.1, hyx.2]
        exact hfar s2 hs2
      · rw [if_neg hyx] at hz
        exact h.far y x hin hz s2 hs2
  · rw [visitNeighbor_skip cur nb g hg] at hv ⊢
    exact
      { visit := hv, nearest := h.nearest, curlev := h.curlev, qlev := h.qlev,
        sorted := h.sorted, far := h.far }

theorem BfsVisit_foldl (img : Mat) (S : List PixelInfo) (L : Nat) (cur : PixelInfo)
    (nbs : List PixelInfo) (g : RegionGrower) (h : BfsVisit img S L cur nbs g) :
    BfsVisit img S L cur [] (nbs.foldl (visitNeighbor cur) g) := by
  induction nbs generalizing g with
  | nil => exact h
  | cons nb nbs ih =>
    rw [List.foldl_cons]
    exact ih _ (BfsVisit_visit img S L cur nb nbs g h)

/-- Popping the front entry: the invariant holds at the level of that entry.
When the level goes up by one, every pixel at the old level is closed, so no
unlabelled pixel is left at the new level. -/
theorem BfsVisit_pop (img : Mat) (hu : Uniform img) (S : List PixelInfo) (L : Nat)
    (g : RegionGrower) (cur : PixelInfo) (rest : List PixelInfo)
    (hq : g.pixelQueue = cur :: rest) (h : BfsInv img S L g) :
    BfsVisit img S (level S cur) cur (findNeighbors { g with pixelQueue := rest } cur)
      { g with pixelQueue := rest } := by
  have hcurmem : cur ∈ g.pixelQueue := by
    rw [hq]
    exact List.mem_cons_self _ _
  have hsorted := h.sorted
  rw [hq, List.pairwise_cons] at hsorted
  have hcurlev := h.qlev cur hcurmem
  refine
    { visit := VisitInv_pop img S g cur rest hq h.grow, nearest := h.nearest, curlev := rfl,
      qlev := ?_, sorted := hsorted.2, far := ?_ }
  · intro q hqm
    have h1 := hsorted.1 q hqm
    have h2 := h.qlev q (by rw [hq]; exact List.mem_cons_of_mem _ hqm)
    omega
  · intro y x hin hz s hsm
    have hfar := h.far y x hin hz s hsm
    by_contra hlt
    have hd : pixelDistance s y x = L + 1 := by omega
    have hcl : level S cur = L + 1 := by omega
    obtain ⟨y2, x2, hin2, hadj2, hd2⟩ := step_toward img s (h.grow.base.seeds s hsm).2 y x hin
      (by omega)
    have hne2 : g.regionMap.data y2 x2 ≠ 0 := by
      intro hz2
      have := h.far y2 x2 hin2 hz2 s hsm
      omega
    rcases h.grow.closed y2 x2 hne2 with hqp | hclosed
    · unfold queuePositions at hqp
      rw [List.mem_map] at hqp
      obtain ⟨q, hqm, hpos⟩ := hqp
      have e1 : q.posY = y2 := congrArg Prod.fst hpos
      have e2 : q.posX = x2 := congrArg Prod.snd hpos
      have hqok := h.grow.base.qok q hqm
      obtain ⟨sq, hsq, _, hlevq⟩ := level_of_queued img S g.regionMap q hqok
        (h.grow.base.joined q.posY q.posX hqok.2.2.2)
      have hnear := h.nearest q.posY q.posX sq hqok.2.2.2 hsq s hsm
      have hge : level S cur ≤ level S q := by
        rw [hq, List.mem_cons] at hqm
        rcases hqm with hqm | hqm
        · rw [hqm]
        · exact hsorted.1 q hqm
      rw [e1, e2] at hnear
      rw [e1, e2] at hlevq
      omega
    · exact hclosed (y, x) (GrowEdge_of_uniform img hu (y2, x2) (y, x) hin2 hin hadj2) hz

theorem BfsInv_growStep (img : Mat) (hu : Uniform img) (S : List PixelInfo)
    (g : RegionGrower) (h : ∃ L, BfsInv img S L g) : ∃ L, BfsInv img S L (growStep g) := by
  obtain ⟨L, h⟩ := h
  rcases hq : g.pixelQueue with _ | ⟨cur, rest⟩
  · have : growStep g = g := by
      unfold growStep
      rw [hq]
    rw [this]
    exact ⟨L, h⟩
  · have hend := BfsVisit_foldl img S _ cur _ _ (BfsVisit_pop img hu S L g cur rest hq h)
    refine ⟨level S cur, ?_⟩
    have hgi := GrowInv_growStep img S g h.grow
    rw [growStep_cons g cur rest hq] at hgi ⊢
    exact
      { grow := hgi, nearest := hend.nearest, qlev := hend.qlev, sorted := hend.sorted,
        far := hend.far }

theorem BfsInv_growLoop (img : Mat) (hu : Uniform img) (S : List PixelInfo) (fuel : Nat)
    (g : RegionGrower) (h : ∃ L, BfsInv img S L g) :
    ∃ L, BfsInv img S L (growLoop fuel g) :=
  growLoop_inv (fun g => ∃ L, BfsInv img S L g)
    (fun g _ hg => BfsInv_growStep img hu S g hg) fuel g h

/-- After seeding the breadth-first invariant holds at level 0. -/
theorem BfsInv_seeding (img : Mat) (n : Nat) (hr : 1 ≤ img.rows) (hc : 1 ≤ img.cols)
    (h255 : n ≤ 255) :
    BfsInv img (seeding (RegionGrower.new img) n).pixelQueue 0
      (seeding (RegionGrower.new img) n) := by
  have inv := SeedInv_seedLoop img n h255
  have hgrow := GrowInv_seeding img n hr hc h255
  have hlev0 : ∀ q ∈ (seeding (RegionGrower.new img) n).pixelQueue,
      level (seeding (RegionGrower.new img) n).pixelQueue q = 0 := by
    intro q hq
    obtain ⟨j, hj⟩ := List.getElem?_of_mem hq
    have hcat := (inv.cats j q hj).1
    rw [level_eq _ q (j + 1) q (by rw [hcat]; push_cast; rfl) hj]
    exact pixelDistance_self q
  refine { grow := hgrow, nearest := ?_, qlev := ?_, sorted := ?_, far := ?_ }
  · intro y x s hne hs s2 _
    have hmem := (inv.lab y x).1 hne
    unfold queuePositions at hmem
    rw [List.mem_map] at hmem
    obtain ⟨q, hq, hpos⟩ := hmem
    obtain ⟨j, hj⟩ := List.getElem?_of_mem hq
    have hlab := (inv.cats j q hj).2.1
    have e1 : q.posY = y := congrArg Prod.fst hpos
    have e2 : q.posX = x := congrArg Prod.snd hpos
    rw [e1, e2] at hlab
    have hs2 : (seedLoop (RegionGrower.new img) n).1.pixelQueue[j]? = some s := by
      have : (seeding (RegionGrower.new img) n).regionMap.data y x - 1 = j := by
        unfold seeding
        omega
      rw [← this]
      exact hs
    have e : q = s := Option.some.inj (hj.symm.trans hs2)
    rw [← e, ← e1, ← e2, pixelDistance_self]
    exact Nat.zero_le _
  · intro q hq
    rw [hlev0 q hq]
    omega
  · apply List.pairwise_of_forall_mem_list
    intro a ha b hb
    rw [hlev0 a ha, hlev0 b hb]
  · intro y x _ hz s hs
    by_contra hlt
    have hd : pixelDistance s y x = 0 := by omega
    obtain ⟨e1, e2⟩ := pixelDistance_eq_zero s y x hd
    have := (hgrow.base.seeds s hs).1
    rw [e1, e2] at this
    exact this hz

theorem BfsInv_seedAndGrow (img : Mat) (hu : Uniform img) (n : Nat) (hr : 1 ≤ img.rows)
    (hc : 1 ≤ img.cols) (h255 : n ≤ 255) :
    ∃ L, BfsInv img (seeding (RegionGrower.new img) n).pixelQueue L (seedAndGrow img n) :=
  BfsInv_growLoop img hu _ _ _ ⟨0, BfsInv_seeding img n hr hc h255⟩

/-- On a uniform grid with at least one seed, growth that has emptied the queue
has labelled every pixel. -/
theorem all_labelled (img : Mat) (hu : Uniform img) (S : List PixelInfo) (g : RegionGrower)
    (h : GrowInv img S g) (hq : g.pixelQueue = []) (s : PixelInfo) (hs : s ∈ S) (y x : Int)
    (hin : InGrid img y x) : g.regionMap.data y x ≠ 0 := by
  have key : ∀ d y x, pixelDistance s y x = d → InGrid img y x → g.regionMap.data y x ≠ 0 := by
    intro d
    induction d with
    | zero =>
      intro y x hd _
      obtain ⟨e1, e2⟩ := pixelDistance_eq_zero s y x hd
      rw [← e1, ← e2]
      exact (h.base.seeds s hs).1
    | succ d ih =>
      intro y x hd hin
      obtain ⟨y2, x2, hin2, hadj2, hd2⟩ := step_toward img s (h.base.seeds s hs).2 y x hin
        (by omega)
      have hne2 := ih y2 x2 (by omega) hin2
      rcases h.closed y2 x2 hne2 with hqp | hcl
      · unfold queuePositions at hqp
        rw [hq] at hqp
        simp at hqp
      · exact hcl (y, x) (GrowEdge_of_uniform img hu (y2, x2) (y, x) hin2 hin hadj2)
  exact key _ y x rfl hin

/-- A labelled pixel carries an id `k` with `1 ≤ k ≤ number of seeds`, and its
seed is nearest. -/
theorem label_seed (img : Mat) (S : List PixelInfo) (L : Nat) (g : RegionGrower)
    (h : BfsInv img S L g) (y x : Int) (hne : g.regionMap.data y x ≠ 0) :
    ∃ s, S[g.regionMap.data y x - 1]? = some s ∧ 1 ≤ g.regionMap.data y x ∧
      g.regionMap.data y x ≤ S.length ∧
      ∀ s2 ∈ S, pixelDistance s y x ≤ pixelDistance s2 y x := by
  obtain ⟨s, hs, hk, _⟩ := h.grow.base.joined y x hne
  refine ⟨s, hs, hk, ?_, h.nearest y x s hne hs⟩
  have hlt : g.regionMap.data y x - 1 < S.length := by
    by_contra hge
    rw [List.getElem?_eq_none (not_lt.1 hge)] at hs
    exact Option.noConfusion hs
  omega

/-- The pixel of a seed keeps the id of that seed, when no other seed lies on
the same pixel. -/
theorem label_at_seed (img : Mat) (S : List PixelInfo) (L : Nat) (g : RegionGrower)
    (h : BfsInv img S L g) (j : Nat) (s : PixelInfo) (hs : S[j]? = some s)
    (huniq : ∀ i s2, S[i]? = some s2 → s2.posY = s.posY → s2.posX = s.posX → i = j) :
    g.regionMap.data s.posY s.posX = j + 1 := by
  have hsm : s ∈ S := List.getElem?_mem hs
  have hne := (h.grow.base.seeds s hsm).1
  obtain ⟨sk, hsk, hk1, _, hnear⟩ := label_seed img S L g h s.posY s.posX hne
  have hd := hnear s hsm
  rw [pixelDistance_self] at hd
  obtain ⟨e1, e2⟩ := pixelDistance_eq_zero sk s.posY s.posX (by omega)
  have := huniq _ sk hsk e1 e2
  omega

/-- A sequence over `lo .. hi` with values `a` and `b` only, starting with `a`
and ending with `b`, has an `a` immediately followed by a `b`. -/
theorem transition (f : Int → Nat) (a b : Nat) (lo : Int) (n : Nat)
    (hlo : f lo = a) (hhi : f (lo + n + 1) = b)
    (hall : ∀ t, lo ≤ t → t ≤ lo + n + 1 → f t = a ∨ f t = b) :
    ∃ t, lo ≤ t ∧ t < lo + n + 1 ∧ f t = a ∧ f (t + 1) = b := by
  induction n with
  | zero =>
    refine ⟨lo, le_refl _, by omega, hlo, ?_⟩
    simpa using hhi
  | succ n ih =>
    rcases hall (lo + n + 1) (by omega) (by push_cast; omega) with h | h
    · refine ⟨lo + n + 1, by omega, by push_cast; omega, h, ?_⟩
      have e : lo + (n : Int) + 1 + 1 = lo + ((n + 1 : Nat) : Int) + 1 := by
        push_cast
        ring
      rw [e]
      exact hhi
    · obtain ⟨t, h1, h2, h3, h4⟩ := ih h (fun t ht1 ht2 => hall t ht1 (by push_cast; omega))
      exact ⟨t, h1, by push_cast; omega, h3, h4⟩

theorem borderEffectiveness_pos (img labels : Mat) (a b : Nat) (hab : a ≠ b)
    (e : (Int × Int) × (Int × Int)) (he : e ∈ adjacencies img)
    (h1 : labels.data e.1.1 e.1.2 = a) (h2 : labels.data e.2.1 e.2.2 = b) :
    (borderScan img labels BorderStats.zeros).borderEffectiveness a b > 0 := by
  rw [(borderScan_counts img labels a b).1]
  apply List.countP_pos_iff.2
  refine ⟨e, he, ?_⟩
  unfold borderAt
  rw [decide_eq_true_eq]
  exact ⟨h1, h2, hab⟩

/-- On a uniform grid every counted border is a similar border. -/
theorem uniform_similarity (img labels : Mat) (hu : Uniform img) (a b : Nat) :
    (borderScan img labels BorderStats.zeros).borderSimilarity a b
      = ((borderScan img labels BorderStats.zeros).borderEffectiveness a b : ℚ) := by
  obtain ⟨h1, h2⟩ := borderScan_counts img labels a b
  rw [h1, h2]
  congr 1
  apply List.countP_congr
  intro e he
  obtain ⟨hin1, hin2, _⟩ := (mem_adjacencies img e).1 he
  unfold similarBorderAt
  rw [hu e.1.1 e.1.2 e.2.1 e.2.2 hin1 hin2]
  simp

theorem uniform_mergeable (img labels : Mat) (hu : Uniform img) (i j : Nat) :
    Mergeable (borderScan img labels BorderStats.zeros).borderEffectiveness
      (borderScan img labels BorderStats.zeros).borderSimilarity i j
    ↔ (borderScan img labels BorderStats.zeros).borderEffectiveness i j > 0 := by
  unfold Mergeable
  rw [uniform_similarity img labels hu i j]
  constructor
  · exact fun h => h.1
  · intro h
    refine ⟨h, ?_⟩
    have hpos : ((borderScan img labels BorderStats.zeros).borderEffectiveness i j : ℚ) ≠ 0 := by
      have : (borderScan img labels BorderStats.zeros).borderEffectiveness i j ≠ 0 := by omega
      exact_mod_cast this
    rw [div_self hpos]
    norm_num

theorem sweep_one (st : BorderStats) (n t : Nat) : (sweepUpTo st n t).regionMapping 1 = 1 := by
  have h1 := (sweepUpTo_inv st n t).1 1
  rcases sweepUpTo_source st n t (fun _ => True) (fun _ _ _ => trivial) 1 with h | h
  · exact h
  · omega

/-! ## The seeds of `seedCount = 4` and the borders between their regions -/

theorem seedStep_queue (img : Mat) (n dx dy : Nat) (pre : List (Nat × Nat))
    (s : RegionGrower × Int) (c : Nat × Nat) (h : SeedInv img n dx dy pre s) :
    (seedStep n dx dy s c).1.pixelQueue
      = acceptSeed img n s.1.pixelQueue (seedPos img dx dy c.1 c.2) := by
  have hidx := h.idx
  unfold seedStep acceptSeed
  by_cases hfull : s.2 > (n : Int)
  · rw [if_pos hfull, if_neg]
    intro hlt
    omega
  · rw [if_neg hfull, seedCell_eq, h.image]
    have hlab := h.lab (seedPos img dx dy c.1 c.2).1 (seedPos img dx dy c.1 c.2).2
    unfold queuePositions at hlab
    by_cases hz : s.1.regionMap.data (seedPos img dx dy c.1 c.2).1
        (seedPos img dx dy c.1 c.2).2 = 0
    · have hnot : seedPos img dx dy c.1 c.2 ∉ s.1.pixelQueue.map (fun p => (p.posY, p.posX)) :=
        fun hin => (hlab.2 hin) hz
      rw [if_pos hz, if_pos ⟨by omega, hnot⟩, hidx]
    · have hin : seedPos img dx dy c.1 c.2 ∈ s.1.pixelQueue.map (fun p => (p.posY, p.posX)) :=
        hlab.1 hz
      rw [if_neg hz, if_neg (fun hc => hc.2 hin)]

theorem seeding_queue_foldl (img : Mat) (n dx dy : Nat) (h255 : n ≤ 255)
    (cells : List (Nat × Nat)) :
    (cells.foldl (seedStep n dx dy) (RegionGrower.new img, 1)).1.pixelQueue
      = (cells.map (fun c => seedPos img dx dy c.1 c.2)).foldl (acceptSeed img n) [] := by
  induction cells using List.reverseRecOn with
  | nil => rfl
  | append_singleton cells c ih =>
    rw [List.foldl_append, List.foldl_cons, List.foldl_nil, List.map_append, List.foldl_append,
      List.map_cons, List.map_nil, List.foldl_cons, List.foldl_nil, ← ih]
    exact seedStep_queue img n dx dy cells _ c (SeedInv_foldl img n dx dy h255 cells)

/-- The accepted seeds for `seedCount = 4`: the four cell centres
`(y0, x0), (y0, x1), (y1, x0), (y1, x1)` offered in this order, `x0 < x1`
when the grid has two columns or more (else `x0 = x1`), `y0 < y1` when it has
two rows or more (else `y0 = y1`). -/
theorem seeds_four (img : Mat) (hr : 1 ≤ img.rows) (hc : 1 ≤ img.cols) :
    ∃ y0 y1 x0 x1 : Int,
      InGrid img y0 x0 ∧ InGrid img y1 x1 ∧ y0 ≤ y1 ∧ x0 ≤ x1 ∧
      (seeding (RegionGrower.new img) 4).pixelQueue
        = [(y0, x0), (y0, x1), (y1, x0), (y1, x1)].foldl (acceptSeed img 4) [] := by
  have hg : ceilSqrt 4 = 2 := by decide
  have hcells : cellsOf (List.range 2) (List.range 2) = [(0, 0), (0, 1), (1, 0), (1, 1)] := by
    decide
  have hq : (seeding (RegionGrower.new img) 4).pixelQueue
      = ([(0, 0), (0, 1), (1, 0), (1, 1)].map
          (fun c : Nat × Nat => seedPos img (img.cols / 2) (img.rows / 2) c.1 c.2)).foldl
          (acceptSeed img 4) [] := by
    unfold seeding
    rw [seedLoop_eq_foldl, hg, hcells]
    exact seeding_queue_foldl img 4 _ _ (by decide) _
  obtain ⟨e00, hin00⟩ := seedPos_inGrid img 2 0 0 hr hc (by decide) (by decide)
  obtain ⟨e01, _⟩ := seedPos_inGrid img 2 0 1 hr hc (by decide) (by decide)
  obtain ⟨e10, _⟩ := seedPos_inGrid img 2 1 0 hr hc (by decide) (by decide)
  obtain ⟨e11, hin11⟩ := seedPos_inGrid img 2 1 1 hr hc (by decide) (by decide)
  refine ⟨((0 : Nat) : Int) * (img.rows / 2 : Nat) + ((img.rows / 2 : Nat) : Int) / 2,
    ((1 : Nat) : Int) * (img.rows / 2 : Nat) + ((img.rows / 2 : Nat) : Int) / 2,
    ((0 : Nat) : Int) * (img.cols / 2 : Nat) + ((img.cols / 2 : Nat) : Int) / 2,
    ((1 : Nat) : Int) * (img.cols / 2 : Nat) + ((img.cols / 2 : Nat) : Int) / 2, ?_, ?_, ?_, ?_, ?_⟩
  · rw [e00] at hin00
    exact hin00
  · rw [e11] at hin11
    exact hin11
  · have : (0 : Int) ≤ ((img.rows / 2 : Nat) : Int) := Int.ofNat_nonneg _
    push_cast
    omega
  · have : (0 : Int) ≤ ((img.cols / 2 : Nat) : Int) := Int.ofNat_nonneg _
    push_cast
    omega
  · rw [hq]
    simp only [List.map_cons, List.map_nil]
    rw [e00, e01, e10, e11]

theorem seed_unique (img : Mat) (n : Nat) (h255 : n ≤ 255) (i j : Nat) (s2 s : PixelInfo)
    (hi : (seeding (RegionGrower.new img) n).pixelQueue[i]? = some s2)
    (hj : (seeding (RegionGrower.new img) n).pixelQueue[j]? = some s)
    (e1 : s2.posY = s.posY) (e2 : s2.posX = s.posX) : i = j := by
  have inv := SeedInv_seedLoop img n h255
  have h1 := (inv.cats i s2 hi).2.1
  have h2 := (inv.cats j s hj).2.1
  rw [e1, e2] at h1
  omega

theorem not_label_of_closer (S : List PixelInfo) (labels : Mat) (hn : Nearest S labels)
    (y x : Int) (k : Nat) (sk s2 : PixelInfo) (hk : 1 ≤ k) (hsk : S[k - 1]? = some sk)
    (hs2 : s2 ∈ S) (hlt : pixelDistance s2 y x < pixelDistance sk y x) :
    labels.data y x ≠ k := by
  intro hlab
  have := hn y x sk (by omega) (by rw [hlab]; exact hsk) s2 hs2
  omega

/-- Two labels `a ≠ b` at the ends of a row segment that holds no other label
give a recorded border from `a` to `b`. -/
theorem row_border (img labels : Mat) (a b : Nat) (hab : a ≠ b) (y xa xb : Int) (hlt : xa < xb)
    (hina : InGrid img y xa) (hinb : InGrid img y xb) (hla : labels.data y xa = a)
    (hlb : labels.data y xb = b)
    (hall : ∀ t, xa ≤ t → t ≤ xb → labels.data y t = a ∨ labels.data y t = b) :
    (borderScan img labels BorderStats.zeros).borderEffectiveness a b > 0 := by
  have hxb : xa + ((xb - xa - 1).toNat : Int) + 1 = xb := by omega
  obtain ⟨t, h1, h2, h3, h4⟩ := transition (fun t => labels.data y t) a b xa (xb - xa - 1).toNat
    hla (by rw [hxb]; exact hlb) (fun t ht1 ht2 => hall t ht1 (by omega))
  unfold InGrid at hina hinb
  apply borderEffectiveness_pos img labels a b hab ((y, t), (y, t + 1)) _ h3 h4
  rw [mem_adjacencies]
  unfold InGrid
  dsimp only
  refine ⟨by omega, by omega, Or.inl rfl⟩

/-- Two labels `a ≠ b` at the ends of a column segment that holds no other
label give a recorded border from `a` to `b`. -/
theorem col_border (img labels : Mat) (a b : Nat) (hab : a ≠ b) (x ya yb : Int) (hlt : ya < yb)
    (hina : InGrid img ya x) (hinb : InGrid img yb x) (hla : labels.data ya x = a)
    (hlb : labels.data yb x = b)
    (hall : ∀ t, ya ≤ t → t ≤ yb → labels.data t x = a ∨ labels.data t x = b) :
    (borderScan img labels BorderStats.zeros).borderEffectiveness a b > 0 := by
  have hyb : ya + ((yb - ya - 1).toNat : Int) + 1 = yb := by omega
  obtain ⟨t, h1, h2, h3, h4⟩ := transition (fun t => labels.data t x) a b ya (yb - ya - 1).toNat
    hla (by rw [hyb]; exact hlb) (fun t ht1 ht2 => hall t ht1 (by omega))
  unfold InGrid at hina hinb
  apply borderEffectiveness_pos img labels a b hab ((t, x), (t + 1, x)) _ h3 h4
  rw [mem_adjacencies]
  unfold InGrid
  dsimp only
  refine ⟨by omega, by omega, Or.inr rfl⟩

/-- When every recorded border is mergeable, a border from 1 to 2 sends id 2
to 1. -/
theorem sweep_two (st : BorderStats) (n : Nat) (hn : 2 ≤ n)
    (hM : ∀ i j, Mergeable st.borderEffectiveness st.borderSimilarity i j
      ↔ st.borderEffectiveness i j > 0)
    (h12 : st.borderEffectiveness 1 2 > 0) : (sweepUpTo st n n).regionMapping 2 = 1 := by
  rw [sweepUpTo_last_write st n 1 2 (by omega) (by omega) hn ((hM 1 2).2 h12)
    (fun i2 h1 h2 => by omega) n (by omega)]
  exact sweep_one st n n

/-- When every recorded border is mergeable, borders from 1 to 2, from 1 to 3
and from 3 to 4 send the ids 2, 3 and 4 to 1. -/
theorem sweep_four (st : BorderStats) (n : Nat) (hn : 4 ≤ n)
    (hM : ∀ i j, Mergeable st.borderEffectiveness st.borderSimilarity i j
      ↔ st.borderEffectiveness i j > 0)
    (h12 : st.borderEffectiveness 1 2 > 0) (h13 : st.borderEffectiveness 1 3 > 0)
    (h34 : st.borderEffectiveness 3 4 > 0) :
    (sweepUpTo st n n).regionMapping 2 = 1 ∧ (sweepUpTo st n n).regionMapping 3 = 1 ∧
    (sweepUpTo st n n).regionMapping 4 = 1 := by
  have h2 := sweep_two st n (by omega) hM h12
  have h3 : (sweepUpTo st n n).regionMapping 3 = 1 := by
    by_cases h23 : Mergeable st.borderEffectiveness st.borderSimilarity 2 3
    · rw [sweepUpTo_last_write st n 2 3 (by omega) (by omega) (by omega) h23
        (fun i2 h1 h2 => by omega) n (by omega)]
      exact h2
    · rw [sweepUpTo_last_write st n 1 3 (by omega) (by omega) (by omega) ((hM 1 3).2 h13)
        (fun i2 h1 h2 => by
          have : i2 = 2 := by omega
          rw [this]
          exact h23) n (by omega)]
      exact sweep_one st n n
  refine ⟨h2, h3, ?_⟩
  rw [sweepUpTo_last_write st n 3 4 (by omega) (by omega) hn ((hM 3 4).2 h34)
    (fun i2 h1 h2 => by omega) n (by omega)]
  exact h3

theorem colorLoop_spec (colors : Nat → Nat × Nat × Nat) (rm : Mat) (cells : List (Nat × Nat))
    (m0 : ColorMat) (r c : Int) (h : ∃ x ∈ cells, r = x.1 ∧ c = x.2) :
    (cells.foldl (fun cm (x : Nat × Nat) => cm.set x.1 x.2 (colors (rm.data x.1 x.2)))
      m0).data r c = colors (rm.data r c) := by
  induction cells using List.reverseRecOn with
  | nil =>
    obtain ⟨x, hx, _⟩ := h
    simp at hx
  | append_singleton cells x ih =>
    rw [List.foldl_append, List.foldl_cons, List.foldl_nil]
    show (if r = (x.1 : Int) ∧ c = (x.2 : Int) then colors (rm.data x.1 x.2) else _) = _
    by_cases hx : r = (x.1 : Int) ∧ c = (x.2 : Int)
    · rw [if_pos hx, hx.1, hx.2]
    · rw [if_neg hx]
      apply ih
      obtain ⟨z, hz, hz2⟩ := h
      rcases List.mem_append.1 hz with hz | hz
      · exact ⟨z, hz, hz2⟩
      · rw [List.mem_singleton.1 hz] at hz2
        exact absurd hz2 hx

/-- Every pixel of the colour image holds the colour of its label. -/
theorem colorize_data (colors : Nat → Nat × Nat × Nat) (rm : Mat) (y x : Int) (hy0 : 0 ≤ y)
    (hy1 : y < rm.rows) (hx0 : 0 ≤ x) (hx1 : x < rm.cols) :
    (colorize colors rm).data y x = colors (rm.data y x) := by
  have hflat : colorize colors rm =
      (cellsOf (List.range rm.rows) (List.range rm.cols)).foldl
        (fun cm (c : Nat × Nat) => cm.set c.1 c.2 (colors (rm.data c.1 c.2)))
        (ColorMat.zeros rm.rows rm.cols) := by
    unfold colorize
    exact foldl_nested_eq (fun (cm : ColorMat) (i j : Nat) =>
      cm.set (i : Int) (j : Int) (colors (rm.data i j))) _ _ _
  rw [hflat]
  apply colorLoop_spec
  refine ⟨(y.toNat, x.toNat), ?_, ?_, ?_⟩
  · rw [mem_cellsOf, List.mem_range, List.mem_range]
    dsimp only
    omega
  · dsimp only
    omega
  · dsimp only
    omega

/-- Four seeds at the corners of a rectangle, ids in row-major order: the
regions of the seeds 1 and 2, 1 and 3, 3 and 4 share a recorded border. -/
theorem borders_four (img labels : Mat) (y0 y1 x0 x1 : Int) (hy : y0 < y1) (hx : x0 < x1)
    (hin0 : InGrid img y0 x0) (hin1 : InGrid img y1 x1) (i1 i2 i3 i4 : Int)
    (hn : Nearest
      [{ category := 1, posX := x0, posY := y0, intensity := i1 },
       { category := 2, posX := x1, posY := y0, intensity := i2 },
       { category := 3, posX := x0, posY := y1, intensity := i3 },
       { category := 4, posX := x1, posY := y1, intensity := i4 }] labels)
    (hrange : ∀ y x, InGrid img y x → 1 ≤ labels.data y x ∧ labels.data y x ≤ 4)
    (hl1 : labels.data y0 x0 = 1) (hl2 : labels.data y0 x1 = 2)
    (hl3 : labels.data y1 x0 = 3) (hl4 : labels.data y1 x1 = 4) :
    (borderScan img labels BorderStats.zeros).borderEffectiveness 1 2 > 0 ∧
    (borderScan img labels BorderStats.zeros).borderEffectiveness 1 3 > 0 ∧
    (borderScan img labels BorderStats.zeros).borderEffectiveness 3 4 > 0 := by
  unfold InGrid at hin0 hin1
  refine ⟨?_, ?_, ?_⟩
  · refine row_border img labels 1 2 (by decide) y0 x0 x1 hx (by unfold InGrid; omega)
      (by unfold InGrid; omega) hl1 hl2 ?_
    intro t ht1 ht2
    have hr := hrange y0 t (by unfold InGrid; omega)
    have h3 := not_label_of_closer _ labels hn y0 t 3
      { category := 3, posX := x0, posY := y1, intensity := i3 }
      { category := 1, posX := x0, posY := y0, intensity := i1 } (by decide) rfl (by simp)
      (by unfold pixelDistance; dsimp only; omega)
    have h4 := not_label_of_closer _ labels hn y0 t 4
      { category := 4, posX := x1, posY := y1, intensity := i4 }
      { category := 2, posX := x1, posY := y0, intensity := i2 } (by decide) rfl (by simp)
      (by unfold pixelDistance; dsimp only; omega)
    omega
  · refine col_border img labels 1 3 (by decide) x0 y0 y1 hy (by unfold InGrid; omega)
      (by unfold InGrid; omega) hl1 hl3 ?_
    intro t ht1 ht2
    have hr := hrange t x0 (by unfold InGrid; omega)
    have h2 := not_label_of_closer _ labels hn t x0 2
      { category := 2, posX := x1, posY := y0, intensity := i2 }
      { category := 1, posX := x0, posY := y0, intensity := i1 } (by decide) rfl (by simp)
      (by unfold pixelDistance; dsimp only; omega)
    have h4 := not_label_of_closer _ labels hn t x0 4
      { category := 4, posX := x1, posY := y1, intensity := i4 }
      { category := 3, posX := x0, posY := y1, intensity := i3 } (by decide) rfl (by simp)
      (by unfold pixelDistance; dsimp only; omega)
    omega
  · refine row_border img labels 3 4 (by decide) y1 x0 x1 hx (by unfold InGrid; omega)
      (by unfold InGrid; omega) hl3 hl4 ?_
    intro t ht1 ht2
    have hr := hrange y1 t (by unfold InGrid; omega)
    have h1 := not_label_of_closer _ labels hn y1 t 1
      { category := 1, posX := x0, posY := y0, intensity := i1 }
      { category := 3, posX := x0, posY := y1, intensity := i3 } (by decide) rfl (by simp)
      (by unfold pixelDistance; dsimp only; omega)
    have h2 := not_label_of_closer _ labels hn y1 t 2
      { category := 2, posX := x1, posY := y0, intensity := i2 }
      { category := 4, posX := x1, posY := y1, intensity := i4 } (by decide) rfl (by simp)
      (by unfold pixelDistance; dsimp only; omega)
    omega

/-- C12. Uniform scenario: on every non-empty grid whose pixels all have the
same intensity, `execute` with `seedCount = 4` ends growth with an empty queue
and every pixel labelled; every recorded border has similarity count equal to
its effectiveness count, so its ratio is exactly 1 (also as stored by the
sweep for `1 ≤ i ≤ j ≤ 4`); after merge sweep and remap every cell of the
final label grid holds the label 1, and the colour image holds the single
colour `colors[1]`. -/
theorem uniform_grid_single_label (img : Mat) (hr : 1 ≤ img.rows) (hc : 1 ≤ img.cols)
    (hu : Uniform img) :
    (seedAndGrow img 4).pixelQueue = [] ∧
    (∀ y x, InGrid img y x → (seedAndGrow img 4).regionMap.data y x ≠ 0) ∧
    (∀ a b, (executeStats img 4).borderEffectiveness a b > 0 →
      (executeStats img 4).borderSimilarity a b
        / ((executeStats img 4).borderEffectiveness a b : ℚ) = 1) ∧
    (∀ i j, 1 ≤ i → i ≤ j → j ≤ 4 → (executeStats img 4).borderEffectiveness i j > 0 →
      (mergeSweep (executeStats img 4) 4).borderSimilarity i j = 1) ∧
    (∀ y x, InGrid img y x → (executeLabels img 4).data y x = 1) ∧
    (∀ (colors : Nat → Nat × Nat × Nat) (y x : Int), InGrid img y x →
      (colorize colors (executeLabels img 4)).data y x = colors 1) := by
  have h255 : 4 ≤ 255 := by decide
  have hdone := seedAndGrow_done img 4 hr hc h255
  have hgrow := GrowInv_seedAndGrow img 4 hr hc h255
  obtain ⟨L, hbfs⟩ := BfsInv_seedAndGrow img hu 4 hr hc h255
  have hM := fun i j => uniform_mergeable img (seedAndGrow img 4).regionMap hu i j
  have hlabOf : ∀ s ∈ (seeding (RegionGrower.new img) 4).pixelQueue, ∀ y x, InGrid img y x →
      (seedAndGrow img 4).regionMap.data y x ≠ 0 :=
    fun s hs y x hin => all_labelled img hu _ _ hgrow hdone s hs y x hin
  have hseedlab : ∀ j s, (seeding (RegionGrower.new img) 4).pixelQueue[j]? = some s →
      (seedAndGrow img 4).regionMap.data s.posY s.posX = j + 1 :=
    fun j s hs => label_at_seed img _ L _ hbfs j s hs
      (fun i s2 hi e1 e2 => seed_unique img 4 h255 i j s2 s hi hs e1 e2)
  have hratio : ∀ a b, (executeStats img 4).borderEffectiveness a b > 0 →
      (executeStats img 4).borderSimilarity a b
        / ((executeStats img 4).borderEffectiveness a b : ℚ) = 1 := by
    intro a b hpos
    unfold executeStats at hpos ⊢
    rw [uniform_similarity img _ hu a b]
    apply div_self
    have : (borderScan img (seedAndGrow img 4).regionMap
        BorderStats.zeros).borderEffectiveness a b ≠ 0 := by omega
    exact_mod_cast this
  have key : (∀ y x, InGrid img y x → (seedAndGrow img 4).regionMap.data y x ≠ 0) ∧
      ∀ k, 1 ≤ k → k ≤ (seeding (RegionGrower.new img) 4).pixelQueue.length →
        (sweepUpTo (executeStats img 4) 4 4).regionMapping k = 1 := by
    obtain ⟨y0, y1, x0, x1, hin0, hin1, hy, hx, hS⟩ := seeds_four img hr hc
    have hrangeOf : ∀ s ∈ (seeding (RegionGrower.new img) 4).pixelQueue, ∀ y x,
        InGrid img y x → 1 ≤ (seedAndGrow img 4).regionMap.data y x ∧
          (seedAndGrow img 4).regionMap.data y x
            ≤ (seeding (RegionGrower.new img) 4).pixelQueue.length := by
      intro s hs y x hin
      obtain ⟨_, _, h1, h2, _⟩ := label_seed img _ L _ hbfs y x (hlabOf s hs y x hin)
      exact ⟨h1, h2⟩
    have hnear := hbfs.nearest
    rcases lt_or_eq_of_le hy with hylt | hyeq
    · rcases lt_or_eq_of_le hx with hxlt | hxeq
      · have hxne : x1 ≠ x0 := ne_of_gt hxlt
        have hyne : y1 ≠ y0 := ne_of_gt hylt
        simp [acceptSeed, hxne, hyne, hxne.symm, hyne.symm] at hS
        have hl1 := hseedlab 0 _ (by rw [hS]; rfl)
        have hl2 := hseedlab 1 _ (by rw [hS]; rfl)
        have hl3 := hseedlab 2 _ (by rw [hS]; rfl)
        have hl4 := hseedlab 3 _ (by rw [hS]; rfl)
        have hlab := hlabOf _ (List.getElem?_mem (show
          (seeding (RegionGrower.new img) 4).pixelQueue[0]? = some _ by rw [hS]; rfl))
        have hrange := hrangeOf _ (List.getElem?_mem (show
          (seeding (RegionGrower.new img) 4).pixelQueue[0]? = some _ by rw [hS]; rfl))
        rw [hS] at hnear hrange
        obtain ⟨b12, b13, b34⟩ := borders_four img _ y0 y1 x0 x1 hylt hxlt hin0 hin1 _ _ _ _
          hnear hrange hl1 hl2 hl3 hl4
        obtain ⟨m2, m3, m4⟩ := sweep_four (executeStats img 4) 4 (le_refl _) hM b12 b13 b34
        refine ⟨hlab, ?_⟩
        intro k hk1 hk2
        rw [hS] at hk2
        simp only [List.length_cons, List.length_nil] at hk2
        have hk : k = 1 ∨ k = 2 ∨ k = 3 ∨ k = 4 := by omega
        rcases hk with rfl | rfl | rfl | rfl
        · exact sweep_one _ _ _
        · exact m2
        · exact m3
        · exact m4
      · have hyne : y1 ≠ y0 := ne_of_gt hylt
        subst hxeq
        simp [acceptSeed, hyne, hyne.symm] at hS
        have hl1 := hseedlab 0 _ (by rw [hS]; rfl)
        have hl2 := hseedlab 1 _ (by rw [hS]; rfl)
        have hlab := hlabOf _ (List.getElem?_mem (show
          (seeding (RegionGrower.new img) 4).pixelQueue[0]? = some _ by rw [hS]; rfl))
        have hrange := hrangeOf _ (List.getElem?_mem (show
          (seeding (RegionGrower.new img) 4).pixelQueue[0]? = some _ by rw [hS]; rfl))
        rw [hS] at hrange
        simp only [List.length_cons, List.length_nil] at hrange
        unfold InGrid at hin0 hin1
        have b12 := col_border img (seedAndGrow img 4).regionMap 1 2 (by decide) x0 y0 y1 hylt
          (by unfold InGrid; omega) (by unfold InGrid; omega) hl1 hl2
          (fun t ht1 ht2 => by
            have := hrange t x0 (by unfold InGrid; omega)
            omega)
        have m2 := sweep_two (executeStats img 4) 4 (by decide) hM b12
        refine ⟨hlab, ?_⟩
        intro k hk1 hk2
        rw [hS] at hk2
        simp only [List.length_cons, List.length_nil] at hk2
        have hk : k = 1 ∨ k = 2 := by omega
        rcases hk with rfl | rfl
        · exact sweep_one _ _ _
        · exact m2
    · rcases lt_or_eq_of_le hx with hxlt | hxeq
      · have hxne : x1 ≠ x0 := ne_of_gt hxlt
        subst hyeq
        simp [acceptSeed, hxne, hxne.symm] at hS
        have hl1 := hseedlab 0 _ (by rw [hS]; rfl)
        have hl2 := hseedlab 1 _ (by rw [hS]; rfl)
        have hlab := hlabOf _ (List.getElem?_mem (show
          (seeding (RegionGrower.new img) 4).pixelQueue[0]? = some _ by rw [hS]; rfl))
        have hrange := hrangeOf _ (List.getElem?_mem (show
          (seeding (RegionGrower.new img) 4).pixelQueue[0]? = some _ by rw [hS]; rfl))
        rw [hS] at hrange
        simp only [List.length_cons, List.length_nil] at hrange
        unfold InGrid at hin0 hin1
        have b12 := row_border img (seedAndGrow img 4).regionMap 1 2 (by decide) y0 x0 x1 hxlt
          (by unfold InGrid; omega) (by unfold InGrid; omega) hl1 hl2
          (fun t ht1 ht2 => by
            have := hrange y0 t (by unfold InGrid; omega)
            omega)
        have m2 := sweep_two (executeStats img 4) 4 (by decide) hM b12
        refine ⟨hlab, ?_⟩
        intro k hk1 hk2
        rw [hS] at hk2
        simp only [List.length_cons, List.length_nil] at hk2
        have hk : k = 1 ∨ k = 2 := by omega
        rcases hk with rfl | rfl
        · exact sweep_one _ _ _
        · exact m2
      · subst hyeq
        subst hxeq
        simp [acceptSeed] at hS
        have hlab := hlabOf _ (List.getElem?_mem (show
          (seeding (RegionGrower.new img) 4).pixelQueue[0]? = some _ by rw [hS]; rfl))
        refine ⟨hlab, ?_⟩
        intro k hk1 hk2
        rw [hS] at hk2
        simp only [List.length_cons, List.length_nil] at hk2
        have hk : k = 1 := by omega
        rw [hk]
        exact sweep_one _ _ _
  obtain ⟨hlab, hmap⟩ := key
  have hfinal : ∀ y x, InGrid img y x → (executeLabels img 4).data y x = 1 := by
    intro y x hin
    rw [executeLabels_lookup img 4 y x hin.1 hin.2.1 hin.2.2.1 hin.2.2.2]
    unfold executeMapping
    rw [mergeSweep_eq]
    obtain ⟨_, _, h1, h2, _⟩ := label_seed img _ L _ hbfs y x (hlab y x hin)
    exact hmap _ h1 h2
  refine ⟨hdone, hlab, hratio, ?_, hfinal, ?_⟩
  · intro i j hi hij hj hpos
    rw [mergeSweep_eq, sweepUpTo_cell _ 4 i j hi hij hj 4, if_neg (by omega), if_pos hpos]
    exact hratio i j hpos
  · intro colors y x hin
    obtain ⟨_, hrows, hcols, _⟩ := Basic_seedAndGrow img 4
    have hdim := remap_spec (executeMapping img 4) (seedAndGrow img 4).regionMap y x
    rw [colorize_data colors _ y x hin.1
      (by unfold executeLabels; rw [hdim.1, hrows]; exact hin.2.1) hin.2.2.1
      (by unfold executeLabels; rw [hdim.2.1, hcols]; exact hin.2.2.2), hfinal y x hin]

theorem uniform_grid_single_label_witness :
    (1 ≤ flatGrid.rows ∧ 1 ≤ flatGrid.cols ∧ Uniform flatGrid) ∧
    (executeLabels flatGrid 4).data 2 3 = 1 :=
  ⟨⟨by decide, by decide, fun _ _ _ _ _ _ => rfl⟩,
    (uniform_grid_single_label flatGrid (by decide) (by decide)
      (fun _ _ _ _ _ _ => rfl)).2.2.2.2.1 2 3 ⟨by decide, by decide, by decide, by decide⟩⟩

end TP1
